import Mathlib

/-!
# long_term_optimization_and_harmony.c

A shallow embedding of the three algorithmic routines of the program
(`simulateFlowNetwork`, `optimizeResourceAllocation`,
`combinatoricsTeamFormation`) together with theorems about them.

Conventions of the embedding.

* C `int` values are integers (`Int`); array indices are `Nat`.
* The update loop and the outer loop of `simulateFlowNetwork` are given twice. On 32-bit `int`
  (`augmentLoop32`, `iteration32`, `mainLoop32`, `runFlow32`, `simulateFlowNetwork32`) every
  `-=` and `+=` is reduced to the range `-2^31 .. 2^31 - 1` by `wrap32`. With exact arithmetic
  (`augmentLoop`, `iteration`, `mainLoop`, `runFlow`, `simulateFlowNetwork`) nothing is reduced:
  this is the run of the code as long as no `int` overflows, and the two runs are compared in
  `mainLoop32_eq` and `iteration32_exact`. The search and the minimum loop do no arithmetic and
  are shared.
* A C array is a total function from indices; the arrays of the program have
  `MAX` cells, the functions of the embedding are defined on every index.
* A local array that the program does not initialise starts with arbitrary
  contents, passed in as `Locals`.
* `while` loops carry a fuel argument and return `none` when the fuel runs out
  before the loop has ended. `for` loops with a fixed trip count are plain
  recursions on the remaining trip count.
-/

namespace Harmony

/-- The array bound of the program: `#define MAX 100`. -/
def MAX : Nat := 100

/-- One-dimensional array store `a[i] = x`. -/
def set1 {α : Type} (a : Nat → α) (i : Nat) (x : α) : Nat → α :=
  fun k => if k = i then x else a k

/-- Two-dimensional array store `a[i][j] = x`. -/
def set2 (a : Nat → Nat → Int) (i j : Nat) (x : Int) : Nat → Nat → Int :=
  fun k l => if k = i ∧ l = j then x else a k l

/-! ## simulateFlowNetwork -/

/-- Arbitrary initial contents of the uninitialised locals `capacity` and
`parent` of `simulateFlowNetwork`. -/
structure Locals where
  capacity : Nat → Nat → Int
  parent : Nat → Int

/-- The locals of one breadth-first search: `queue[0..rear)` as a list (so
`rear` is its length), `front`, `visited` and `parent`. -/
structure BfsState where
  queue : List Nat
  front : Nat
  visited : Nat → Bool
  parent : Nat → Int

/-- The variables that live across iterations of the outer `while (1)`. -/
structure FlowState where
  capacity : Nat → Nat → Int
  parent : Nat → Int
  maxFlow : Int

/-- The loop `for (j = ...; j < n; j++) capacity[i][j] = graph[i][j]`, with `k`
iterations left. -/
def copyRow (graph : Nat → Nat → Int) (i : Nat) :
    Nat → Nat → (Nat → Nat → Int) → (Nat → Nat → Int)
  | 0, _, capacity => capacity
  | k + 1, j, capacity => copyRow graph i k (j + 1) (set2 capacity i j (graph i j))

/-- The loop `for (i = ...; i < n; i++)` around `copyRow`, with `k` iterations left. -/
def copyRows (graph : Nat → Nat → Int) (n : Nat) :
    Nat → Nat → (Nat → Nat → Int) → (Nat → Nat → Int)
  | 0, _, capacity => capacity
  | k + 1, i, capacity => copyRows graph n k (i + 1) (copyRow graph i n 0 capacity)

/-- The table `capacity` after the copy loops that initialise it from `graph`. -/
def initCapacity (graph : Nat → Nat → Int) (n : Nat) (capacity0 : Nat → Nat → Int) :
    Nat → Nat → Int :=
  copyRows graph n n 0 capacity0

/-- The loop `for (next = ...; next < n; next++)` of the search, with `k`
iterations left: an unvisited `next` with `capacity[current][next] > 0` is
enqueued, marked and given `current` as parent; the loop is left when that
`next` is the sink. -/
def scanLoop (capacity : Nat → Nat → Int) (current sink : Nat) :
    Nat → Nat → BfsState → BfsState
  | 0, _, b => b
  | k + 1, next, b =>
    if b.visited next = false ∧ 0 < capacity current next then
      let b1 : BfsState :=
        { queue := b.queue ++ [next]
          front := b.front
          visited := set1 b.visited next true
          parent := set1 b.parent next (current : Int) }
      if next = sink then b1 else scanLoop capacity current sink k (next + 1) b1
    else scanLoop capacity current sink k (next + 1) b

/-- The loop `while (front < rear && !visited[sink])`. -/
def bfsLoop (capacity : Nat → Nat → Int) (sink n : Nat) : Nat → BfsState → Option BfsState
  | 0, _ => none
  | fuel + 1, b =>
    if b.front < b.queue.length ∧ b.visited sink = false then
      let current := b.queue.getD b.front 0
      bfsLoop capacity sink n fuel
        (scanLoop capacity current sink n 0 { b with front := b.front + 1 })
    else some b

/-- The state with which the search starts: `visited` cleared, the source
enqueued and marked, `parent[source] = -1`. -/
def bfsInit (parent : Nat → Int) (source : Nat) : BfsState :=
  { queue := [source]
    front := 0
    visited := set1 (fun _ => false) source true
    parent := set1 parent source (-1) }

/-- One breadth-first search of the residual table. -/
def bfs (fuel : Nat) (capacity : Nat → Nat → Int) (parent : Nat → Int) (source sink n : Nat) :
    Option BfsState :=
  bfsLoop capacity sink n fuel (bfsInit parent source)

/-- The first loop `while (v != source)`: the running minimum `pathFlow`. -/
def pathFlowLoop (capacity : Nat → Nat → Int) (parent : Nat → Int) (source : Nat) :
    Nat → Nat → Int → Option Int
  | 0, _, _ => none
  | fuel + 1, v, pathFlow =>
    if v ≠ source then
      let u := (parent v).toNat
      pathFlowLoop capacity parent source fuel u
        (if pathFlow < capacity u v then pathFlow else capacity u v)
    else some pathFlow

/-- The second loop `while (v != source)`: the residual update, with exact arithmetic (the
loop on 32-bit `int` is `augmentLoop32`). -/
def augmentLoop (parent : Nat → Int) (source : Nat) (pathFlow : Int) :
    Nat → Nat → (Nat → Nat → Int) → Option (Nat → Nat → Int)
  | 0, _, _ => none
  | fuel + 1, v, capacity =>
    if v ≠ source then
      let u := (parent v).toNat
      let c1 := set2 capacity u v (capacity u v - pathFlow)
      let c2 := set2 c1 v u (c1 v u + pathFlow)
      augmentLoop parent source pathFlow fuel u c2
    else some capacity

/-- What one pass through the body of `while (1)` does. -/
inductive Step where
  | stop (st : FlowState)
  | again (st : FlowState)

/-- One pass through the body of `while (1)`: `stop` on `break`, `again` after
an augmentation. The fuel bounds each inner `while` loop. Arithmetic is exact (the pass on
32-bit `int` is `iteration32`). -/
def iteration (fuel : Nat) (source sink n : Nat) (st : FlowState) : Option Step :=
  match bfs fuel st.capacity st.parent source sink n with
  | none => none
  | some b =>
    if b.visited sink = false then some (Step.stop { st with parent := b.parent })
    else
      match pathFlowLoop st.capacity b.parent source fuel sink 9999 with
      | none => none
      | some pathFlow =>
        match augmentLoop b.parent source pathFlow fuel sink st.capacity with
        | none => none
        | some capacity1 =>
          some (Step.again
            { capacity := capacity1, parent := b.parent, maxFlow := st.maxFlow + pathFlow })

/-- The loop `while (1)`, `fuel` passes at most, with exact arithmetic (on 32-bit `int`:
`mainLoop32`). -/
def mainLoop (inner : Nat) (source sink n : Nat) : Nat → FlowState → Option FlowState
  | 0, _ => none
  | fuel + 1, st =>
    match iteration inner source sink n st with
    | none => none
    | some (Step.stop st1) => some st1
    | some (Step.again st1) => mainLoop inner source sink n fuel st1

/-- The state before the first pass. -/
def initState (graph : Nat → Nat → Int) (n : Nat) (l : Locals) : FlowState :=
  { capacity := initCapacity graph n l.capacity, parent := l.parent, maxFlow := 0 }

/-- The run of `simulateFlowNetwork` up to the final `printf`, with exact arithmetic (on 32-bit
`int`: `runFlow32`). -/
def runFlow (fuel : Nat) (graph : Nat → Nat → Int) (source sink n : Nat) (l : Locals) :
    Option FlowState :=
  mainLoop fuel source sink n fuel (initState graph n l)

/-- The value `simulateFlowNetwork` prints as "Max Flow Achieved", with exact arithmetic (on
32-bit `int`: `simulateFlowNetwork32`). -/
def simulateFlowNetwork (fuel : Nat) (graph : Nat → Nat → Int) (source sink n : Nat)
    (l : Locals) : Option Int :=
  (runFlow fuel graph source sink n l).map FlowState.maxFlow

/-- The value a 32-bit two's complement `int` holds when the exact result is `x`. -/
def wrap32 (x : Int) : Int := (x + 2147483648) % 4294967296 - 2147483648

/-- The second loop `while (v != source)` with 32-bit arithmetic: both updates wrap. -/
def augmentLoop32 (parent : Nat → Int) (source : Nat) (pathFlow : Int) :
    Nat → Nat → (Nat → Nat → Int) → Option (Nat → Nat → Int)
  | 0, _, _ => none
  | fuel + 1, v, capacity =>
    if v ≠ source then
      let u := (parent v).toNat
      let c1 := set2 capacity u v (wrap32 (capacity u v - pathFlow))
      let c2 := set2 c1 v u (wrap32 (c1 v u + pathFlow))
      augmentLoop32 parent source pathFlow fuel u c2
    else some capacity

/-- One pass through the body of `while (1)` with 32-bit arithmetic. -/
def iteration32 (fuel : Nat) (source sink n : Nat) (st : FlowState) : Option Step :=
  match bfs fuel st.capacity st.parent source sink n with
  | none => none
  | some b =>
    if b.visited sink = false then some (Step.stop { st with parent := b.parent })
    else
      match pathFlowLoop st.capacity b.parent source fuel sink 9999 with
      | none => none
      | some pathFlow =>
        match augmentLoop32 b.parent source pathFlow fuel sink st.capacity with
        | none => none
        | some capacity1 =>
          some (Step.again
            { capacity := capacity1, parent := b.parent,
              maxFlow := wrap32 (st.maxFlow + pathFlow) })

/-- The loop `while (1)` with 32-bit arithmetic. -/
def mainLoop32 (inner : Nat) (source sink n : Nat) : Nat → FlowState → Option FlowState
  | 0, _ => none
  | fuel + 1, st =>
    match iteration32 inner source sink n st with
    | none => none
    | some (Step.stop st1) => some st1
    | some (Step.again st1) => mainLoop32 inner source sink n fuel st1

/-- The run of `simulateFlowNetwork` with 32-bit arithmetic. -/
def runFlow32 (fuel : Nat) (graph : Nat → Nat → Int) (source sink n : Nat) (l : Locals) :
    Option FlowState :=
  mainLoop32 fuel source sink n fuel (initState graph n l)

/-- The value `simulateFlowNetwork` prints, computed with 32-bit arithmetic. -/
def simulateFlowNetwork32 (fuel : Nat) (graph : Nat → Nat → Int) (source sink n : Nat)
    (l : Locals) : Option Int :=
  (runFlow32 fuel graph source sink n l).map FlowState.maxFlow

/-- A table given by its rows, zero elsewhere (a C initialiser list). -/
def table (rows : List (List Int)) : Nat → Nat → Int :=
  fun i j => (rows.getD i []).getD j 0

/-- The initialiser of `flowGraph` in `main`. -/
def flowGraph : Nat → Nat → Int :=
  table [[0, 10, 5, 15, 0], [0, 0, 10, 5, 15], [0, 0, 0, 10, 5], [0, 0, 0, 0, 15],
    [0, 0, 0, 0, 0]]

/-- Row sum of a table over the nodes `0..n-1`. -/
def rowSum (c : Nat → Nat → Int) (n w : Nat) : Int := ∑ v ∈ Finset.range n, c w v

/-- Reachable from `s` along edges of positive residual capacity among the nodes `0..n-1`. -/
def Reach (c : Nat → Nat → Int) (n s : Nat) : Nat → Prop :=
  Relation.ReflTransGen (fun a b => a < n ∧ b < n ∧ 0 < c a b) s

/-- Well-formedness of the search state. -/
structure BfsWf (c : Nat → Nat → Int) (s n : Nat) (rank : Nat → Nat) (b : BfsState) : Prop where
  mem_iff : ∀ v, b.visited v = true ↔ v ∈ b.queue
  nodup : b.queue.Nodup
  lt_n : ∀ v ∈ b.queue, v < n
  src : s ∈ b.queue
  rank_lt : ∀ v ∈ b.queue, rank v < b.queue.length
  tree : ∀ v ∈ b.queue, v ≠ s →
    ∃ u : Nat, b.parent v = (u : Int) ∧ u ∈ b.queue ∧ rank u < rank v ∧ 0 < c u v
  reach : ∀ v ∈ b.queue, Reach c n s v

/-- The nodes of `P` have all their residual successors visited, unless the sink is visited. -/
def Closed (c : Nat → Nat → Int) (t n : Nat) (P : List Nat) (vis : Nat → Bool) : Prop :=
  vis t = false → ∀ u ∈ P, ∀ v, v < n → 0 < c u v → vis v = true

/-- What a finished search has established. -/
structure BfsDone (c : Nat → Nat → Int) (s t n : Nat) (rank : Nat → Nat) (b : BfsState) : Prop where
  wf : BfsWf c s n rank b
  closed : b.visited t = false → ∀ u ∈ b.queue, ∀ v, v < n → 0 < c u v → v ∈ b.queue

/-- The parent links lead from `v` to the source in `k` steps, along edges `u -> v` between nodes
below `n` with `r ≤ c u v`, the rank falling at each step. -/
inductive Chain (c : Nat → Nat → Int) (p : Nat → Int) (s n : Nat) (rank : Nat → Nat) (r : Int) :
    Nat → Nat → Prop
  | base : Chain c p s n rank r 0 s
  | step {k u v : Nat} : v ≠ s → p v = (u : Int) → u < n → v < n → rank u < rank v →
      r ≤ c u v → Chain c p s n rank r k u → Chain c p s n rank r (k + 1) v

/-- The state of the residual table while the update loop stands at node `x`: `c` is the table
before the update, `low` a lower bound of its entries, `r` the amount pushed. -/
structure AugInv (low c : Nat → Nat → Int) (n t : Nat) (rank : Nat → Nat) (r : Int) (x : Nat)
    (c1 : Nat → Nat → Int) : Prop where
  agree : ∀ a b, rank a ≤ rank x → rank b ≤ rank x → c1 a b = c a b
  lower : ∀ a b, a < n → b < n → low a b ≤ c1 a b
  pair : ∀ a b, a < n → b < n → c1 a b + c1 b a = c a b + c b a
  rows : ∀ w, w < n →
    rowSum c1 n w + (if w = x then r else 0) = rowSum c n w + (if w = t then r else 0)

/-- The sum of the positive capacities on the edges that leave `s`. -/
def outCap (graph : Nat → Nat → Int) (n s : Nat) : Int :=
  ∑ v ∈ Finset.range n, max (graph s v) 0

/-- Fuel that is enough for `simulateFlowNetwork` on a graph with `n` nodes and source `s`. -/
def fuelBound (graph : Nat → Nat → Int) (s n : Nat) : Nat :=
  n + 1 + (outCap graph n s).toNat

/-- The invariant of the outer loop. -/
structure FlowInv (graph : Nat → Nat → Int) (s t n : Nat) (st : FlowState) : Prop where
  lower : ∀ a b, a < n → b < n → min (graph a b) 0 ≤ st.capacity a b
  pair : ∀ a b, a < n → b < n →
    st.capacity a b + st.capacity b a = graph a b + graph b a
  rows : ∀ w, w < n →
    rowSum st.capacity n w + (if w = s then st.maxFlow else 0) =
      rowSum graph n w + (if w = t then st.maxFlow else 0)
  flow_nonneg : 0 ≤ st.maxFlow

/-- No augmenting path is left: a set of nodes holds the source and not the sink, is closed under
edges of positive residual capacity, and all its nodes are reachable from the source. -/
def Saturated (s t n : Nat) (st : FlowState) : Prop :=
  ∃ S : Finset Nat, s ∈ S ∧ t ∉ S ∧ (∀ u ∈ S, u < n) ∧
    (∀ u ∈ S, ∀ v, v < n → 0 < st.capacity u v → v ∈ S) ∧
    (∀ u ∈ S, Reach st.capacity n s u)

/-- A feasible flow of the network `graph` on the nodes `0..n-1`, with values in an ordered
ring `K`: within the capacities and conserved at every node but `s` and `t`. -/
structure IsFlow {K : Type} [LinearOrderedCommRing K] (graph : Nat → Nat → Int) (n s t : Nat)
    (f : Nat → Nat → K) : Prop where
  nonneg : ∀ u v, u < n → v < n → 0 ≤ f u v
  le_cap : ∀ u v, u < n → v < n → f u v ≤ ((graph u v : Int) : K)
  conserve : ∀ w, w < n → w ≠ s → w ≠ t →
    ∑ u ∈ Finset.range n, f u w = ∑ v ∈ Finset.range n, f w v

/-- The value of a flow: what leaves `s` minus what enters it. -/
def flowValue {K : Type} [LinearOrderedCommRing K] (f : Nat → Nat → K) (n s : Nat) : K :=
  ∑ v ∈ Finset.range n, f s v - ∑ u ∈ Finset.range n, f u s

/-- The flow that the residual table encodes: the positive part of `graph - capacity`. -/
def residualFlow (graph capacity : Nat → Nat → Int) : Nat → Nat → Int :=
  fun u v => max (graph u v - capacity u v) 0

/-- The number of augmentations the outer loop performs before it ends. -/
def augmentations (inner : Nat) (source sink n : Nat) : Nat → FlowState → Option Nat
  | 0, _ => none
  | fuel + 1, st =>
    match iteration inner source sink n st with
    | none => none
    | some (Step.stop _) => some 0
    | some (Step.again st1) => (augmentations inner source sink n fuel st1).map (· + 1)

/-- The nodes the loops `while (v != source)` pass through, listed from the source to `v`. -/
def pathNodes (parent : Nat → Int) (source : Nat) : Nat → Nat → List Nat → Option (List Nat)
  | 0, _, _ => none
  | fuel + 1, v, acc =>
    if v ≠ source then pathNodes parent source fuel (parent v).toNat (v :: acc)
    else some (v :: acc)

/-- The augmentations of a run in order: the path walked and the amount added to `maxFlow`. -/
def augmentTrace (inner : Nat) (source sink n : Nat) :
    Nat → FlowState → Option (List (List Nat × Int))
  | 0, _ => none
  | fuel + 1, st =>
    match iteration inner source sink n st with
    | none => none
    | some (Step.stop _) => some []
    | some (Step.again st1) =>
      match pathNodes st1.parent source inner sink [], augmentTrace inner source sink n fuel st1 with
      | some path, some rest => some ((path, st1.maxFlow - st.maxFlow) :: rest)
      | _, _ => none

/-- The number of edges of positive capacity among the nodes `0..n-1`. -/
def edgeCount (graph : Nat → Nat → Int) (n : Nat) : Nat :=
  ((Finset.range n ×ˢ Finset.range n).filter (fun e => 0 < graph e.1 e.2)).card

/-- The diamond graph of scenario 2. -/
def diamond : Nat → Nat → Int :=
  table [[0, 10, 10, 0], [0, 0, 0, 10], [0, 0, 0, 10], [0, 0, 0, 0]]

/-- Locals that start zeroed. -/
def zeroLocals : Locals := ⟨fun _ _ => 0, fun _ => 0⟩

/-! ## optimizeResourceAllocation -/

/-- The loop `for (j = ...; j < m; j++)`: the running `(minCost, taskIndex)`, with `k` iterations
left. -/
def pickLoop (costs : Nat → Nat → Int) (assigned : Nat → Bool) (i : Nat) :
    Nat → Nat → Int × Int → Int × Int
  | 0, _, acc => acc
  | k + 1, j, (minCost, taskIndex) =>
    if assigned j = false ∧ costs i j < minCost then
      pickLoop costs assigned i k (j + 1) (costs i j, (j : Int))
    else pickLoop costs assigned i k (j + 1) (minCost, taskIndex)

/-- The loop `for (i = ...; i < n; i++)`, with `k` iterations left. The store
`assigned[taskIndex] = 1` with `taskIndex = -1` lies outside the array: `none`. -/
def assignLoop (costs : Nat → Nat → Int) (m : Nat) :
    Nat → Nat → (Nat → Bool) → (Nat → Int) → Option (Nat → Int)
  | 0, _, _, solution => some solution
  | k + 1, i, assigned, solution =>
    let taskIndex := (pickLoop costs assigned i m 0 (9999, -1)).2
    if taskIndex < 0 then none
    else assignLoop costs m k (i + 1) (set1 assigned taskIndex.toNat true)
      (set1 solution i taskIndex)

/-- The array `solution` after `optimizeResourceAllocation(costs, n, m, solution)`. -/
def optimizeResourceAllocation (costs : Nat → Nat → Int) (n m : Nat) (solution : Nat → Int) :
    Option (Nat → Int) :=
  assignLoop costs m n 0 (fun _ => false) solution

/-- The total cost of an assignment of tasks to the employees `0..n-1`. -/
def assignmentCost (costs : Nat → Nat → Int) (n : Nat) (solution : Nat → Int) : Int :=
  ((List.range n).map (fun i => costs i (solution i).toNat)).sum

/-- The initialiser of `resourceCosts` in `main`. -/
def resourceCosts : Nat → Nat → Int :=
  table [[10, 20, 30, 40, 50], [15, 25, 35, 45, 55], [20, 30, 40, 50, 60],
    [25, 35, 45, 55, 65], [30, 40, 50, 60, 70]]

/-! ## combinatoricsTeamFormation -/

/-- The loop `for (i = ...; i < k; i++) combination[i] = i`, with `cnt` iterations left. -/
def initLoop : Nat → Nat → (Nat → Nat) → (Nat → Nat)
  | 0, _, combination => combination
  | cnt + 1, i, combination => initLoop cnt (i + 1) (set1 combination i i)

/-- The array `combination` when the loop `while (1)` is entered. -/
def initCombination (k : Nat) (combination0 : Nat → Nat) : Nat → Nat :=
  initLoop k 0 combination0

/-- The loop `while (i >= 0 && combination[i] == n - k + i) i--`, entered with `i = m - 1`:
`none` when it ends with `i < 0`, else the final `i`. The comparison is made on integers. -/
def findPivot (combination : Nat → Nat) (n k : Nat) : Nat → Option Nat
  | 0 => none
  | i + 1 =>
    if (combination i : Int) = (n : Int) - (k : Int) + (i : Int) then findPivot combination n k i
    else some i

/-- The loop `for (j = ...; j < k; j++) combination[j] = combination[i] + j - i`, with `cnt`
iterations left. -/
def resetLoop (i : Nat) : Nat → Nat → (Nat → Nat) → (Nat → Nat)
  | 0, _, c => c
  | cnt + 1, j, c => resetLoop i cnt (j + 1) (set1 c j (c i + j - i))

/-- The cells `combination[0..k)` that one pass prints (as member numbers, each plus one). -/
def team (k : Nat) (combination : Nat → Nat) : List Nat :=
  (List.range k).map combination

/-- The loop `while (1)` of `combinatoricsTeamFormation`: the teams printed, in order. -/
def teamLoop (n k : Nat) : Nat → (Nat → Nat) → Option (List (List Nat))
  | 0, _ => none
  | fuel + 1, c =>
    match findPivot c n k k with
    | none => some [team k c]
    | some i =>
      (teamLoop n k fuel (resetLoop i (k - (i + 1)) (i + 1) (set1 c i (c i + 1)))).map
        (fun rest => team k c :: rest)

/-- The teams that `combinatoricsTeamFormation(n, k)` prints, as index tuples. -/
def combinatoricsTeamFormation (fuel n k : Nat) (combination0 : Nat → Nat) :
    Option (List (List Nat)) :=
  teamLoop n k fuel (initCombination k combination0)

/-- The cells `c 0 .. c (k-1)` are strictly increasing and below `n`. -/
structure ValidC (n k : Nat) (c : Nat → Nat) : Prop where
  mono : ∀ i, i + 1 < k → c i < c (i + 1)
  lt_n : ∀ i, i < k → c i < n

/-- Lexicographic order on the cells `0..k-1`. -/
def LexLt (k : Nat) (a b : Nat → Nat) : Prop :=
  ∃ p, p < k ∧ (∀ j, j < p → a j = b j) ∧ a p < b p

/-- The combination after one pass with pivot `i`. -/
def nextCombination (k i : Nat) (c : Nat → Nat) : Nat → Nat :=
  resetLoop i (k - (i + 1)) (i + 1) (set1 c i (c i + 1))

/-- A team: `k` strictly increasing indices below `n`. -/
def IsTeam (n k : Nat) (t : List Nat) : Prop :=
  t.length = k ∧ t.Pairwise (· < ·) ∧ ∀ x ∈ t, x < n

/-- Lexicographic order on teams. -/
def TeamLt (s t : List Nat) : Prop := List.Lex (· < ·) s t

/-! ## Further notions for simulateFlowNetwork -/

/-- The states of the outer loop: `st` is reached from `st0` by zero or more passes that each
perform an augmentation. -/
inductive Reached (inner source sink n : Nat) (st0 : FlowState) : FlowState → Prop
  | start : Reached inner source sink n st0 st0
  | step {st st1 : FlowState} : Reached inner source sink n st0 st →
      iteration inner source sink n st = some (Step.again st1) →
      Reached inner source sink n st0 st1

/-- The invariant of the search, for every input. `P` holds the dequeued nodes whose scan is
complete, `R` the rest of the queue, `d` the depth of each enqueued node in the search tree. -/
structure Level (c : Nat → Nat → Int) (s n : Nat) (d : Nat → Nat) (P R : List Nat)
    (b : BfsState) : Prop where
  queue_eq : b.queue = P ++ R
  mem_iff : ∀ v, b.visited v = true ↔ v ∈ b.queue
  src : s ∈ b.queue
  d_src : d s = 0
  d_lt : ∀ v ∈ b.queue, d v < b.queue.length
  sorted : R.Pairwise (fun u v => d u ≤ d v)
  near : ∀ v ∈ b.queue, ∀ w ∈ R, d v ≤ d w + 1
  closed : ∀ u ∈ P, ∀ v, v < n → 0 < c u v → v ∈ b.queue ∧ d v ≤ d u + 1
  tree : ∀ v ∈ b.queue, v ≠ s →
    ∃ u : Nat, b.parent v = (u : Int) ∧ u ∈ b.queue ∧ d v = d u + 1 ∧ 0 < c u v ∧ v < n

/-- The parent links lead from a node to the source inside the queue `q`, along edges of
positive capacity, the depth falling by one at each link. -/
inductive Trail (c : Nat → Nat → Int) (p : Nat → Int) (s n : Nat) (d : Nat → Nat)
    (q : List Nat) : Nat → Prop
  | base : s ∈ q → Trail c p s n d q s
  | step {u v : Nat} : v ≠ s → v ∈ q → p v = (u : Int) → v < n → d v = d u + 1 →
      0 < c u v → Trail c p s n d q u → Trail c p s n d q v

/-- The edge `(u, v)`, with `u = parent[v]`, is passed by the loops `while (v != source)` when
they are entered at `x`. -/
inductive PathEdge (p : Nat → Int) (s : Nat) : Nat → Nat → Nat → Prop
  | first {x : Nat} : x ≠ s → PathEdge p s x (p x).toNat x
  | later {x u v : Nat} : x ≠ s → PathEdge p s (p x).toNat u v → PathEdge p s x u v

/-- A walk of `m` edges of positive capacity from `a`, each into a node below `n`. -/
inductive Walk (c : Nat → Nat → Int) (n a : Nat) : Nat → Nat → Prop
  | nil : Walk c n a 0 a
  | snoc {m u v : Nat} : Walk c n a m u → v < n → 0 < c u v → Walk c n a (m + 1) v

/-- The array `parent` that agrees with `p` on the visited nodes and with `q` elsewhere. -/
def mixParent (visited : Nat → Bool) (p q : Nat → Int) : Nat → Int :=
  fun v => if visited v = true then p v else q v

/-- The search state with the unvisited cells of `parent` taken from `q`. -/
def reparent (q : Nat → Int) (b : BfsState) : BfsState :=
  { b with parent := mixParent b.visited b.parent q }

/-! ## Further notions for optimizeResourceAllocation -/

/-- The running `(minCost, taskIndex)` of employee `i` before the inner loop looks at task `j`:
either still `(9999, -1)` with no free task of cost below 9999 among `0..j-1`, or the first free
task of least cost among `0..j-1`, that cost being below 9999. -/
def Pick (costs : Nat → Nat → Int) (assigned : Nat → Bool) (i j : Nat) (acc : Int × Int) : Prop :=
  (acc.2 = -1 ∧ acc.1 = 9999 ∧ ∀ j1, j1 < j → assigned j1 = false → 9999 ≤ costs i j1) ∨
  ∃ j0 : Nat, acc.2 = (j0 : Int) ∧ j0 < j ∧ assigned j0 = false ∧ acc.1 = costs i j0 ∧
    acc.1 < 9999 ∧
    (∀ j1, j1 < j → assigned j1 = false → acc.1 ≤ costs i j1) ∧
    (∀ j1, j1 < j0 → assigned j1 = false → acc.1 < costs i j1)

/-- Employee `i` holds task `j < m`, which no earlier employee holds and which is the
lowest-index task of least cost for `i` among the tasks no earlier employee holds. -/
def Greedy (costs : Nat → Nat → Int) (m : Nat) (sol : Nat → Int) (i j : Nat) : Prop :=
  sol i = (j : Int) ∧ j < m ∧ (∀ i1, i1 < i → sol i1 ≠ (j : Int)) ∧
  ∀ j1, j1 < m → (∀ i1, i1 < i → sol i1 ≠ (j1 : Int)) →
    costs i j ≤ costs i j1 ∧ (costs i j1 = costs i j → j ≤ j1)

/-! ## The run on 32-bit `int` -/

/-- The states of the 32-bit run met at the top of the loop: `st0`, and the state after each
pass that augments. -/
inductive Reached32 (inner source sink n : Nat) (st0 : FlowState) : FlowState → Prop
  | start : Reached32 inner source sink n st0 st0
  | step {st st1 : FlowState} : Reached32 inner source sink n st0 st →
      iteration32 inner source sink n st = some (Step.again st1) →
      Reached32 inner source sink n st0 st1

/-- The invariant of the outer loop on 32-bit `int`, which needs no bound on the input: the
entries are `int` values, row `s` and column `t` of the residual table only fall, and the
total is the wrapped amount by which row `s` fell, which is the amount by which column `t`
fell. -/
structure RowInv (graph : Nat → Nat → Int) (s t n : Nat) (st : FlowState) : Prop where
  range : ∀ a b, a < n → b < n →
    -2147483648 ≤ st.capacity a b ∧ st.capacity a b ≤ 2147483647
  src : ∀ v, v < n → min (graph s v) 0 ≤ st.capacity s v ∧ st.capacity s v ≤ graph s v
  snk : ∀ u, u < n → min (graph u t) 0 ≤ st.capacity u t ∧ st.capacity u t ≤ graph u t
  flow : st.maxFlow = wrap32 (rowSum graph n s - rowSum st.capacity n s)
  col : rowSum graph n s - rowSum st.capacity n s =
    ∑ u ∈ Finset.range n, (graph u t - st.capacity u t)

/-- A valid input on which a residual entry leaves the range of `int`: the path 0->1->2->5 is
augmented by 5 and `capacity[2][1] = 2147483647` is raised by 5. -/
def overflowGraph : Nat → Nat → Int :=
  table [[0, 5, 0, 5, 0, 0], [0, 0, 5, 0, 5, 0], [0, 2147483647, 0, 0, 0, 5],
    [0, 0, 5, 0, 0, 0], [0, 0, 0, 0, 0, 5], [0, 0, 0, 0, 0, 0]]

/-- The residual table the 32-bit run leaves on `overflowGraph`. -/
def overflowFinal : Nat → Nat → Int :=
  table [[0, 0, 0, 5, 0, 0], [5, 0, 0, 0, 5, 0], [0, -2147483644, 0, 0, 0, 0],
    [0, 0, 5, 0, 0, 0], [0, 0, 0, 0, 0, 5], [0, 0, 5, 0, 0, 0]]

/-- A valid input on which the total leaves the range of `int`: the maximum flow value is
`2 * 2147483647`. -/
def bigGraph : Nat → Nat → Int :=
  table [[0, 2147483647, 2147483647], [0, 0, 2147483647], [0, 0, 0]]

/-! ## Lemmas and theorems -/

theorem set1_same {α : Type} (a : Nat → α) (i : Nat) (x : α) : set1 a i x i = x := by
  simp [set1]

theorem set1_other {α : Type} (a : Nat → α) (i k : Nat) (x : α) (h : k ≠ i) :
    set1 a i x k = a k := by
  simp [set1, h]

theorem BfsWf.length_le {c : Nat → Nat → Int} {s n : Nat} {rank : Nat → Nat} {b : BfsState}
    (wf : BfsWf c s n rank b) : b.queue.length ≤ n := by
  have h1 : b.queue.toFinset.card = b.queue.length := List.toFinset_card_of_nodup wf.nodup
  have h2 : b.queue.toFinset ⊆ Finset.range n := by
    intro v hv
    exact Finset.mem_range.mpr (wf.lt_n v (List.mem_toFinset.mp hv))
  have h3 := Finset.card_le_card h2
  simp only [Finset.card_range] at h3
  omega

theorem BfsWf.enqueue {c : Nat → Nat → Int} {s n : Nat} {rank : Nat → Nat} {b : BfsState}
    (wf : BfsWf c s n rank b) {current next : Nat} (hcur : current ∈ b.queue)
    (hnext : next < n) (hvis : b.visited next = false) (hcap : 0 < c current next) :
    BfsWf c s n (set1 rank next (rank current + 1))
      { queue := b.queue ++ [next]
        front := b.front
        visited := set1 b.visited next true
        parent := set1 b.parent next (current : Int) } := by
  have hnq : next ∉ b.queue := by
    intro h
    have := (wf.mem_iff next).mpr h
    simp [hvis] at this
  have hne : ∀ v ∈ b.queue, v ≠ next := fun v hv h => hnq (h ▸ hv)
  refine ⟨?_, ?_, ?_, ?_, ?_, ?_, ?_⟩
  · intro v
    by_cases h : v = next
    · subst h; simp [set1]
    · simp [set1, h, wf.mem_iff v]
  · exact List.Nodup.append wf.nodup (List.nodup_singleton _) (by simpa using hnq)
  · intro v hv
    rcases List.mem_append.mp hv with h | h
    · exact wf.lt_n v h
    · simp at h; omega
  · exact List.mem_append_left _ wf.src
  · intro v hv
    simp only [List.length_append, List.length_singleton]
    rcases List.mem_append.mp hv with h | h
    · rw [set1_other _ _ _ _ (hne v h)]
      exact Nat.lt_succ_of_lt (wf.rank_lt v h)
    · simp at h
      subst h
      rw [set1_same]
      exact Nat.succ_lt_succ (wf.rank_lt current hcur)
  · intro v hv hvs
    rcases List.mem_append.mp hv with h | h
    · obtain ⟨u, hp, hu, hr, hc⟩ := wf.tree v h hvs
      refine ⟨u, ?_, List.mem_append_left _ hu, ?_, hc⟩
      · show set1 b.parent next (current : Int) v = u
        rw [set1_other _ _ _ _ (hne v h)]; exact hp
      · rw [set1_other _ _ _ _ (hne v h), set1_other _ _ _ _ (hne u hu)]; exact hr
    · simp at h
      subst h
      refine ⟨current, ?_, List.mem_append_left _ hcur, ?_, hcap⟩
      · show set1 b.parent v (current : Int) v = current
        rw [set1_same]
      · rw [set1_same, set1_other _ _ _ _ (hne current hcur)]; omega
  · intro v hv
    rcases List.mem_append.mp hv with h | h
    · exact wf.reach v h
    · simp at h
      subst h
      exact Relation.ReflTransGen.tail (wf.reach current hcur) ⟨wf.lt_n current hcur, hnext, hcap⟩

theorem Closed.mono {c : Nat → Nat → Int} {t n : Nat} {P : List Nat} {vis vis1 : Nat → Bool}
    (h : Closed c t n P vis) (hmono : ∀ v, vis v = true → vis1 v = true) :
    Closed c t n P vis1 := by
  intro ht u hu v hv hc
  have ht0 : vis t = false := by
    cases hvt : vis t with
    | false => rfl
    | true => rw [hmono t hvt] at ht; exact absurd ht (by decide)
  exact hmono v (h ht0 u hu v hv hc)

theorem scanLoop_spec (c : Nat → Nat → Int) (s t n current : Nat) (P : List Nat) :
    ∀ (k next : Nat) (b : BfsState) (rank : Nat → Nat), next + k = n →
      BfsWf c s n rank b → current ∈ b.queue → Closed c t n P b.visited →
      (b.visited t = false → ∀ v, v < next → 0 < c current v → b.visited v = true) →
      ∃ rank1, BfsWf c s n rank1 (scanLoop c current t k next b) ∧
        (scanLoop c current t k next b).front = b.front ∧
        (∃ l, (scanLoop c current t k next b).queue = b.queue ++ l) ∧
        Closed c t n (current :: P) (scanLoop c current t k next b).visited := by
  intro k
  induction k with
  | zero =>
    intro next b rank hn wf _ hP hcur
    refine ⟨rank, wf, rfl, ⟨[], by simp [scanLoop]⟩, ?_⟩
    intro ht u hu v hv hc
    simp only [scanLoop] at ht ⊢
    rcases List.mem_cons.mp hu with h | h
    · subst h
      exact hcur ht v (by omega) hc
    · exact hP ht u h v hv hc
  | succ k ih =>
    intro next b rank hn wf hmem hP hcur
    unfold scanLoop
    by_cases hcond : b.visited next = false ∧ 0 < c current next
    · rw [if_pos hcond]
      have wf1 := wf.enqueue hmem (by omega : next < n) hcond.1 hcond.2
      have hmono : ∀ v, b.visited v = true → set1 b.visited next true v = true := by
        intro v hv
        by_cases h : v = next
        · subst h; exact set1_same _ _ _
        · rw [set1_other _ _ _ _ h]; exact hv
      by_cases hsink : next = t
      · subst hsink
        rw [if_pos rfl]
        refine ⟨_, wf1, rfl, ⟨[next], rfl⟩, ?_⟩
        intro ht
        simp [set1] at ht
      · rw [if_neg hsink]
        obtain ⟨rank2, wf2, hfront, ⟨l, hl⟩, hclosed⟩ :=
          ih (next + 1) _ _ (by omega) wf1 (List.mem_append_left _ hmem) (hP.mono hmono)
            (by
              intro ht v hv hc
              have ht0 : b.visited t = false := by
                have : set1 b.visited next true t = b.visited t :=
                  set1_other _ _ _ _ (fun h => hsink h.symm)
                rw [← this]; exact ht
              by_cases h : v = next
              · subst h; exact set1_same _ _ _
              · exact hmono v (hcur ht0 v (by omega) hc))
        refine ⟨rank2, wf2, hfront, ⟨next :: l, ?_⟩, hclosed⟩
        rw [hl]; simp
    · rw [if_neg hcond]
      exact ih (next + 1) b rank (by omega) wf hmem hP
        (by
          intro ht v hv hc
          by_cases h : v = next
          · subst h
            cases hvv : b.visited v with
            | true => rfl
            | false => exact absurd ⟨hvv, hc⟩ hcond
          · exact hcur ht v (by omega) hc)

theorem Closed.of_mem {c : Nat → Nat → Int} {t n : Nat} {P Q : List Nat} {vis : Nat → Bool}
    (h : Closed c t n P vis) (hsub : ∀ u ∈ Q, u ∈ P) : Closed c t n Q vis :=
  fun ht u hu v hv hc => h ht u (hsub u hu) v hv hc

theorem bfsLoop_spec (c : Nat → Nat → Int) (s t n : Nat) :
    ∀ (fuel : Nat) (b : BfsState) (rank : Nat → Nat), BfsWf c s n rank b →
      b.front ≤ b.queue.length → Closed c t n (b.queue.take b.front) b.visited →
      n < fuel + b.front →
      ∃ b1 rank1, bfsLoop c t n fuel b = some b1 ∧ BfsWf c s n rank1 b1 ∧
        Closed c t n (b1.queue.take b1.front) b1.visited ∧
        ¬ (b1.front < b1.queue.length ∧ b1.visited t = false) ∧
        b1.front ≤ b1.queue.length := by
  intro fuel
  induction fuel with
  | zero =>
    intro b rank wf hfront _ hfuel
    have := wf.length_le
    omega
  | succ fuel ih =>
    intro b rank wf hfront hclosed hfuel
    unfold bfsLoop
    by_cases hcond : b.front < b.queue.length ∧ b.visited t = false
    · rw [if_pos hcond]
      have hget : b.queue.getD b.front 0 = b.queue[b.front] := by
        simp [List.getD_eq_getElem?_getD, List.getElem?_eq_getElem hcond.1]
      have hmem : b.queue.getD b.front 0 ∈ b.queue := by
        rw [hget]; exact List.getElem_mem _
      have wf0 : BfsWf c s n rank { b with front := b.front + 1 } :=
        ⟨wf.mem_iff, wf.nodup, wf.lt_n, wf.src, wf.rank_lt, wf.tree, wf.reach⟩
      obtain ⟨rank1, wf1, hfront1, ⟨l, hl⟩, hclosed1⟩ :=
        scanLoop_spec c s t n (b.queue.getD b.front 0) (b.queue.take b.front) n 0
          { b with front := b.front + 1 } rank (by omega) wf0 hmem hclosed
          (fun _ v hv _ => absurd hv (Nat.not_lt_zero v))
      simp only at hfront1 hl
      apply ih _ rank1 wf1
      · rw [hfront1, hl, List.length_append]; omega
      · apply hclosed1.of_mem
        intro u hu
        rw [hfront1, hl, List.take_append_of_le_length (by omega : b.front + 1 ≤ b.queue.length),
          List.take_succ, List.getElem?_eq_getElem hcond.1] at hu
        simp only [Option.toList_some, List.mem_append, List.mem_singleton] at hu
        rcases hu with h | h
        · exact List.mem_cons_of_mem _ h
        · rw [h, hget]; exact List.mem_cons_self _ _
      · rw [hfront1]; omega
    · rw [if_neg hcond]
      exact ⟨b, rank, rfl, wf, hclosed, hcond, hfront⟩

theorem bfsInit_wf (c : Nat → Nat → Int) (p : Nat → Int) (s n : Nat) (hs : s < n) :
    BfsWf c s n (fun _ => 0) (bfsInit p s) := by
  refine ⟨?_, ?_, ?_, ?_, ?_, ?_, ?_⟩
  · intro v
    by_cases h : v = s
    · subst h; simp [bfsInit, set1]
    · simp [bfsInit, set1, h]
  · simp [bfsInit]
  · intro v hv
    simp [bfsInit] at hv
    omega
  · simp [bfsInit]
  · intro v _
    simp [bfsInit]
  · intro v hv hvs
    simp [bfsInit] at hv
    exact absurd hv hvs
  · intro v hv
    simp [bfsInit] at hv
    subst hv
    exact Relation.ReflTransGen.refl

theorem bfs_spec (c : Nat → Nat → Int) (p : Nat → Int) (s t n fuel : Nat) (hs : s < n)
    (hfuel : n < fuel) :
    ∃ b rank, bfs fuel c p s t n = some b ∧ BfsDone c s t n rank b := by
  obtain ⟨b, rank, hb, wf, hclosed, hexit, hfront⟩ :=
    bfsLoop_spec c s t n fuel (bfsInit p s) (fun _ => 0) (bfsInit_wf c p s n hs)
      (by simp [bfsInit]) (by intro _ u hu; simp [bfsInit] at hu) (by simpa [bfsInit] using hfuel)
  refine ⟨b, rank, hb, wf, ?_⟩
  intro ht u hu v hv hc
  have hlen : b.queue.length ≤ b.front := by
    by_contra h
    exact hexit ⟨by omega, ht⟩
  have : b.queue.take b.front = b.queue := List.take_of_length_le hlen
  rw [this] at hclosed
  exact (wf.mem_iff v).mp (hclosed ht u hu v hv hc)

theorem pathFlowLoop_spec {c : Nat → Nat → Int} {s n : Nat} {rank : Nat → Nat} {b : BfsState}
    (wf : BfsWf c s n rank b) :
    ∀ (fuel v : Nat) (pf : Int), v ∈ b.queue → rank v < fuel →
      ∃ r k, pathFlowLoop c b.parent s fuel v pf = some r ∧ r ≤ pf ∧ (0 < pf → 0 < r) ∧
        k < fuel ∧ Chain c b.parent s n rank r k v := by
  intro fuel
  induction fuel with
  | zero => intro v pf _ h; omega
  | succ fuel ih =>
    intro v pf hv hrank
    unfold pathFlowLoop
    by_cases hvs : v = s
    · subst hvs
      simp only [ne_eq, not_true_eq_false, if_false]
      exact ⟨pf, 0, rfl, le_refl _, id, Nat.succ_pos _, Chain.base⟩
    · rw [if_pos hvs]
      obtain ⟨u, hp, hu, hr, hc⟩ := wf.tree v hv hvs
      have hu' : (b.parent v).toNat = u := by rw [hp]; exact Int.toNat_natCast u
      simp only [hu']
      obtain ⟨r, k, hres, hle, hpos, hk, hchain⟩ :=
        ih u (if pf < c u v then pf else c u v) hu (by omega)
      refine ⟨r, k + 1, hres, ?_, ?_, by omega, ?_⟩
      · split_ifs at hle <;> omega
      · intro h; apply hpos; split_ifs <;> omega
      · refine Chain.step hvs hp (wf.lt_n u hu) (wf.lt_n v hv) hr ?_ hchain
        split_ifs at hle <;> omega

theorem set2_apply (c : Nat → Nat → Int) (i j : Nat) (x : Int) (k l : Nat) :
    set2 c i j x k l = if k = i ∧ l = j then x else c k l := rfl

theorem rowSum_set2 (c : Nat → Nat → Int) (n i j w : Nat) (x : Int) (hj : j < n) :
    rowSum (set2 c i j x) n w = rowSum c n w + (if w = i then x - c i j else 0) := by
  unfold rowSum
  by_cases h : w = i
  · subst h
    rw [if_pos rfl]
    have : ∀ v ∈ Finset.range n,
        set2 c w j x w v = c w v + (if v = j then x - c w j else 0) := by
      intro v _
      rw [set2_apply]
      by_cases hv : v = j
      · subst hv; simp
      · simp [hv]
    rw [Finset.sum_congr rfl this, Finset.sum_add_distrib, Finset.sum_ite_eq']
    simp [hj]
  · rw [if_neg h, add_zero]
    apply Finset.sum_congr rfl
    intro v _
    simp [set2_apply, h]

theorem augmentLoop_spec {low c : Nat → Nat → Int} {p : Nat → Int} {s t n : Nat}
    {rank : Nat → Nat} {r : Int} (hr : 0 ≤ r) (hlow : ∀ a b, low a b ≤ 0) :
    ∀ (k x : Nat), Chain c p s n rank r k x → ∀ (fuel : Nat) (c1 : Nat → Nat → Int), k < fuel →
      AugInv low c n t rank r x c1 →
      ∃ c2, augmentLoop p s r fuel x c1 = some c2 ∧ AugInv low c n t rank r s c2 := by
  intro k x hchain
  induction hchain with
  | base =>
    intro fuel c1 hfuel inv
    obtain ⟨fuel, rfl⟩ : ∃ f, fuel = f + 1 := ⟨fuel - 1, by omega⟩
    exact ⟨c1, by simp [augmentLoop], inv⟩
  | @step k u v hvs hp hu hv hrank hle _ ih =>
    intro fuel c1 hfuel inv
    obtain ⟨fuel, rfl⟩ : ∃ f, fuel = f + 1 := ⟨fuel - 1, by omega⟩
    unfold augmentLoop
    rw [if_pos hvs]
    have hu' : (p v).toNat = u := by rw [hp]; exact Int.toNat_natCast u
    simp only [hu']
    have huv : u ≠ v := by intro h; rw [h] at hrank; omega
    have h1 : set2 c1 u v (c1 u v - r) v u = c1 v u := by
      simp [set2_apply, huv, huv.symm]
    rw [h1]
    apply ih fuel _ (by omega)
    have hcuv : c1 u v = c u v := inv.agree u v (by omega) (le_refl _)
    have key : ∀ a b, set2 (set2 c1 u v (c1 u v - r)) v u (c1 v u + r) a b =
        if a = v ∧ b = u then c1 v u + r else if a = u ∧ b = v then c1 u v - r else c1 a b := by
      intro a b; simp [set2_apply]
    refine ⟨?_, ?_, ?_, ?_⟩
    · intro a b ha hb
      have hav : a ≠ v := by intro h; rw [h] at ha; omega
      have hbv : b ≠ v := by intro h; rw [h] at hb; omega
      rw [key, if_neg (fun h => hav h.1), if_neg (fun h => hbv h.2)]
      exact inv.agree a b (by omega) (by omega)
    · intro a b ha hb
      rw [key]
      have := inv.lower a b ha hb
      split_ifs with h1 h2
      · obtain ⟨rfl, rfl⟩ := h1; omega
      · have := hlow a b; rw [hcuv]; omega
      · exact this
    · intro a b ha hb
      rw [key, key]
      have := inv.pair a b ha hb
      by_cases hab : a = v ∧ b = u
      · obtain ⟨rfl, rfl⟩ := hab
        simp [huv, huv.symm] at this ⊢
        omega
      · by_cases hba : a = u ∧ b = v
        · obtain ⟨rfl, rfl⟩ := hba
          simp [huv, huv.symm] at this ⊢
          omega
        · rw [if_neg hab, if_neg hba, if_neg (fun h => hba ⟨h.2, h.1⟩),
            if_neg (fun h => hab ⟨h.2, h.1⟩)]
          exact this
    · intro w hw
      have := inv.rows w hw
      rw [rowSum_set2 _ _ _ _ _ _ hu, rowSum_set2 _ _ _ _ _ _ hv, h1]
      by_cases hwv : w = v
      · subst hwv
        simp [huv.symm] at this ⊢
        omega
      · by_cases hwu : w = u
        · subst hwu
          simp [huv] at this ⊢
          omega
        · simp [hwv, hwu] at this ⊢
          omega

theorem iteration_spec {graph : Nat → Nat → Int} {s t n inner : Nat} {st : FlowState}
    (hs : s < n) (hinner : n < inner) (inv : FlowInv graph s t n st) :
    (∃ st1, iteration inner s t n st = some (Step.stop st1) ∧ st1.capacity = st.capacity ∧
        st1.maxFlow = st.maxFlow ∧ Saturated s t n st1) ∨
    (∃ st1, iteration inner s t n st = some (Step.again st1) ∧ FlowInv graph s t n st1 ∧
        st.maxFlow + 1 ≤ st1.maxFlow) := by
  obtain ⟨b, rank, hb, wf, hclosed⟩ := bfs_spec st.capacity st.parent s t n inner hs hinner
  unfold iteration
  rw [hb]
  by_cases hvis : b.visited t = false
  · left
    refine ⟨{ st with parent := b.parent }, by simp [hvis], rfl, rfl, b.queue.toFinset, ?_⟩
    refine ⟨List.mem_toFinset.mpr wf.src, ?_, ?_, ?_, ?_⟩
    · intro h
      have := (wf.mem_iff t).mpr (List.mem_toFinset.mp h)
      rw [hvis] at this
      exact absurd this (by decide)
    · intro u hu
      exact wf.lt_n u (List.mem_toFinset.mp hu)
    · intro u hu v hv hc
      exact List.mem_toFinset.mpr (hclosed hvis u (List.mem_toFinset.mp hu) v hv hc)
    · intro u hu
      exact wf.reach u (List.mem_toFinset.mp hu)
  · right
    have hvt : b.visited t = true := by
      cases h : b.visited t with
      | true => rfl
      | false => exact absurd h hvis
    have htq : t ∈ b.queue := (wf.mem_iff t).mp hvt
    have hlen := wf.length_le
    have hrk := wf.rank_lt t htq
    obtain ⟨r, k, hpf, _, hpos, hk, hchain⟩ :=
      pathFlowLoop_spec wf inner t 9999 htq (by omega)
    have hr : 0 < r := hpos (by norm_num)
    obtain ⟨c2, hc2, aug⟩ :=
      @augmentLoop_spec (fun a b => min (graph a b) 0) st.capacity b.parent s t n rank r
        (le_of_lt hr) (fun a b => min_le_right _ _) k t hchain inner st.capacity hk
        ⟨fun _ _ _ _ => rfl, inv.lower, fun _ _ _ _ => rfl, fun _ _ => rfl⟩
    refine ⟨{ capacity := c2, parent := b.parent, maxFlow := st.maxFlow + r }, ?_, ?_, ?_⟩
    · simp [hvis, hpf, hc2]
    · refine ⟨aug.lower, ?_, ?_, ?_⟩
      · intro a b' ha hb'
        rw [aug.pair a b' ha hb']
        exact inv.pair a b' ha hb'
      · intro w hw
        have h1 := aug.rows w hw
        have h2 := inv.rows w hw
        show rowSum c2 n w + (if w = s then st.maxFlow + r else 0) =
          rowSum graph n w + (if w = t then st.maxFlow + r else 0)
        split_ifs at h1 h2 ⊢ <;> omega
      · show 0 ≤ st.maxFlow + r
        have := inv.flow_nonneg
        omega
    · show st.maxFlow + 1 ≤ st.maxFlow + r
      omega

theorem FlowInv.flow_le {graph : Nat → Nat → Int} {s t n : Nat} {st : FlowState}
    (hs : s < n) (hst : s ≠ t) (inv : FlowInv graph s t n st) :
    st.maxFlow ≤ outCap graph n s := by
  have h1 := inv.rows s hs
  rw [if_pos rfl, if_neg hst, add_zero] at h1
  have h2 : ∑ v ∈ Finset.range n, min (graph s v) 0 ≤ rowSum st.capacity n s :=
    Finset.sum_le_sum (fun v hv => inv.lower s v hs (Finset.mem_range.mp hv))
  have h3 : rowSum graph n s - ∑ v ∈ Finset.range n, min (graph s v) 0 = outCap graph n s := by
    unfold rowSum outCap
    rw [← Finset.sum_sub_distrib]
    apply Finset.sum_congr rfl
    intro v _
    rcases le_total (graph s v) 0 with h | h
    · rw [min_eq_left h, max_eq_right h]; omega
    · rw [min_eq_right h, max_eq_left h]; omega
  omega

theorem mainLoop_spec {graph : Nat → Nat → Int} {s t n inner : Nat}
    (hs : s < n) (hst : s ≠ t) (hinner : n < inner) :
    ∀ (fuel : Nat) (st : FlowState), FlowInv graph s t n st →
      (outCap graph n s - st.maxFlow).toNat < fuel →
      ∃ st1, mainLoop inner s t n fuel st = some st1 ∧ FlowInv graph s t n st1 ∧
        Saturated s t n st1 := by
  intro fuel
  induction fuel with
  | zero => intro st _ h; omega
  | succ fuel ih =>
    intro st inv hfuel
    unfold mainLoop
    rcases iteration_spec hs hinner inv with ⟨st1, hit, hcap, hmf, hsat⟩ | ⟨st1, hit, inv1, hinc⟩
    · rw [hit]
      refine ⟨st1, rfl, ?_, hsat⟩
      exact ⟨by rw [hcap]; exact inv.lower, by rw [hcap]; exact inv.pair,
        by rw [hcap, hmf]; exact inv.rows, by rw [hmf]; exact inv.flow_nonneg⟩
    · rw [hit]
      have := inv1.flow_le hs hst
      exact ih st1 inv1 (by omega)

theorem copyRow_apply (graph : Nat → Nat → Int) (i : Nat) :
    ∀ (k j : Nat) (c : Nat → Nat → Int) (a b : Nat),
      copyRow graph i k j c a b = if a = i ∧ j ≤ b ∧ b < j + k then graph i b else c a b := by
  intro k
  induction k with
  | zero =>
    intro j c a b
    simp only [copyRow]
    rw [if_neg (by omega)]
  | succ k ih =>
    intro j c a b
    unfold copyRow
    rw [ih, set2_apply]
    by_cases h1 : a = i ∧ j + 1 ≤ b ∧ b < j + 1 + k
    · rw [if_pos h1, if_pos (by omega)]
    · rw [if_neg h1]
      by_cases h2 : a = i ∧ b = j
      · rw [if_pos h2, if_pos (by omega), h2.2]
      · rw [if_neg h2, if_neg (by omega)]

theorem copyRows_apply (graph : Nat → Nat → Int) (n : Nat) :
    ∀ (k i : Nat) (c : Nat → Nat → Int) (a b : Nat),
      copyRows graph n k i c a b =
        if (i ≤ a ∧ a < i + k) ∧ b < n then graph a b else c a b := by
  intro k
  induction k with
  | zero =>
    intro i c a b
    simp only [copyRows]
    rw [if_neg (by omega)]
  | succ k ih =>
    intro i c a b
    unfold copyRows
    rw [ih, copyRow_apply]
    by_cases h1 : (i + 1 ≤ a ∧ a < i + 1 + k) ∧ b < n
    · rw [if_pos h1, if_pos (by omega)]
    · rw [if_neg h1]
      by_cases h2 : a = i ∧ 0 ≤ b ∧ b < 0 + n
      · rw [if_pos h2, if_pos (by omega), h2.1]
      · rw [if_neg h2, if_neg (by omega)]

theorem initCapacity_apply (graph : Nat → Nat → Int) (n : Nat) (capacity0 : Nat → Nat → Int)
    (a b : Nat) :
    initCapacity graph n capacity0 a b = if a < n ∧ b < n then graph a b else capacity0 a b := by
  unfold initCapacity
  rw [copyRows_apply]
  by_cases h : a < n ∧ b < n
  · rw [if_pos h, if_pos (by omega)]
  · rw [if_neg h, if_neg (by omega)]

theorem initState_inv (graph : Nat → Nat → Int) (s t n : Nat) (l : Locals) :
    FlowInv graph s t n (initState graph n l) := by
  have hcap : ∀ a b, a < n → b < n → (initState graph n l).capacity a b = graph a b := by
    intro a b ha hb
    show initCapacity graph n l.capacity a b = graph a b
    rw [initCapacity_apply, if_pos ⟨ha, hb⟩]
  refine ⟨?_, ?_, ?_, le_refl _⟩
  · intro a b ha hb
    rw [hcap a b ha hb]
    exact min_le_left _ _
  · intro a b ha hb
    rw [hcap a b ha hb, hcap b a hb ha]
  · intro w hw
    have : rowSum (initState graph n l).capacity n w = rowSum graph n w :=
      Finset.sum_congr rfl (fun v hv => hcap w v hw (Finset.mem_range.mp hv))
    rw [this]
    simp [initState]

theorem runFlow_spec {graph : Nat → Nat → Int} {s t n fuel : Nat} (l : Locals)
    (hs : s < n) (hst : s ≠ t) (hfuel : fuelBound graph s n ≤ fuel) :
    ∃ st, runFlow fuel graph s t n l = some st ∧ FlowInv graph s t n st ∧ Saturated s t n st := by
  unfold fuelBound at hfuel
  apply mainLoop_spec hs hst (by omega) fuel _ (initState_inv graph s t n l)
  simp only [initState, sub_zero]
  omega

theorem cut_sum {K : Type} [LinearOrderedCommRing K] (h : Nat → Nat → K) (n : Nat)
    (S : Finset Nat) (hS : ∀ u ∈ S, u < n)
    (skew : ∀ u v, u < n → v < n → h u v = - h v u) :
    ∑ u ∈ S, ∑ v ∈ Finset.range n \ S, h u v = ∑ u ∈ S, ∑ v ∈ Finset.range n, h u v := by
  have hsub : S ⊆ Finset.range n := fun u hu => Finset.mem_range.mpr (hS u hu)
  have hzero : ∑ u ∈ S, ∑ v ∈ S, h u v = 0 := by
    have h1 : ∑ u ∈ S, ∑ v ∈ S, h u v = - ∑ u ∈ S, ∑ v ∈ S, h v u := by
      rw [← Finset.sum_neg_distrib]
      apply Finset.sum_congr rfl
      intro u hu
      rw [← Finset.sum_neg_distrib]
      apply Finset.sum_congr rfl
      intro v hv
      exact skew u v (hS u hu) (hS v hv)
    have hc : ∑ u ∈ S, ∑ v ∈ S, h v u = ∑ u ∈ S, ∑ v ∈ S, h u v := Finset.sum_comm
    rw [hc] at h1
    linarith
  have hsplit : ∀ u ∈ S, ∑ v ∈ Finset.range n, h u v =
      ∑ v ∈ Finset.range n \ S, h u v + ∑ v ∈ S, h u v :=
    fun u _ => (Finset.sum_sdiff hsub).symm
  rw [Finset.sum_congr rfl hsplit, Finset.sum_add_distrib, hzero, add_zero]

theorem cut_value {K : Type} [LinearOrderedCommRing K] (h : Nat → Nat → K) (n s t : Nat) (x : K)
    (S : Finset Nat) (hS : ∀ u ∈ S, u < n) (hs : s ∈ S) (ht : t ∉ S)
    (skew : ∀ u v, u < n → v < n → h u v = - h v u)
    (hrow : ∀ w, w < n → w ≠ t → ∑ v ∈ Finset.range n, h w v = if w = s then x else 0) :
    ∑ u ∈ S, ∑ v ∈ Finset.range n \ S, h u v = x := by
  rw [cut_sum h n S hS skew]
  have : ∀ u ∈ S, ∑ v ∈ Finset.range n, h u v = if u = s then x else 0 :=
    fun u hu => hrow u (hS u hu) (fun e => ht (e ▸ hu))
  rw [Finset.sum_congr rfl this, Finset.sum_ite_eq' S s (fun _ => x), if_pos hs]

/-- With the invariant of the loop, the flow `graph - capacity` across any cut that separates
the source from the sink equals `maxFlow`. -/
theorem FlowInv.cut_eq {graph : Nat → Nat → Int} {s t n : Nat} {st : FlowState}
    (inv : FlowInv graph s t n st) (S : Finset Nat) (hS : ∀ u ∈ S, u < n) (hs : s ∈ S)
    (ht : t ∉ S) :
    ∑ u ∈ S, ∑ v ∈ Finset.range n \ S, (graph u v - st.capacity u v) = st.maxFlow := by
  apply cut_value (fun u v => graph u v - st.capacity u v) n s t st.maxFlow S hS hs ht
  · intro u v hu hv
    have := inv.pair u v hu hv
    show graph u v - st.capacity u v = - (graph v u - st.capacity v u)
    omega
  · intro w hw hwt
    have := inv.rows w hw
    rw [if_neg hwt, add_zero] at this
    show ∑ v ∈ Finset.range n, (graph w v - st.capacity w v) = _
    rw [Finset.sum_sub_distrib]
    unfold rowSum at this
    split_ifs at this ⊢ <;> omega

/-- At the end of the run the capacity of the cut around the closed set equals `maxFlow`. -/
theorem FlowInv.cut_capacity {graph : Nat → Nat → Int} {s t n : Nat} {st : FlowState}
    (inv : FlowInv graph s t n st) (hg : ∀ u, u < n → ∀ v, v < n → 0 ≤ graph u v)
    (S : Finset Nat) (hS : ∀ u ∈ S, u < n) (hs : s ∈ S) (ht : t ∉ S)
    (hclosed : ∀ u ∈ S, ∀ v, v < n → 0 < st.capacity u v → v ∈ S) :
    ∑ u ∈ S, ∑ v ∈ Finset.range n \ S, graph u v = st.maxFlow := by
  rw [← inv.cut_eq S hS hs ht]
  apply Finset.sum_congr rfl
  intro u hu
  apply Finset.sum_congr rfl
  intro v hv
  have hvn : v < n := Finset.mem_range.mp (Finset.mem_sdiff.mp hv).1
  have h1 := inv.lower u v (hS u hu) hvn
  rw [min_eq_right (hg u (hS u hu) v hvn)] at h1
  have h2 : ¬ 0 < st.capacity u v := fun h =>
    (Finset.mem_sdiff.mp hv).2 (hclosed u hu v hvn h)
  omega

/-- Weak duality: no feasible flow has a value above the capacity of a cut. -/
theorem IsFlow.value_le_cut {K : Type} [LinearOrderedCommRing K] {graph : Nat → Nat → Int}
    {n s t : Nat} {f : Nat → Nat → K} (hf : IsFlow graph n s t f) (S : Finset Nat)
    (hS : ∀ u ∈ S, u < n) (hs : s ∈ S) (ht : t ∉ S) :
    flowValue f n s ≤ ((∑ u ∈ S, ∑ v ∈ Finset.range n \ S, graph u v : Int) : K) := by
  have hcut := cut_value (fun u v => f u v - f v u) n s t (flowValue f n s) S hS hs ht
    (fun u v _ _ => by ring)
    (by
      intro w hw hwt
      show ∑ v ∈ Finset.range n, (f w v - f v w) = _
      rw [Finset.sum_sub_distrib]
      by_cases hws : w = s
      · subst hws; rw [if_pos rfl]; rfl
      · rw [if_neg hws, hf.conserve w hw hws hwt, sub_self])
  rw [← hcut]
  push_cast
  apply Finset.sum_le_sum
  intro u hu
  apply Finset.sum_le_sum
  intro v hv
  have hvn : v < n := Finset.mem_range.mp (Finset.mem_sdiff.mp hv).1
  have h1 := hf.le_cap u v (hS u hu) hvn
  have h2 := hf.nonneg v u hvn (hS u hu)
  show f u v - f v u ≤ ((graph u v : Int) : K)
  linarith

theorem FlowInv.residualFlow_isFlow {graph : Nat → Nat → Int} {s t n : Nat} {st : FlowState}
    (inv : FlowInv graph s t n st) (hg : ∀ u, u < n → ∀ v, v < n → 0 ≤ graph u v) (hs : s < n)
    (hst : s ≠ t) :
    IsFlow graph n s t (residualFlow graph st.capacity) ∧
      flowValue (residualFlow graph st.capacity) n s = st.maxFlow := by
  have hdiff : ∀ u v, u < n → v < n →
      residualFlow graph st.capacity u v - residualFlow graph st.capacity v u =
        graph u v - st.capacity u v := by
    intro u v hu hv
    have := inv.pair u v hu hv
    unfold residualFlow
    rcases le_total (graph u v - st.capacity u v) 0 with h | h
    · rw [max_eq_right h, max_eq_left (by omega : 0 ≤ graph v u - st.capacity v u)]; omega
    · rw [max_eq_left h, max_eq_right (by omega : graph v u - st.capacity v u ≤ 0)]; omega
  have hrow : ∀ w, w < n →
      ∑ v ∈ Finset.range n, residualFlow graph st.capacity w v -
        ∑ u ∈ Finset.range n, residualFlow graph st.capacity u w =
      rowSum graph n w - rowSum st.capacity n w := by
    intro w hw
    unfold rowSum
    rw [← Finset.sum_sub_distrib, ← Finset.sum_sub_distrib]
    exact Finset.sum_congr rfl (fun v hv => hdiff w v hw (Finset.mem_range.mp hv))
  refine ⟨⟨?_, ?_, ?_⟩, ?_⟩
  · intro u v _ _
    exact le_max_right _ _
  · intro u v hu hv
    have h1 := inv.lower u v hu hv
    have h2 := hg u hu v hv
    rw [min_eq_right h2] at h1
    show max (graph u v - st.capacity u v) 0 ≤ ((graph u v : Int) : Int)
    exact max_le (by omega) h2
  · intro w hw hws hwt
    have h1 := hrow w hw
    have h2 := inv.rows w hw
    rw [if_neg hws, if_neg hwt] at h2
    omega
  · have h1 := hrow s hs
    have h2 := inv.rows s hs
    rw [if_pos rfl, if_neg hst] at h2
    unfold flowValue
    omega

theorem simulate_of_run {fuel : Nat} {graph : Nat → Nat → Int} {s t n : Nat} {l : Locals}
    {st : FlowState} (h : runFlow fuel graph s t n l = some st) :
    simulateFlowNetwork fuel graph s t n l = some st.maxFlow := by
  simp [simulateFlowNetwork, h]

theorem Saturated.reach_mem {s n : Nat} {st : FlowState} {S : Finset Nat} (hs : s ∈ S)
    (hclosed : ∀ u ∈ S, ∀ v, v < n → 0 < st.capacity u v → v ∈ S) :
    ∀ v, Reach st.capacity n s v → v ∈ S := by
  intro v hv
  induction hv with
  | refl => exact hs
  | tail _ hedge ih => exact hclosed _ ih _ hedge.2.1 hedge.2.2

/-- Max-flow/min-cut at a state that satisfies the invariant and has no augmenting path. -/
theorem FlowInv.max_flow {graph : Nat → Nat → Int} {s t n : Nat} {st : FlowState}
    (inv : FlowInv graph s t n st) (sat : Saturated s t n st)
    (hg : ∀ u, u < n → ∀ v, v < n → 0 ≤ graph u v) (hs : s < n) (hst : s ≠ t) :
    (∃ f : Nat → Nat → Int, IsFlow graph n s t f ∧ flowValue f n s = st.maxFlow) ∧
    (∀ (K : Type) [LinearOrderedCommRing K] (f : Nat → Nat → K), IsFlow graph n s t f →
      flowValue f n s ≤ ((st.maxFlow : Int) : K)) := by
  refine ⟨⟨_, inv.residualFlow_isFlow hg hs hst⟩, ?_⟩
  intro K _ f hf
  obtain ⟨S, hsS, htS, hS, hclosed, _⟩ := sat
  have h1 := hf.value_le_cut S hS hsS htS
  rw [inv.cut_capacity hg S hS hsS htS hclosed] at h1
  exact h1

/-- The value printed does not depend on the fuel or on the initial contents of the locals. -/
theorem simulate_eq {graph : Nat → Nat → Int} {s t n fuel1 fuel2 : Nat} (l1 l2 : Locals)
    (hg : ∀ u, u < n → ∀ v, v < n → 0 ≤ graph u v) (hs : s < n) (hst : s ≠ t)
    (h1 : fuelBound graph s n ≤ fuel1) (h2 : fuelBound graph s n ≤ fuel2) :
    simulateFlowNetwork fuel1 graph s t n l1 = simulateFlowNetwork fuel2 graph s t n l2 := by
  obtain ⟨st1, hr1, inv1, sat1⟩ := runFlow_spec (t := t) l1 hs hst h1
  obtain ⟨st2, hr2, inv2, sat2⟩ := runFlow_spec (t := t) l2 hs hst h2
  rw [simulate_of_run hr1, simulate_of_run hr2]
  obtain ⟨⟨f1, hf1, hv1⟩, hub1⟩ := inv1.max_flow sat1 hg hs hst
  obtain ⟨⟨f2, hf2, hv2⟩, hub2⟩ := inv2.max_flow sat2 hg hs hst
  have a := hub1 Int f2 hf2
  have b := hub2 Int f1 hf1
  rw [hv2] at a
  rw [hv1] at b
  simp only [Int.cast_id] at a b
  congr 1
  omega

theorem mainLoop_self (inner s n : Nat) :
    ∀ (fuel : Nat) (st : FlowState), mainLoop inner s s n fuel st = none := by
  intro fuel
  induction fuel with
  | zero => intro st; rfl
  | succ fuel ih =>
    intro st
    unfold mainLoop
    cases inner with
    | zero => simp [iteration, bfs, bfsLoop]
    | succ inner =>
      have : iteration (inner + 1) s s n st = some (Step.again
          { capacity := st.capacity, parent := set1 st.parent s (-1),
            maxFlow := st.maxFlow + 9999 }) := by
        simp [iteration, bfs, bfsLoop, bfsInit, set1, pathFlowLoop, augmentLoop]
      rw [this]
      exact ih _

/-- C5, refuted: nothing is validated. A graph with a negative capacity is taken as it is, its
residual table is built and changed and the total 10 is returned; with `n = 0` the total 0 is
returned; with source = sink the loop never ends, for no fuel does the run return. -/
theorem simulateFlowNetwork_no_validation :
    simulateFlowNetwork 5 (table [[0, 10], [-3, 0]]) 0 1 2 zeroLocals = some 10 ∧
    (runFlow 5 (table [[0, 10], [-3, 0]]) 0 1 2 zeroLocals).map
      (fun st => (st.capacity 0 1, st.capacity 1 0)) = some (0, 7) ∧
    simulateFlowNetwork 5 (table [[0, 10], [0, 0]]) 0 1 0 zeroLocals = some 0 ∧
    (∀ fuel, simulateFlowNetwork fuel (table [[0, 10], [0, 0]]) 0 0 2 zeroLocals = none) := by
  refine ⟨?_, ?_, ?_, ?_⟩
  · simp [simulateFlowNetwork, runFlow, mainLoop, iteration, bfs, bfsLoop, bfsInit, scanLoop,
        pathFlowLoop, augmentLoop, initState, initCapacity_apply, set1, set2, table, zeroLocals]
  · simp [simulateFlowNetwork, runFlow, mainLoop, iteration, bfs, bfsLoop, bfsInit, scanLoop,
        pathFlowLoop, augmentLoop, initState, initCapacity_apply, set1, set2, table, zeroLocals]
  · simp [simulateFlowNetwork, runFlow, mainLoop, iteration, bfs, bfsLoop, bfsInit, scanLoop,
        pathFlowLoop, augmentLoop, initState, initCapacity_apply, set1, set2, table, zeroLocals]
  · intro fuel
    simp [simulateFlowNetwork, runFlow, mainLoop_self]

/-- C8: on the graph of `main` with source 0 and sink 4 the run performs exactly three
augmentations, along 0->1->4 with 10 units, 0->2->4 with 5 units and 0->3->4 with 15 units, in
this order; the total is 30, and 30 is the maximum flow value of the graph. -/
theorem simulateFlowNetwork_main_graph :
    (∀ l, augmentTrace 36 0 4 5 36 (initState flowGraph 5 l) =
      some [([0, 1, 4], 10), ([0, 2, 4], 5), ([0, 3, 4], 15)]) ∧
    (∀ l, augmentations 36 0 4 5 36 (initState flowGraph 5 l) = some 3) ∧
    (∀ (fuel : Nat) (l : Locals), 36 ≤ fuel →
      simulateFlowNetwork fuel flowGraph 0 4 5 l = some 30) ∧
    (∃ f : Nat → Nat → Int, IsFlow flowGraph 5 0 4 f ∧ flowValue f 5 0 = 30) ∧
    (∀ (K : Type) [LinearOrderedCommRing K] (f : Nat → Nat → K),
      IsFlow flowGraph 5 0 4 f → flowValue f 5 0 ≤ 30) := by
  have hb : fuelBound flowGraph 0 5 = 36 := by
    simp [fuelBound, outCap, Finset.sum_range_succ, table, flowGraph]
  have hsim : ∀ (fuel : Nat) (l : Locals), 36 ≤ fuel →
      simulateFlowNetwork fuel flowGraph 0 4 5 l = some 30 := by
    intro fuel l hfuel
    rw [simulate_eq l l (by decide) (by decide) (by decide) (by omega) (le_refl _), hb]
    simp [simulateFlowNetwork, runFlow, mainLoop, iteration, bfs, bfsLoop, bfsInit, scanLoop,
      pathFlowLoop, augmentLoop, initState, initCapacity_apply, set1, set2, table, flowGraph]
  obtain ⟨st, hrun, inv, sat⟩ :=
    @runFlow_spec flowGraph 0 4 5 36 zeroLocals (by decide) (by decide) (by omega)
  have hmf : st.maxFlow = 30 := by
    have h1 := simulate_of_run hrun
    rw [hsim 36 zeroLocals (le_refl _)] at h1
    exact (Option.some.inj h1).symm
  have hmax := inv.max_flow sat (by decide) (by decide) (by decide)
  rw [hmf] at hmax
  refine ⟨?_, ?_, hsim, hmax.1, ?_⟩
  · intro l
    simp [augmentTrace, pathNodes, iteration, bfs, bfsLoop, bfsInit, scanLoop, pathFlowLoop,
      augmentLoop, initState, initCapacity_apply, set1, set2, table, flowGraph]
  · intro l
    simp [augmentations, iteration, bfs, bfsLoop, bfsInit, scanLoop, pathFlowLoop, augmentLoop,
      initState, initCapacity_apply, set1, set2, table, flowGraph]
  · intro K _ f hf
    simpa using hmax.2 K f hf

/-- C9, at the failing input: for the costs `{{1, 2}, {1, 100}}` the routine assigns task 0 to
employee 0 and task 1 to employee 1, at a total cost of 101, while the assignment of task 1 to
employee 0 and task 0 to employee 1 uses distinct tasks and costs 3. -/
theorem optimizeResourceAllocation_not_optimal :
    (optimizeResourceAllocation (table [[1, 2], [1, 100]]) 2 2 (fun _ => 0)).map
      (fun sol => (sol 0, sol 1, assignmentCost (table [[1, 2], [1, 100]]) 2 sol)) =
      some (0, 1, 101) ∧
    assignmentCost (table [[1, 2], [1, 100]]) 2 (fun i => if i = 0 then 1 else 0) = 3 := by
  constructor <;> decide

theorem ValidC.gap {n k : Nat} {c : Nat → Nat} (h : ValidC n k c) :
    ∀ d i, i + d < k → c i + d ≤ c (i + d) := by
  intro d
  induction d with
  | zero => intro i _; exact le_refl _
  | succ d ih =>
    intro i hi
    have h1 := ih i (by omega)
    have h2 := h.mono (i + d) (by omega)
    have : i + (d + 1) = i + d + 1 := by omega
    rw [this]
    omega

theorem ValidC.bound {n k : Nat} {c : Nat → Nat} (h : ValidC n k c) (i : Nat) (hi : i < k) :
    c i + k ≤ n + i := by
  have h1 := h.gap (k - 1 - i) i (by omega)
  have h2 := h.lt_n (i + (k - 1 - i)) (by omega)
  omega

theorem ValidC.lt_of_lt {n k : Nat} {c : Nat → Nat} (h : ValidC n k c) {i j : Nat} (hij : i < j)
    (hj : j < k) : c i < c j := by
  have h1 := h.gap (j - i) i (by omega)
  have : i + (j - i) = j := by omega
  rw [this] at h1
  omega

theorem findPivot_none {c : Nat → Nat} {n k : Nat} :
    ∀ m, findPivot c n k m = none → ∀ j, j < m → (c j : Int) = (n : Int) - (k : Int) + (j : Int) := by
  intro m
  induction m with
  | zero => intro _ j hj; omega
  | succ m ih =>
    intro h j hj
    unfold findPivot at h
    by_cases hc : (c m : Int) = (n : Int) - (k : Int) + (m : Int)
    · rw [if_pos hc] at h
      by_cases hjm : j = m
      · subst hjm; exact hc
      · exact ih h j (by omega)
    · rw [if_neg hc] at h
      simp at h

theorem findPivot_some {c : Nat → Nat} {n k : Nat} :
    ∀ m i, findPivot c n k m = some i →
      i < m ∧ (c i : Int) ≠ (n : Int) - (k : Int) + (i : Int) ∧
        ∀ j, i < j → j < m → (c j : Int) = (n : Int) - (k : Int) + (j : Int) := by
  intro m
  induction m with
  | zero => intro i h; simp [findPivot] at h
  | succ m ih =>
    intro i h
    unfold findPivot at h
    by_cases hc : (c m : Int) = (n : Int) - (k : Int) + (m : Int)
    · rw [if_pos hc] at h
      obtain ⟨h1, h2, h3⟩ := ih i h
      refine ⟨by omega, h2, ?_⟩
      intro j hij hj
      by_cases hjm : j = m
      · subst hjm; exact hc
      · exact h3 j hij (by omega)
    · rw [if_neg hc] at h
      simp only [Option.some.injEq] at h
      subst h
      exact ⟨by omega, hc, fun j hij hj => by omega⟩

theorem resetLoop_apply (i : Nat) :
    ∀ (cnt j : Nat) (c : Nat → Nat) (x : Nat), i < j →
      resetLoop i cnt j c x = if j ≤ x ∧ x < j + cnt then c i + x - i else c x := by
  intro cnt
  induction cnt with
  | zero =>
    intro j c x _
    simp only [resetLoop]
    rw [if_neg (by omega)]
  | succ cnt ih =>
    intro j c x hij
    unfold resetLoop
    rw [ih (j + 1) _ x (by omega), set1_other _ _ _ _ (by omega : i ≠ j)]
    by_cases hx : x = j
    · subst hx
      rw [if_neg (by omega), if_pos (by omega), set1_same]
    · rw [set1_other _ _ _ _ hx]
      by_cases h1 : j + 1 ≤ x ∧ x < j + 1 + cnt
      · rw [if_pos h1, if_pos (by omega)]
      · rw [if_neg h1, if_neg (by omega)]

theorem nextCombination_apply {k i : Nat} (c : Nat → Nat) (hi : i < k) (x : Nat) :
    nextCombination k i c x =
      if x < i then c x else if x < k then c i + 1 + (x - i) else c x := by
  unfold nextCombination
  rw [resetLoop_apply i _ _ _ x (by omega)]
  by_cases h1 : x < i
  · rw [if_neg (by omega), if_pos h1, set1_other _ _ _ _ (by omega)]
  · rw [if_neg h1]
    by_cases h2 : x = i
    · subst h2
      rw [if_neg (by omega), set1_same, if_pos hi]
      omega
    · by_cases h3 : x < k
      · rw [if_pos (by omega), if_pos h3, set1_same]
        omega
      · rw [if_neg (by omega), if_neg h3, set1_other _ _ _ _ h2]

theorem nextCombination_valid {n k i : Nat} {c : Nat → Nat} (h : ValidC n k c)
    (hp : findPivot c n k k = some i) : ValidC n k (nextCombination k i c) := by
  obtain ⟨hi, hne, _⟩ := findPivot_some k i hp
  have hb := h.bound i hi
  constructor
  · intro x hx
    rw [nextCombination_apply c hi, nextCombination_apply c hi]
    by_cases h1 : x + 1 < i
    · rw [if_pos (by omega : x < i), if_pos h1]
      exact h.mono x hx
    · by_cases h2 : x < i
      · have hxi : x + 1 = i := by omega
        rw [if_pos h2, if_neg (by omega : ¬ x + 1 < i), if_pos hx, hxi]
        have := h.mono x hx
        rw [hxi] at this
        omega
      · rw [if_neg h2, if_pos (by omega : x < k), if_neg (by omega : ¬ x + 1 < i), if_pos hx]
        omega
  · intro x hx
    rw [nextCombination_apply c hi]
    by_cases h1 : x < i
    · rw [if_pos h1]; exact h.lt_n x hx
    · rw [if_neg h1, if_pos hx]
      omega

theorem lexLt_of_le (k : Nat) (a b : Nat → Nat) :
    (∀ j, j < k → a j ≤ b j) → (∀ j, j < k → a j = b j) ∨ LexLt k a b := by
  induction k with
  | zero => intro _; left; intro j hj; omega
  | succ k ih =>
    intro h
    rcases ih (fun j hj => h j (by omega)) with heq | ⟨p, hp, hpre, hlt⟩
    · rcases Nat.lt_or_ge (a k) (b k) with hlt | hge
      · right; exact ⟨k, by omega, heq, hlt⟩
      · left
        intro j hj
        by_cases hjk : j = k
        · subst hjk; exact le_antisymm (h j hj) hge
        · exact heq j (by omega)
    · right; exact ⟨p, by omega, hpre, hlt⟩

theorem nextCombination_adjacent {n k i : Nat} {c : Nat → Nat}
    (hp : findPivot c n k k = some i) :
    LexLt k c (nextCombination k i c) ∧
      ∀ t, ValidC n k t → LexLt k c t →
        (∀ j, j < k → nextCombination k i c j = t j) ∨ LexLt k (nextCombination k i c) t := by
  obtain ⟨hi, _, hmax⟩ := findPivot_some k i hp
  constructor
  · refine ⟨i, hi, ?_, ?_⟩
    · intro j hj
      rw [nextCombination_apply c hi, if_pos hj]
    · rw [nextCombination_apply c hi, if_neg (by omega), if_pos hi]
      omega
  · intro t ht ⟨p, hpk, hpre, hlt⟩
    have hpi : p ≤ i := by
      by_contra hcon
      have h1 := hmax p (by omega) hpk
      have h2 := ht.bound p hpk
      omega
    by_cases hpi2 : p < i
    · right
      refine ⟨p, hpk, ?_, ?_⟩
      · intro j hj
        rw [nextCombination_apply c hi, if_pos (by omega)]
        exact hpre j hj
      · rw [nextCombination_apply c hi, if_pos hpi2]
        exact hlt
    · have hpe : p = i := by omega
      subst hpe
      apply lexLt_of_le
      intro j hj
      rw [nextCombination_apply c hi]
      by_cases h1 : j < p
      · rw [if_pos h1, hpre j h1]
      · rw [if_neg h1, if_pos hj]
        have := ht.gap (j - p) p (by omega)
        have hjp : p + (j - p) = j := by omega
        rw [hjp] at this
        omega

theorem findPivot_none_max {n k : Nat} {c : Nat → Nat} (hp : findPivot c n k k = none)
    {t : Nat → Nat} (ht : ValidC n k t) : ¬ LexLt k c t := by
  rintro ⟨p, hpk, _, hlt⟩
  have h1 := findPivot_none k hp p hpk
  have h2 := ht.bound p hpk
  omega

theorem initLoop_apply :
    ∀ (cnt i : Nat) (c : Nat → Nat) (x : Nat),
      initLoop cnt i c x = if i ≤ x ∧ x < i + cnt then x else c x := by
  intro cnt
  induction cnt with
  | zero =>
    intro i c x
    simp only [initLoop]
    rw [if_neg (by omega)]
  | succ cnt ih =>
    intro i c x
    unfold initLoop
    rw [ih]
    by_cases h1 : i + 1 ≤ x ∧ x < i + 1 + cnt
    · rw [if_pos h1, if_pos (by omega)]
    · rw [if_neg h1]
      by_cases h2 : x = i
      · rw [if_pos (by omega), h2, set1_same]
      · rw [if_neg (by omega), set1_other _ _ _ _ h2]

theorem initCombination_apply (k : Nat) (c0 : Nat → Nat) (x : Nat) :
    initCombination k c0 x = if x < k then x else c0 x := by
  unfold initCombination
  rw [initLoop_apply]
  by_cases h : x < k
  · rw [if_pos h, if_pos (by omega)]
  · rw [if_neg h, if_neg (by omega)]

theorem initCombination_valid {n k : Nat} (hkn : k ≤ n) (c0 : Nat → Nat) :
    ValidC n k (initCombination k c0) := by
  constructor
  · intro i hi
    rw [initCombination_apply, initCombination_apply, if_pos (by omega : i < k), if_pos hi]
    omega
  · intro i hi
    rw [initCombination_apply, if_pos hi]
    omega

theorem initCombination_min {n k : Nat} (c0 : Nat → Nat) {t : Nat → Nat} (ht : ValidC n k t) :
    ¬ LexLt k t (initCombination k c0) := by
  rintro ⟨p, hpk, _, hlt⟩
  rw [initCombination_apply, if_pos hpk] at hlt
  have := ht.gap p 0 (by omega)
  simp only [zero_add] at this
  omega

theorem TeamLt.trans {a b c : List Nat} (h1 : TeamLt a b) (h2 : TeamLt b c) : TeamLt a c :=
  IsTrans.trans (r := List.Lex (· < ·)) a b c h1 h2

theorem TeamLt.irrefl (a : List Nat) : ¬ TeamLt a a :=
  IsIrrefl.irrefl (r := List.Lex (· < ·)) a

theorem TeamLt.trichotomy (a b : List Nat) : TeamLt a b ∨ a = b ∨ TeamLt b a :=
  trichotomous_of (List.Lex (· < ·)) a b

theorem team_succ (k : Nat) (a : Nat → Nat) :
    team (k + 1) a = a 0 :: team k (fun i => a (i + 1)) := by
  simp [team, List.range_succ_eq_map, List.map_map, Function.comp_def]

theorem lex_cons_cases {x y : Nat} {l1 l2 : List Nat} (h : List.Lex (· < ·) (x :: l1) (y :: l2)) :
    x < y ∨ (x = y ∧ List.Lex (· < ·) l1 l2) := by
  cases h with
  | cons h => exact Or.inr ⟨rfl, h⟩
  | rel h => exact Or.inl h

theorem lexLt_iff_teamLt : ∀ (k : Nat) (a b : Nat → Nat),
    LexLt k a b ↔ TeamLt (team k a) (team k b) := by
  intro k
  induction k with
  | zero =>
    intro a b
    constructor
    · rintro ⟨p, hp, _⟩; omega
    · intro h
      simp [team, TeamLt] at h
  | succ k ih =>
    intro a b
    rw [team_succ, team_succ]
    constructor
    · rintro ⟨p, hp, hpre, hlt⟩
      cases p with
      | zero => exact List.Lex.rel hlt
      | succ p =>
        have h0 : a 0 = b 0 := hpre 0 (by omega)
        have : LexLt k (fun i => a (i + 1)) (fun i => b (i + 1)) :=
          ⟨p, by omega, fun j hj => hpre (j + 1) (by omega), hlt⟩
        have := (ih _ _).mp this
        unfold TeamLt at this ⊢
        rw [h0]
        exact List.Lex.cons this
    · intro h
      rcases lex_cons_cases h with hlt | ⟨heq, hrest⟩
      · exact ⟨0, by omega, fun j hj => by omega, hlt⟩
      · obtain ⟨p, hp, hpre, hlt⟩ := (ih _ _).mpr hrest
        refine ⟨p + 1, by omega, ?_, hlt⟩
        intro j hj
        cases j with
        | zero => exact heq
        | succ j => exact hpre j (by omega)

theorem team_length (k : Nat) (c : Nat → Nat) : (team k c).length = k := by
  simp [team]

theorem team_isTeam {n k : Nat} {c : Nat → Nat} (h : ValidC n k c) : IsTeam n k (team k c) := by
  refine ⟨team_length k c, ?_, ?_⟩
  · unfold team
    rw [List.pairwise_map]
    have : (List.range k).Pairwise (· < ·) := List.pairwise_lt_range k
    refine List.Pairwise.imp_of_mem ?_ this
    intro i j _ hj hij
    exact h.lt_of_lt hij (List.mem_range.mp hj)
  · intro x hx
    unfold team at hx
    obtain ⟨i, hi, rfl⟩ := List.mem_map.mp hx
    exact h.lt_n i (List.mem_range.mp hi)

theorem isTeam_eq_team {n k : Nat} {t : List Nat} (h : IsTeam n k t) :
    ∃ c, ValidC n k c ∧ t = team k c := by
  obtain ⟨hlen, hpw, hlt⟩ := h
  have hget : ∀ i (hi : i < t.length), t.getD i 0 = t[i] := by
    intro i hi
    simp [List.getD_eq_getElem?_getD, List.getElem?_eq_getElem hi]
  refine ⟨fun i => t.getD i 0, ⟨?_, ?_⟩, ?_⟩
  · intro i hi
    show t.getD i 0 < t.getD (i + 1) 0
    rw [hget i (by omega), hget (i + 1) (by omega)]
    exact List.pairwise_iff_getElem.mp hpw i (i + 1) (by omega) (by omega) (by omega)
  · intro i hi
    show t.getD i 0 < n
    rw [hget i (by omega)]
    exact hlt _ (List.getElem_mem _)
  · apply List.ext_getElem
    · rw [team_length, hlen]
    · intro i h1 h2
      simp only [team, List.getElem_map, List.getElem_range]
      exact (hget i h1).symm

theorem pairwise_teamLt_nodup {l : List (List Nat)} (h : l.Pairwise TeamLt) : l.Nodup := by
  unfold List.Nodup
  refine h.imp ?_
  intro a b hab heq
  subst heq
  exact TeamLt.irrefl _ hab

theorem isTeam_iff_mem_sublistsLen (n k : Nat) (t : List Nat) :
    IsTeam n k t ↔ t ∈ List.sublistsLen k (List.range n) := by
  rw [List.mem_sublistsLen]
  constructor
  · rintro ⟨hlen, hpw, hlt⟩
    refine ⟨?_, hlen⟩
    have hnd : t.Nodup := hpw.imp (fun h => Nat.ne_of_lt h)
    have hsub : t ⊆ List.range n := fun x hx => List.mem_range.mpr (hlt x hx)
    have hsp : t.Subperm (List.range n) := List.subperm_of_subset hnd hsub
    have hs1 : t.Sorted (· ≤ ·) := hpw.imp (fun h => Nat.le_of_lt h)
    have hs2 : (List.range n).Sorted (· ≤ ·) :=
      (List.pairwise_lt_range n).imp (fun h => Nat.le_of_lt h)
    exact List.sublist_of_subperm_of_sorted hsp hs1 hs2
  · rintro ⟨hsub, hlen⟩
    exact ⟨hlen, (List.pairwise_lt_range n).sublist hsub,
      fun x hx => List.mem_range.mp (hsub.subset hx)⟩

theorem teams_length_le {n k : Nat} {l : List (List Nat)} (hnd : l.Nodup)
    (h : ∀ t ∈ l, IsTeam n k t) : l.length ≤ n.choose k := by
  have hsub : l ⊆ List.sublistsLen k (List.range n) :=
    fun t ht => (isTeam_iff_mem_sublistsLen n k t).mp (h t ht)
  have := (List.subperm_of_subset hnd hsub).length_le
  rw [List.length_sublistsLen, List.length_range] at this
  exact this

theorem teams_length_eq {n k : Nat} {l : List (List Nat)} (hnd : l.Nodup)
    (h : ∀ t, t ∈ l ↔ IsTeam n k t) : l.length = n.choose k := by
  have hperm : l.Perm (List.sublistsLen k (List.range n)) :=
    (List.perm_ext_iff_of_nodup hnd (List.nodup_sublistsLen k (List.nodup_range n))).mpr
      (fun t => (h t).trans (isTeam_iff_mem_sublistsLen n k t))
  rw [hperm.length_eq, List.length_sublistsLen, List.length_range]

theorem teamLoop_spec (n k : Nat) :
    ∀ (fuel : Nat) (c : Nat → Nat) (acc : List (List Nat)), ValidC n k c →
      (acc ++ [team k c]).Pairwise TeamLt → (∀ t ∈ acc, IsTeam n k t) →
      (∀ t, IsTeam n k t → TeamLt t (team k c) → t ∈ acc) →
      n.choose k ≤ fuel + acc.length →
      ∃ out, teamLoop n k fuel c = some out ∧ (acc ++ out).Pairwise TeamLt ∧
        ∀ t, t ∈ acc ++ out ↔ IsTeam n k t := by
  intro fuel
  induction fuel with
  | zero =>
    intro c acc hc hpw hacc _ hfuel
    have hlen : (acc ++ [team k c]).length ≤ n.choose k := by
      apply teams_length_le (pairwise_teamLt_nodup hpw)
      intro t ht
      rcases List.mem_append.mp ht with h | h
      · exact hacc t h
      · rw [List.mem_singleton.mp h]; exact team_isTeam hc
    simp only [List.length_append, List.length_singleton] at hlen
    omega
  | succ fuel ih =>
    intro c acc hc hpw hacc hcomplete hfuel
    unfold teamLoop
    cases hp : findPivot c n k k with
    | none =>
      refine ⟨[team k c], rfl, hpw, ?_⟩
      intro t
      constructor
      · intro ht
        rcases List.mem_append.mp ht with h | h
        · exact hacc t h
        · rw [List.mem_singleton.mp h]; exact team_isTeam hc
      · intro ht
        rcases TeamLt.trichotomy t (team k c) with h | h | h
        · exact List.mem_append_left _ (hcomplete t ht h)
        · rw [h]; exact List.mem_append_right _ (List.mem_singleton_self _)
        · obtain ⟨tf, htf, rfl⟩ := isTeam_eq_team ht
          exact absurd ((lexLt_iff_teamLt k c tf).mpr h) (findPivot_none_max hp htf)
    | some i =>
      have hadj := @nextCombination_adjacent n k i c hp
      have hlt : TeamLt (team k c) (team k (nextCombination k i c)) :=
        (lexLt_iff_teamLt k _ _).mp hadj.1
      obtain ⟨out, hout, hpw1, hmem⟩ := ih (nextCombination k i c) (acc ++ [team k c])
        (nextCombination_valid hc hp)
        (by
          rw [List.pairwise_append]
          refine ⟨hpw, List.pairwise_singleton _ _, ?_⟩
          intro a ha b hb
          rw [List.mem_singleton.mp hb]
          rcases List.mem_append.mp ha with h | h
          · have : TeamLt a (team k c) :=
              (List.pairwise_append.mp hpw).2.2 a h _ (List.mem_singleton_self _)
            exact this.trans hlt
          · rw [List.mem_singleton.mp h]; exact hlt)
        (by
          intro t ht
          rcases List.mem_append.mp ht with h | h
          · exact hacc t h
          · rw [List.mem_singleton.mp h]; exact team_isTeam hc)
        (by
          intro t ht hlt1
          rcases TeamLt.trichotomy t (team k c) with h | h | h
          · exact List.mem_append_left _ (hcomplete t ht h)
          · rw [h]; exact List.mem_append_right _ (List.mem_singleton_self _)
          · obtain ⟨tf, htf, rfl⟩ := isTeam_eq_team ht
            rcases hadj.2 tf htf ((lexLt_iff_teamLt k c tf).mpr h) with heq | hlt2
            · have : team k (nextCombination k i c) = team k tf := by
                unfold team
                apply List.map_congr_left
                intro j hj
                exact heq j (List.mem_range.mp hj)
              rw [this] at hlt1
              exact absurd hlt1 (TeamLt.irrefl _)
            · have := ((lexLt_iff_teamLt k _ _).mp hlt2).trans hlt1
              exact absurd this (TeamLt.irrefl _))
        (by simp only [List.length_append, List.length_singleton]; omega)
      have hrun : (teamLoop n k fuel (nextCombination k i c)).map
          (fun rest => team k c :: rest) = some (team k c :: out) := by
        rw [hout]; rfl
      refine ⟨team k c :: out, hrun, ?_, ?_⟩
      · rw [List.append_assoc] at hpw1; exact hpw1
      · intro t
        rw [← hmem t, List.append_assoc]
        rfl

theorem teams_unique {n k : Nat} {l1 l2 : List (List Nat)} (h1 : l1.Pairwise TeamLt)
    (h2 : l2.Pairwise TeamLt) (m1 : ∀ t, t ∈ l1 ↔ IsTeam n k t)
    (m2 : ∀ t, t ∈ l2 ↔ IsTeam n k t) : l1 = l2 := by
  have hperm : l1.Perm l2 :=
    (List.perm_ext_iff_of_nodup (pairwise_teamLt_nodup h1) (pairwise_teamLt_nodup h2)).mpr
      (fun t => (m1 t).trans (m2 t).symm)
  have : IsAntisymm (List Nat) TeamLt :=
    ⟨fun a _ hab hba => absurd (hab.trans hba) (TeamLt.irrefl a)⟩
  exact List.eq_of_perm_of_sorted hperm h1 h2

theorem combinatoricsTeamFormation_spec (n k fuel : Nat) (combination0 : Nat → Nat)
    (hkn : k ≤ n) (hfuel : n.choose k ≤ fuel) :
    ∃ out, combinatoricsTeamFormation fuel n k combination0 = some out ∧
      out.Pairwise TeamLt ∧ ∀ t : List Nat, t ∈ out ↔ IsTeam n k t := by
  obtain ⟨out, hout, hpw, hmem⟩ := teamLoop_spec n k fuel (initCombination k combination0) []
    (initCombination_valid hkn combination0) (List.pairwise_singleton _ _)
    (fun t ht => absurd ht (List.not_mem_nil t))
    (by
      intro t ht hlt
      obtain ⟨tf, htf, rfl⟩ := isTeam_eq_team ht
      exact absurd ((lexLt_iff_teamLt k _ _).mpr hlt) (initCombination_min combination0 htf))
    (by simpa using hfuel)
  simp only [List.nil_append] at hpw hmem
  exact ⟨out, hout, hpw, hmem⟩

/-- C10: for 1 ≤ k ≤ n ≤ MAX, `combinatoricsTeamFormation(n, k)` ends (with any fuel from
`n.choose k` on) and the teams it prints, taken as index tuples, are exactly the strictly
increasing `k`-tuples of indices below `n`, each once, in lexicographic order; there are
`n.choose k` of them. The call `(5, 3)` of `main` prints the 10 teams listed. -/
theorem combinatoricsTeamFormation_all_teams :
    (∀ (n k fuel : Nat) (combination0 : Nat → Nat), 1 ≤ k → k ≤ n → n ≤ MAX →
      n.choose k ≤ fuel →
      ∃ out, combinatoricsTeamFormation fuel n k combination0 = some out ∧
        out.Pairwise (List.Lex (· < ·)) ∧ out.Nodup ∧
        (∀ t : List Nat, t ∈ out ↔ t.length = k ∧ t.Pairwise (· < ·) ∧ ∀ x ∈ t, x < n) ∧
        out.length = n.choose k) ∧
    (∀ (fuel : Nat) (combination0 : Nat → Nat), 10 ≤ fuel →
      combinatoricsTeamFormation fuel 5 3 combination0 =
        some [[0, 1, 2], [0, 1, 3], [0, 1, 4], [0, 2, 3], [0, 2, 4], [0, 3, 4], [1, 2, 3],
          [1, 2, 4], [1, 3, 4], [2, 3, 4]]) := by
  refine ⟨?_, ?_⟩
  · intro n k fuel c0 _ hkn _ hfuel
    obtain ⟨out, hout, hpw, hmem⟩ := combinatoricsTeamFormation_spec n k fuel c0 hkn hfuel
    exact ⟨out, hout, hpw, pairwise_teamLt_nodup hpw, hmem,
      teams_length_eq (pairwise_teamLt_nodup hpw) hmem⟩
  · intro fuel c0 hfuel
    have hch : Nat.choose 5 3 = 10 := by decide
    obtain ⟨out, hout, hpw, hmem⟩ :=
      combinatoricsTeamFormation_spec 5 3 fuel c0 (by omega) (by omega)
    obtain ⟨out0, hout0, hpw0, hmem0⟩ :=
      combinatoricsTeamFormation_spec 5 3 10 (fun _ => 0) (by omega) (by omega)
    have h0 : combinatoricsTeamFormation 10 5 3 (fun _ => 0) =
        some [[0, 1, 2], [0, 1, 3], [0, 1, 4], [0, 2, 3], [0, 2, 4], [0, 3, 4], [1, 2, 3],
          [1, 2, 4], [1, 3, 4], [2, 3, 4]] := by decide
    rw [hout, teams_unique hpw hpw0 hmem hmem0, ← hout0, h0]

/-- C10 at the call `combinatoricsTeamFormation(5, 3)` of `main`. -/
theorem combinatoricsTeamFormation_all_teams_witness :
    ∃ out, combinatoricsTeamFormation 10 5 3 (fun _ => 0) = some out ∧
      out.Pairwise (List.Lex (· < ·)) ∧ out.Nodup ∧
      (∀ t : List Nat, t ∈ out ↔ t.length = 3 ∧ t.Pairwise (· < ·) ∧ ∀ x ∈ t, x < 5) ∧
      out.length = Nat.choose 5 3 :=
  combinatoricsTeamFormation_all_teams.1 5 3 10 (fun _ => 0) (by decide) (by decide)
    (by decide) (by decide)

theorem iteration_edge_stop (st : FlowState) (h : st.capacity 0 1 ≤ 0) :
    ∃ st1, iteration 3 0 1 2 st = some (Step.stop st1) := by
  have h1 : ¬ 0 < st.capacity 0 1 := by omega
  simp [iteration, bfs, bfsLoop, bfsInit, scanLoop, set1, h1]

theorem iteration_edge_again (st : FlowState) (h : 9999 ≤ st.capacity 0 1) :
    ∃ st1, iteration 3 0 1 2 st = some (Step.again st1) ∧
      st1.capacity 0 1 = st.capacity 0 1 - 9999 := by
  have h1 : 0 < st.capacity 0 1 := by omega
  by_cases h2 : 9999 < st.capacity 0 1
  · simp [iteration, bfs, bfsLoop, bfsInit, scanLoop, set1, h1, pathFlowLoop, augmentLoop, h2,
      set2]
  · have h3 : st.capacity 0 1 = 9999 := by omega
    simp [iteration, bfs, bfsLoop, bfsInit, scanLoop, set1, h1, pathFlowLoop, augmentLoop, h2,
      set2, h3]

theorem augmentations_edge :
    ∀ (m : Nat) (st : FlowState), st.capacity 0 1 = 9999 * (m : Int) →
      augmentations 3 0 1 2 (m + 1) st = some m := by
  intro m
  induction m with
  | zero =>
    intro st h
    obtain ⟨st1, h1⟩ := iteration_edge_stop st (by simp [h])
    simp [augmentations, h1]
  | succ m ih =>
    intro st h
    obtain ⟨st1, h1, h2⟩ := iteration_edge_again st (by rw [h]; push_cast; omega)
    have h3 : st1.capacity 0 1 = 9999 * (m : Int) := by rw [h2, h]; push_cast; omega
    unfold augmentations
    rw [h1]
    simp [ih st1 h3]

/-- C7, at the failing input: on the single edge `0 -> 1` of capacity 20000 (`V = 2`, `E = 1`)
the loop performs 3 augmentations, of 9999, 9999 and 2 units, more than `V * E = 2`. On the
single edge of capacity `9999 * m` it performs `m` augmentations: with `V` and `E` fixed the
number grows with the capacity. -/
theorem augmentations_exceed_node_edge_bound :
    (∀ l, augmentations 5 0 1 2 5 (initState (table [[0, 20000], [0, 0]]) 2 l) = some 3) ∧
    (∀ l, augmentTrace 5 0 1 2 5 (initState (table [[0, 20000], [0, 0]]) 2 l) =
      some [([0, 1], 9999), ([0, 1], 9999), ([0, 1], 2)]) ∧
    2 * edgeCount (table [[0, 20000], [0, 0]]) 2 = 2 ∧
    (∀ (m : Nat) (l : Locals),
      augmentations 3 0 1 2 (m + 1) (initState (table [[0, 9999 * (m : Int)], [0, 0]]) 2 l) =
        some m) := by
  refine ⟨?_, ?_, by decide, ?_⟩
  · intro l
    simp [augmentations, iteration, bfs, bfsLoop, bfsInit, scanLoop, pathFlowLoop, augmentLoop,
      initState, initCapacity_apply, set1, set2, table]
  · intro l
    simp [augmentTrace, pathNodes, iteration, bfs, bfsLoop, bfsInit, scanLoop, pathFlowLoop,
      augmentLoop, initState, initCapacity_apply, set1, set2, table]
  · intro m l
    apply augmentations_edge
    simp [initState, initCapacity_apply, table]

theorem bfsLoop_mono (c : Nat → Nat → Int) (t n : Nat) :
    ∀ (fuel : Nat) (b r : BfsState), bfsLoop c t n fuel b = some r →
      ∀ fuel1, fuel ≤ fuel1 → bfsLoop c t n fuel1 b = some r := by
  intro fuel
  induction fuel with
  | zero => intro b r h; simp [bfsLoop] at h
  | succ fuel ih =>
    intro b r h fuel1 hle
    obtain ⟨fuel1, rfl⟩ : ∃ f, fuel1 = f + 1 := ⟨fuel1 - 1, by omega⟩
    unfold bfsLoop at h ⊢
    by_cases hcond : b.front < b.queue.length ∧ b.visited t = false
    · rw [if_pos hcond] at h ⊢
      exact ih _ r h fuel1 (by omega)
    · rw [if_neg hcond] at h ⊢
      exact h

theorem pathFlowLoop_mono (c : Nat → Nat → Int) (p : Nat → Int) (s : Nat) :
    ∀ (fuel v : Nat) (pf r : Int), pathFlowLoop c p s fuel v pf = some r →
      ∀ fuel1, fuel ≤ fuel1 → pathFlowLoop c p s fuel1 v pf = some r := by
  intro fuel
  induction fuel with
  | zero => intro v pf r h; simp [pathFlowLoop] at h
  | succ fuel ih =>
    intro v pf r h fuel1 hle
    obtain ⟨fuel1, rfl⟩ : ∃ f, fuel1 = f + 1 := ⟨fuel1 - 1, by omega⟩
    unfold pathFlowLoop at h ⊢
    by_cases hv : v ≠ s
    · rw [if_pos hv] at h ⊢
      exact ih _ _ r h fuel1 (by omega)
    · rw [if_neg hv] at h ⊢
      exact h

theorem augmentLoop_mono (p : Nat → Int) (s : Nat) (pf : Int) :
    ∀ (fuel v : Nat) (c r : Nat → Nat → Int), augmentLoop p s pf fuel v c = some r →
      ∀ fuel1, fuel ≤ fuel1 → augmentLoop p s pf fuel1 v c = some r := by
  intro fuel
  induction fuel with
  | zero => intro v c r h; simp [augmentLoop] at h
  | succ fuel ih =>
    intro v c r h fuel1 hle
    obtain ⟨fuel1, rfl⟩ : ∃ f, fuel1 = f + 1 := ⟨fuel1 - 1, by omega⟩
    unfold augmentLoop at h ⊢
    by_cases hv : v ≠ s
    · rw [if_pos hv] at h ⊢
      exact ih _ _ r h fuel1 (by omega)
    · rw [if_neg hv] at h ⊢
      exact h

/-- What a pass that performs an augmentation consists of. -/
theorem iteration_again {inner s t n : Nat} {st st1 : FlowState}
    (h : iteration inner s t n st = some (Step.again st1)) :
    ∃ (b : BfsState) (r : Int), bfs inner st.capacity st.parent s t n = some b ∧
      b.visited t = true ∧ pathFlowLoop st.capacity b.parent s inner t 9999 = some r ∧
      augmentLoop b.parent s r inner t st.capacity = some st1.capacity ∧
      st1.parent = b.parent ∧ st1.maxFlow = st.maxFlow + r := by
  unfold iteration at h
  cases hb : bfs inner st.capacity st.parent s t n with
  | none => rw [hb] at h; simp at h
  | some b =>
    rw [hb] at h
    simp only at h
    by_cases hvis : b.visited t = false
    · rw [if_pos hvis] at h
      simp at h
    · rw [if_neg hvis] at h
      have hvt : b.visited t = true := by
        cases hx : b.visited t with
        | true => rfl
        | false => exact absurd hx hvis
      cases hp : pathFlowLoop st.capacity b.parent s inner t 9999 with
      | none => rw [hp] at h; simp at h
      | some r =>
        rw [hp] at h
        simp only at h
        cases ha : augmentLoop b.parent s r inner t st.capacity with
        | none => rw [ha] at h; simp at h
        | some c2 =>
          rw [ha] at h
          simp only [Option.some.injEq, Step.again.injEq] at h
          subst h
          exact ⟨b, r, rfl, hvt, hp, ha, rfl, rfl⟩

theorem iteration_mono {inner s t n : Nat} {st : FlowState} {r : Step}
    (h : iteration inner s t n st = some r) {inner1 : Nat} (hle : inner ≤ inner1) :
    iteration inner1 s t n st = some r := by
  unfold iteration at h ⊢
  cases hb : bfs inner st.capacity st.parent s t n with
  | none => rw [hb] at h; simp at h
  | some b =>
    rw [hb] at h
    have hb1 : bfs inner1 st.capacity st.parent s t n = some b :=
      bfsLoop_mono _ _ _ _ _ _ hb _ hle
    rw [hb1]
    simp only at h ⊢
    by_cases hvis : b.visited t = false
    · rw [if_pos hvis] at h ⊢
      exact h
    · rw [if_neg hvis] at h ⊢
      cases hp : pathFlowLoop st.capacity b.parent s inner t 9999 with
      | none => rw [hp] at h; simp at h
      | some pf =>
        rw [hp] at h
        rw [pathFlowLoop_mono _ _ _ _ _ _ _ hp _ hle]
        simp only at h ⊢
        cases ha : augmentLoop b.parent s pf inner t st.capacity with
        | none => rw [ha] at h; simp at h
        | some c2 =>
          rw [ha] at h
          rw [augmentLoop_mono _ _ _ _ _ _ _ ha _ hle]
          exact h

theorem Level.push {c : Nat → Nat → Int} {s n : Nat} {d : Nat → Nat} {P R : List Nat}
    {cur next : Nat} {b : BfsState} (h : Level c s n d P (cur :: R) b) (hnext : next < n)
    (hvis : b.visited next = false) (hcap : 0 < c cur next) :
    Level c s n (set1 d next (d cur + 1)) P (cur :: (R ++ [next]))
      { queue := b.queue ++ [next]
        front := b.front
        visited := set1 b.visited next true
        parent := set1 b.parent next (cur : Int) } := by
  have hnq : next ∉ b.queue := by
    intro hq
    have := (h.mem_iff next).mpr hq
    simp [hvis] at this
  have hne : ∀ v ∈ b.queue, v ≠ next := fun v hv e => hnq (e ▸ hv)
  have hcurq : cur ∈ b.queue := by rw [h.queue_eq]; simp
  have hRq : ∀ w ∈ cur :: R, w ∈ b.queue := by
    intro w hw; rw [h.queue_eq]; exact List.mem_append_right _ hw
  have hd : ∀ v ∈ b.queue, set1 d next (d cur + 1) v = d v :=
    fun v hv => set1_other _ _ _ _ (hne v hv)
  have hdn : set1 d next (d cur + 1) next = d cur + 1 := set1_same _ _ _
  have hcur_min : ∀ w ∈ cur :: R, d cur ≤ d w := by
    intro w hw
    rcases List.mem_cons.mp hw with e | hwR
    · rw [e]
    · exact (List.pairwise_cons.mp h.sorted).1 w hwR
  refine ⟨?_, ?_, ?_, ?_, ?_, ?_, ?_, ?_, ?_⟩
  · show b.queue ++ [next] = P ++ cur :: (R ++ [next])
    rw [h.queue_eq]; simp
  · intro v
    by_cases e : v = next
    · subst e; simp [set1]
    · simp [set1, e, h.mem_iff v]
  · exact List.mem_append_left _ h.src
  · rw [hd s h.src]; exact h.d_src
  · intro v hv
    simp only [List.length_append, List.length_singleton]
    rcases List.mem_append.mp hv with hq | hq
    · rw [hd v hq]; exact Nat.lt_succ_of_lt (h.d_lt v hq)
    · rw [List.mem_singleton.mp hq, hdn]
      exact Nat.succ_lt_succ (h.d_lt cur hcurq)
  · have hs1 : (cur :: R).Pairwise (fun u v =>
        set1 d next (d cur + 1) u ≤ set1 d next (d cur + 1) v) := by
      refine List.Pairwise.imp_of_mem ?_ h.sorted
      intro u v hu hv huv
      rw [hd u (hRq u hu), hd v (hRq v hv)]; exact huv
    have : (cur :: (R ++ [next])) = (cur :: R) ++ [next] := by simp
    rw [this, List.pairwise_append]
    refine ⟨hs1, List.pairwise_singleton _ _, ?_⟩
    intro u hu v hv
    rw [List.mem_singleton.mp hv, hdn, hd u (hRq u hu)]
    exact h.near u (hRq u hu) cur (List.mem_cons_self _ _)
  · intro v hv w hw
    have hw' : w ∈ (cur :: R) ++ [next] := by simpa using hw
    rcases List.mem_append.mp hv with hq | hq
    · rw [hd v hq]
      rcases List.mem_append.mp hw' with hwR | hwn
      · rw [hd w (hRq w hwR)]; exact h.near v hq w hwR
      · rw [List.mem_singleton.mp hwn, hdn]
        have := h.near v hq cur (List.mem_cons_self _ _)
        omega
    · rw [List.mem_singleton.mp hq, hdn]
      rcases List.mem_append.mp hw' with hwR | hwn
      · rw [hd w (hRq w hwR)]
        have := hcur_min w hwR
        omega
      · rw [List.mem_singleton.mp hwn, hdn]; omega
  · intro u hu v hv hc
    obtain ⟨hq, hle⟩ := h.closed u hu v hv hc
    have huq : u ∈ b.queue := by rw [h.queue_eq]; exact List.mem_append_left _ hu
    refine ⟨List.mem_append_left _ hq, ?_⟩
    rw [hd v hq, hd u huq]; exact hle
  · intro v hv hvs
    rcases List.mem_append.mp hv with hq | hq
    · obtain ⟨u, hp, hu, hdu, hc, hvn⟩ := h.tree v hq hvs
      refine ⟨u, ?_, List.mem_append_left _ hu, ?_, hc, hvn⟩
      · show set1 b.parent next (cur : Int) v = u
        rw [set1_other _ _ _ _ (hne v hq)]; exact hp
      · rw [hd v hq, hd u hu]; exact hdu
    · have e := List.mem_singleton.mp hq
      subst e
      refine ⟨cur, ?_, List.mem_append_left _ hcurq, ?_, hcap, hnext⟩
      · show set1 b.parent v (cur : Int) v = cur
        rw [set1_same]
      · rw [hdn, hd cur hcurq]

theorem Level.advance {c : Nat → Nat → Int} {s n : Nat} {d : Nat → Nat} {P R : List Nat}
    {cur : Nat} {b : BfsState} (h : Level c s n d P (cur :: R) b)
    (hcl : ∀ v, v < n → 0 < c cur v → b.visited v = true) :
    Level c s n d (P ++ [cur]) R b := by
  refine ⟨?_, h.mem_iff, h.src, h.d_src, h.d_lt, (List.pairwise_cons.mp h.sorted).2, ?_, ?_,
    h.tree⟩
  · rw [h.queue_eq]; simp
  · intro v hv w hw
    exact h.near v hv w (List.mem_cons_of_mem _ hw)
  · intro u hu v hv hc
    rcases List.mem_append.mp hu with hP | hcur
    · exact h.closed u hP v hv hc
    · rw [List.mem_singleton.mp hcur] at hc ⊢
      have hq := (h.mem_iff v).mp (hcl v hv hc)
      exact ⟨hq, h.near v hq cur (List.mem_cons_self _ _)⟩

theorem scanLoop_level (c : Nat → Nat → Int) (s t n cur : Nat) (P : List Nat) :
    ∀ (k next : Nat) (b : BfsState) (d : Nat → Nat) (R : List Nat), next + k = n →
      Level c s n d P (cur :: R) b →
      (∀ v, v < next → 0 < c cur v → b.visited v = true) →
      ∃ d1 R1, Level c s n d1 P (cur :: R1) (scanLoop c cur t k next b) ∧
        (scanLoop c cur t k next b).front = b.front ∧
        ((scanLoop c cur t k next b).visited t = true ∨
          ∀ v, v < n → 0 < c cur v → (scanLoop c cur t k next b).visited v = true) := by
  intro k
  induction k with
  | zero =>
    intro next b d R hn h hcl
    refine ⟨d, R, h, rfl, Or.inr ?_⟩
    intro v hv hc
    exact hcl v (by omega) hc
  | succ k ih =>
    intro next b d R hn h hcl
    unfold scanLoop
    by_cases hcond : b.visited next = false ∧ 0 < c cur next
    · rw [if_pos hcond]
      have h1 := h.push (by omega : next < n) hcond.1 hcond.2
      by_cases hsink : next = t
      · subst hsink
        rw [if_pos rfl]
        exact ⟨_, _, h1, rfl, Or.inl (set1_same _ _ _)⟩
      · rw [if_neg hsink]
        obtain ⟨d1, R1, h2, hf, hres⟩ := ih (next + 1) _ _ _ (by omega) h1 (by
          intro v hv hc
          by_cases e : v = next
          · subst e; exact set1_same _ _ _
          · show set1 b.visited next true v = true
            rw [set1_other _ _ _ _ e]
            exact hcl v (by omega) hc)
        exact ⟨d1, R1, h2, hf, hres⟩
    · rw [if_neg hcond]
      exact ih (next + 1) b d R (by omega) h (by
        intro v hv hc
        by_cases e : v = next
        · subst e
          cases hvv : b.visited v with
          | true => rfl
          | false => exact absurd ⟨hvv, hc⟩ hcond
        · exact hcl v (by omega) hc)

theorem bfsLoop_level (c : Nat → Nat → Int) (s t n : Nat) :
    ∀ (fuel : Nat) (b r : BfsState) (d : Nat → Nat) (P R : List Nat), Level c s n d P R b →
      b.front = P.length → bfsLoop c t n fuel b = some r →
      ∃ d1 P1 R1, Level c s n d1 P1 R1 r ∧ (r.visited t = false → R1 = []) := by
  intro fuel
  induction fuel with
  | zero => intro b r d P R _ _ h; simp [bfsLoop] at h
  | succ fuel ih =>
    intro b r d P R h hfront hrun
    unfold bfsLoop at hrun
    by_cases hcond : b.front < b.queue.length ∧ b.visited t = false
    · rw [if_pos hcond] at hrun
      have hlen : P.length < (P ++ R).length := by
        rw [← h.queue_eq, ← hfront]; exact hcond.1
      cases R with
      | nil => simp at hlen
      | cons cur R =>
        have hget : b.queue.getD b.front 0 = cur := by
          rw [h.queue_eq, hfront]
          simp [List.getD_eq_getElem?_getD, List.getElem_append_right]
        rw [hget] at hrun
        have h0 : Level c s n d P (cur :: R) { b with front := b.front + 1 } :=
          ⟨h.queue_eq, h.mem_iff, h.src, h.d_src, h.d_lt, h.sorted, h.near, h.closed, h.tree⟩
        obtain ⟨d1, R1, h1, hf1, hres⟩ :=
          scanLoop_level c s t n cur P n 0 _ d R (by omega) h0
            (fun v hv _ => absurd hv (Nat.not_lt_zero v))
        simp only at hf1
        rcases hres with hvis | hcl
        · cases fuel with
          | zero => simp [bfsLoop] at hrun
          | succ fuel =>
            unfold bfsLoop at hrun
            rw [if_neg (by rw [hvis]; simp)] at hrun
            simp only [Option.some.injEq] at hrun
            subst hrun
            exact ⟨d1, P, cur :: R1, h1, fun hf => by rw [hvis] at hf; exact absurd hf (by decide)⟩
        · exact ih _ r d1 (P ++ [cur]) R1 (h1.advance hcl)
            (by rw [hf1, hfront]; simp) hrun
    · rw [if_neg hcond] at hrun
      simp only [Option.some.injEq] at hrun
      subst hrun
      refine ⟨d, P, R, h, ?_⟩
      intro hvis
      have hlen : ¬ P.length < (P ++ R).length := by
        rw [← h.queue_eq, ← hfront]
        exact fun hlt => hcond ⟨hlt, hvis⟩
      cases R with
      | nil => rfl
      | cons x R => simp at hlen

theorem bfs_level {c : Nat → Nat → Int} {p : Nat → Int} {s t n fuel : Nat} {b : BfsState}
    (h : bfs fuel c p s t n = some b) :
    ∃ d P R, Level c s n d P R b ∧ (b.visited t = false → R = []) := by
  apply bfsLoop_level c s t n fuel (bfsInit p s) b (fun _ => 0) [] [s] ?_ rfl h
  refine ⟨rfl, ?_, ?_, rfl, ?_, List.pairwise_singleton _ _, ?_, ?_, ?_⟩
  · intro v
    by_cases e : v = s
    · subst e; simp [bfsInit, set1]
    · simp [bfsInit, set1, e]
  · simp [bfsInit]
  · intro v _; simp [bfsInit]
  · intro v _ w _; omega
  · intro u hu; simp at hu
  · intro v hv hvs
    simp [bfsInit] at hv
    exact absurd hv hvs

theorem Level.trail {c : Nat → Nat → Int} {s n : Nat} {d : Nat → Nat} {P R : List Nat}
    {b : BfsState} (h : Level c s n d P R b) :
    ∀ v, v ∈ b.queue → Trail c b.parent s n d b.queue v := by
  have key : ∀ k v, d v = k → v ∈ b.queue → Trail c b.parent s n d b.queue v := by
    intro k
    induction k with
    | zero =>
      intro v hd hv
      by_cases hvs : v = s
      · rw [hvs]; exact Trail.base h.src
      · obtain ⟨u, _, _, hdu, _⟩ := h.tree v hv hvs
        omega
    | succ k ih =>
      intro v hd hv
      by_cases hvs : v = s
      · rw [hvs]; exact Trail.base h.src
      · obtain ⟨u, hp, hu, hdu, hc, hvn⟩ := h.tree v hv hvs
        exact Trail.step hvs hv hp hvn hdu hc (ih u (by omega) hu)
  exact fun v hv => key (d v) v rfl hv

theorem Trail.mem {c : Nat → Nat → Int} {p : Nat → Int} {s n : Nat} {d : Nat → Nat}
    {q : List Nat} {x : Nat} (h : Trail c p s n d q x) : x ∈ q := by
  cases h with
  | base hs => exact hs
  | step _ hv _ _ _ _ _ => exact hv

theorem Trail.edge {c : Nat → Nat → Int} {p : Nat → Int} {s n : Nat} {d : Nat → Nat}
    {q : List Nat} {x : Nat} (h : Trail c p s n d q x) :
    ∀ a b, PathEdge p s x a b →
      b ≠ s ∧ p b = (a : Int) ∧ d b = d a + 1 ∧ d b ≤ d x ∧ 0 < c a b ∧ b < n ∧ a ∈ q ∧
        b ∈ q := by
  induction h with
  | base _ =>
    intro a b he
    cases he with
    | first hx => exact absurd rfl hx
    | later hx _ => exact absurd rfl hx
  | @step u v hvs hv hp hvn hdu hc hu ih =>
    intro a b he
    have hu' : (p v).toNat = u := by rw [hp]; exact Int.toNat_natCast u
    cases he with
    | first _ =>
      rw [hu']
      exact ⟨hvs, hp, hdu, le_refl _, hc, hvn, hu.mem, hv⟩
    | later _ hrest =>
      rw [hu'] at hrest
      obtain ⟨h1, h2, h3, h4, h5, h6, h7, h8⟩ := ih a b hrest
      exact ⟨h1, h2, h3, by omega, h5, h6, h7, h8⟩

theorem pathFlowLoop_trail {c : Nat → Nat → Int} {p : Nat → Int} {s n : Nat} {d : Nat → Nat}
    {q : List Nat} {x : Nat} (h : Trail c p s n d q x) :
    ∀ (fuel : Nat) (pf r : Int), pathFlowLoop c p s fuel x pf = some r →
      r ≤ pf ∧ (∀ a b, PathEdge p s x a b → r ≤ c a b) ∧
        (r = pf ∨ ∃ a b, PathEdge p s x a b ∧ r = c a b) := by
  induction h with
  | base _ =>
    intro fuel pf r hrun
    cases fuel with
    | zero => simp [pathFlowLoop] at hrun
    | succ fuel =>
      simp only [pathFlowLoop, ne_eq, not_true_eq_false, if_false, Option.some.injEq] at hrun
      subst hrun
      refine ⟨le_refl _, ?_, Or.inl rfl⟩
      intro a b he
      cases he with
      | first hx => exact absurd rfl hx
      | later hx _ => exact absurd rfl hx
  | @step u v hvs _ hp _ _ _ _ ih =>
    intro fuel pf r hrun
    have hu' : (p v).toNat = u := by rw [hp]; exact Int.toNat_natCast u
    cases fuel with
    | zero => simp [pathFlowLoop] at hrun
    | succ fuel =>
      unfold pathFlowLoop at hrun
      rw [if_pos hvs] at hrun
      simp only [hu'] at hrun
      obtain ⟨hle, hall, hex⟩ := ih fuel _ r hrun
      have hfirst : PathEdge p s v u v := by
        have := @PathEdge.first p s v hvs
        rw [hu'] at this
        exact this
      have hlater : ∀ a b, PathEdge p s u a b → PathEdge p s v a b := by
        intro a b he
        apply PathEdge.later hvs
        rw [hu']; exact he
      refine ⟨?_, ?_, ?_⟩
      · split_ifs at hle <;> omega
      · intro a b he
        cases he with
        | first _ => rw [hu']; split_ifs at hle <;> omega
        | later _ hrest => rw [hu'] at hrest; exact hall a b hrest
      · rcases hex with he | ⟨a, b, he, hr⟩
        · by_cases hlt : pf < c u v
          · rw [if_pos hlt] at he; exact Or.inl he
          · rw [if_neg hlt] at he; exact Or.inr ⟨u, v, hfirst, he⟩
        · exact Or.inr ⟨a, b, hlater a b he, hr⟩

theorem augmentLoop_trail {c : Nat → Nat → Int} {p : Nat → Int} {s n : Nat} {d : Nat → Nat}
    {q : List Nat} {x : Nat} (r : Int) (h : Trail c p s n d q x) :
    ∀ (fuel : Nat) (c1 c2 : Nat → Nat → Int), augmentLoop p s r fuel x c1 = some c2 →
      ∀ a b, (PathEdge p s x a b → c2 a b = c1 a b - r) ∧
        (PathEdge p s x b a → c2 a b = c1 a b + r) ∧
        (¬ PathEdge p s x a b → ¬ PathEdge p s x b a → c2 a b = c1 a b) := by
  induction h with
  | base _ =>
    intro fuel c1 c2 hrun a b
    have hno : ∀ a b, ¬ PathEdge p s s a b := by
      intro a b he
      cases he with
      | first hx => exact absurd rfl hx
      | later hx _ => exact absurd rfl hx
    cases fuel with
    | zero => simp [augmentLoop] at hrun
    | succ fuel =>
      simp only [augmentLoop, ne_eq, not_true_eq_false, if_false, Option.some.injEq] at hrun
      subst hrun
      exact ⟨fun he => absurd he (hno a b), fun he => absurd he (hno b a), fun _ _ => rfl⟩
  | @step u v hvs _ hp _ hdu _ hu ih =>
    intro fuel c1 c2 hrun a b
    have hu' : (p v).toNat = u := by rw [hp]; exact Int.toNat_natCast u
    have huv : u ≠ v := by intro e; rw [e] at hdu; omega
    cases fuel with
    | zero => simp [augmentLoop] at hrun
    | succ fuel =>
      unfold augmentLoop at hrun
      rw [if_pos hvs] at hrun
      simp only [hu'] at hrun
      have h1 : set2 c1 u v (c1 u v - r) v u = c1 v u := by
        simp [set2_apply, huv, huv.symm]
      rw [h1] at hrun
      have key : ∀ a b, set2 (set2 c1 u v (c1 u v - r)) v u (c1 v u + r) a b =
          if a = v ∧ b = u then c1 v u + r else if a = u ∧ b = v then c1 u v - r
          else c1 a b := by
        intro a b; simp [set2_apply]
      obtain ⟨ih1, ih2, ih3⟩ := ih fuel _ c2 hrun a b
      have hnov : ∀ a b, PathEdge p s u a b → a ≠ v ∧ b ≠ v := by
        intro a b he
        obtain ⟨_, _, h3, h4, _⟩ := hu.edge a b he
        constructor
        · intro e; rw [e] at h3; omega
        · intro e; rw [e] at h4; omega
      have hfirst : PathEdge p s v u v := by
        have := @PathEdge.first p s v hvs
        rw [hu'] at this
        exact this
      have hinv : ∀ a b, PathEdge p s v a b ↔ (a = u ∧ b = v) ∨ PathEdge p s u a b := by
        intro a b
        constructor
        · intro he
          cases he with
          | first _ => exact Or.inl ⟨hu', rfl⟩
          | later _ hrest => rw [hu'] at hrest; exact Or.inr hrest
        · rintro (⟨e1, e2⟩ | he)
          · rw [e1, e2]; exact hfirst
          · apply PathEdge.later hvs
            rw [hu']; exact he
      have n1 : ¬ PathEdge p s u u v := fun e => (hnov _ _ e).2 rfl
      have n2 : ¬ PathEdge p s u v u := fun e => (hnov _ _ e).1 rfl
      refine ⟨?_, ?_, ?_⟩
      · intro he
        rcases (hinv a b).mp he with ⟨e1, e2⟩ | he1
        · rw [e1, e2, (ih fuel _ c2 hrun u v).2.2 n1 n2, key, if_neg (fun e => huv e.1),
            if_pos ⟨rfl, rfl⟩]
        · obtain ⟨hav, hbv⟩ := hnov a b he1
          rw [ih1 he1, key, if_neg (fun e => hav e.1), if_neg (fun e => hbv e.2)]
      · intro he
        rcases (hinv b a).mp he with ⟨e1, e2⟩ | he1
        · rw [e1, e2, (ih fuel _ c2 hrun v u).2.2 n2 n1, key, if_pos ⟨rfl, rfl⟩]
        · obtain ⟨hbv, hav⟩ := hnov b a he1
          rw [ih2 he1, key, if_neg (fun e => hav e.1), if_neg (fun e => hbv e.2)]
      · intro k1 k2
        have m1 : ¬ (a = u ∧ b = v) := fun e => k1 ((hinv a b).mpr (Or.inl e))
        have m2 : ¬ (a = v ∧ b = u) := fun e => k2 ((hinv b a).mpr (Or.inl ⟨e.2, e.1⟩))
        have m3 : ¬ PathEdge p s u a b := fun e => k1 ((hinv a b).mpr (Or.inr e))
        have m4 : ¬ PathEdge p s u b a := fun e => k2 ((hinv b a).mpr (Or.inr e))
        rw [ih3 m3 m4, key, if_neg m2, if_neg m1]

/-- What one augmentation does, for every input: the walk from the sink follows a trail of the
search tree, the amount `r` pushed is the least of 9999 and the capacities on the trail, and the
table changes on the trail's edges only. -/
theorem iteration_effect {inner s t n : Nat} {st st1 : FlowState}
    (h : iteration inner s t n st = some (Step.again st1)) :
    ∃ (r : Int) (d : Nat → Nat) (q : List Nat),
      Trail st.capacity st1.parent s n d q t ∧ st1.maxFlow = st.maxFlow + r ∧
      r ≤ 9999 ∧ (∀ a b, PathEdge st1.parent s t a b → r ≤ st.capacity a b) ∧
      (r = 9999 ∨ ∃ a b, PathEdge st1.parent s t a b ∧ r = st.capacity a b) ∧
      ∀ a b, (PathEdge st1.parent s t a b → st1.capacity a b = st.capacity a b - r) ∧
        (PathEdge st1.parent s t b a → st1.capacity a b = st.capacity a b + r) ∧
        (¬ PathEdge st1.parent s t a b → ¬ PathEdge st1.parent s t b a →
          st1.capacity a b = st.capacity a b) := by
  obtain ⟨b, r, hb, hvis, hpf, haug, hpar, hmf⟩ := iteration_again h
  obtain ⟨d, P, R, hlev, _⟩ := bfs_level hb
  have htr := hlev.trail t ((hlev.mem_iff t).mp hvis)
  obtain ⟨h1, h2, h3⟩ := pathFlowLoop_trail htr inner 9999 r hpf
  rw [hpar]
  exact ⟨r, d, b.queue, htr, hmf, h1, h2, h3, augmentLoop_trail r htr inner _ _ haug⟩

theorem iteration_pathFlow_pos {inner s t n : Nat} {st st1 : FlowState}
    (h : iteration inner s t n st = some (Step.again st1)) :
    st.maxFlow + 1 ≤ st1.maxFlow ∧ st1.maxFlow ≤ st.maxFlow + 9999 := by
  obtain ⟨r, d, q, htr, hmf, hle, _, hex, _⟩ := iteration_effect h
  constructor
  · rcases hex with e | ⟨a, b, he, e⟩
    · omega
    · have := (htr.edge a b he).2.2.2.2.1
      omega
  · omega

theorem iteration_nonneg {inner s t n : Nat} {st st1 : FlowState}
    (h : iteration inner s t n st = some (Step.again st1)) (a b : Nat)
    (hab : 0 ≤ st.capacity a b) : 0 ≤ st1.capacity a b := by
  obtain ⟨r, d, q, htr, hmf, _, hle, _, heff⟩ := iteration_effect h
  have hpos := iteration_pathFlow_pos h
  obtain ⟨e1, e2, e3⟩ := heff a b
  by_cases h1 : PathEdge st1.parent s t a b
  · rw [e1 h1]
    have := hle a b h1
    omega
  · by_cases h2 : PathEdge st1.parent s t b a
    · rw [e2 h2]; omega
    · rw [e3 h1 h2]; exact hab

theorem iteration_pair {inner s t n : Nat} {st st1 : FlowState}
    (h : iteration inner s t n st = some (Step.again st1)) (a b : Nat) :
    st1.capacity a b + st1.capacity b a = st.capacity a b + st.capacity b a := by
  obtain ⟨r, d, q, htr, _, _, _, _, heff⟩ := iteration_effect h
  obtain ⟨e1, e2, e3⟩ := heff a b
  obtain ⟨f1, f2, f3⟩ := heff b a
  by_cases h1 : PathEdge st1.parent s t a b
  · rw [e1 h1, f2 h1]; omega
  · by_cases h2 : PathEdge st1.parent s t b a
    · rw [e2 h2, f1 h2]; omega
    · rw [e3 h1 h2, f3 h2 h1]

theorem initState_capacity (graph : Nat → Nat → Int) (n : Nat) (l : Locals) (a b : Nat)
    (ha : a < n) (hb : b < n) : (initState graph n l).capacity a b = graph a b := by
  show initCapacity graph n l.capacity a b = graph a b
  rw [initCapacity_apply, if_pos ⟨ha, hb⟩]

theorem iteration_edge_step (st : FlowState) (h : 9999 ≤ st.capacity 0 1) :
    ∃ st1, iteration 3 0 1 2 st = some (Step.again st1) ∧
      st1.capacity 0 1 = st.capacity 0 1 - 9999 ∧ st1.maxFlow = st.maxFlow + 9999 ∧
      st1.parent 1 = 0 := by
  have h1 : 0 < st.capacity 0 1 := by omega
  by_cases h2 : 9999 < st.capacity 0 1
  · simp [iteration, bfs, bfsLoop, bfsInit, scanLoop, set1, h1, pathFlowLoop, augmentLoop, h2,
      set2]
  · have h3 : st.capacity 0 1 = 9999 := by omega
    simp [iteration, bfs, bfsLoop, bfsInit, scanLoop, set1, h1, pathFlowLoop, augmentLoop, h2,
      set2, h3]

theorem pathEdge_single {p : Nat → Int} (hp : p 1 = 0) (a b : Nat)
    (h : PathEdge p 0 1 a b) : a = 0 ∧ b = 1 := by
  have h0 : (p 1).toNat = 0 := by rw [hp]; rfl
  cases h with
  | first _ => exact ⟨h0, rfl⟩
  | later _ hrest =>
    rw [h0] at hrest
    cases hrest with
    | first hx => exact absurd rfl hx
    | later hx _ => exact absurd rfl hx

/-- C11: in every augmentation the amount pushed is the least of the sentinel 9999 and the
residual capacities on the walked path. On the single edge `0 -> 1` of capacity 20000 the first
augmentation pushes 9999, not the bottleneck 20000 of its path. -/
theorem pathFlow_capped_by_sentinel :
    (∀ (inner source sink n : Nat) (st st1 : FlowState),
      iteration inner source sink n st = some (Step.again st1) →
      ∃ pathFlow : Int, st1.maxFlow = st.maxFlow + pathFlow ∧ pathFlow ≤ 9999 ∧
        (∀ a b, PathEdge st1.parent source sink a b → pathFlow ≤ st.capacity a b) ∧
        (pathFlow = 9999 ∨
          ∃ a b, PathEdge st1.parent source sink a b ∧ pathFlow = st.capacity a b)) ∧
    (∀ l : Locals, ∃ st1 : FlowState,
      iteration 3 0 1 2 (initState (table [[0, 20000], [0, 0]]) 2 l) = some (Step.again st1) ∧
      st1.maxFlow = 9999 ∧
      ∀ a b, PathEdge st1.parent 0 1 a b →
        (initState (table [[0, 20000], [0, 0]]) 2 l).capacity a b = 20000) := by
  constructor
  · intro inner source sink n st st1 h
    obtain ⟨r, _, _, _, hmf, hle, hall, hex, _⟩ := iteration_effect h
    exact ⟨r, hmf, hle, hall, hex⟩
  · intro l
    obtain ⟨st1, h1, _, e2, e3⟩ := iteration_edge_step
      (initState (table [[0, 20000], [0, 0]]) 2 l)
      (by rw [initState_capacity _ _ _ _ _ (by decide) (by decide)]; decide)
    refine ⟨st1, h1, by rw [e2]; simp [initState], ?_⟩
    intro a b he
    obtain ⟨rfl, rfl⟩ := pathEdge_single e3 a b he
    rw [initState_capacity _ _ _ _ _ (by decide) (by decide)]
    decide

theorem Reach.congr {c c1 : Nat → Nat → Int} {n s : Nat}
    (h : ∀ a b, a < n → b < n → c a b = c1 a b) :
    ∀ v, Reach c n s v → Reach c1 n s v := by
  intro v hv
  induction hv with
  | refl => exact Relation.ReflTransGen.refl
  | tail _ hedge ih =>
    exact Relation.ReflTransGen.tail ih
      ⟨hedge.1, hedge.2.1, by rw [← h _ _ hedge.1 hedge.2.1]; exact hedge.2.2⟩

theorem bfs_unvisited_iff {c : Nat → Nat → Int} {p : Nat → Int} {s t n fuel : Nat}
    (hs : s < n) (hfuel : n < fuel) :
    ∃ b, bfs fuel c p s t n = some b ∧ (b.visited t = false ↔ ¬ Reach c n s t) := by
  obtain ⟨b, rank, hb, wf, hclosed⟩ := bfs_spec c p s t n fuel hs hfuel
  refine ⟨b, hb, ?_, ?_⟩
  · intro hvis hreach
    have hall : ∀ v, Reach c n s v → v ∈ b.queue := by
      intro v hv
      induction hv with
      | refl => exact wf.src
      | tail _ hedge ih => exact hclosed hvis _ ih _ hedge.2.1 hedge.2.2
    have := (wf.mem_iff t).mpr (hall t hreach)
    rw [hvis] at this
    exact absurd this (by decide)
  · intro hno
    cases hvis : b.visited t with
    | false => rfl
    | true => exact absurd (wf.reach t ((wf.mem_iff t).mp hvis)) hno

theorem mainLoop_unreachable {graph : Nat → Nat → Int} {s t n fuel : Nat} (l : Locals)
    (hs : s < n) (hfuel : n < fuel) (hno : ¬ Reach graph n s t) :
    simulateFlowNetwork fuel graph s t n l = some 0 ∧
      augmentations fuel s t n fuel (initState graph n l) = some 0 := by
  obtain ⟨b, hb, hiff⟩ :=
    @bfs_unvisited_iff (initState graph n l).capacity (initState graph n l).parent s t n fuel
      hs hfuel
  have hvis : b.visited t = false := by
    apply hiff.mpr
    intro hr
    exact hno (Reach.congr (fun a b ha hb => initState_capacity graph n l a b ha hb) t hr)
  have hit : iteration fuel s t n (initState graph n l) =
      some (Step.stop { initState graph n l with parent := b.parent }) := by
    unfold iteration
    rw [hb]
    simp [hvis]
  obtain ⟨fuel, rfl⟩ : ∃ f, fuel = f + 1 := ⟨fuel - 1, by omega⟩
  constructor
  · unfold simulateFlowNetwork runFlow mainLoop
    rw [hit]
    rfl
  · unfold augmentations
    rw [hit]

/-- C13: for every residual table and in-range source ≠ sink the search ends with the sink
unvisited exactly when no path of edges of positive residual capacity leads from the source to
the sink. So when the sink cannot be reached in the input graph no augmentation happens and the
result is 0, as in scenario 3. -/
theorem bfs_no_path_iff :
    (∀ (c : Nat → Nat → Int) (p : Nat → Int) (source sink n fuel : Nat),
      source < n → sink < n → source ≠ sink → n < fuel →
      ∃ b, bfs fuel c p source sink n = some b ∧
        (b.visited sink = false ↔ ¬ Reach c n source sink)) ∧
    (∀ (graph : Nat → Nat → Int) (source sink n fuel : Nat) (l : Locals),
      source < n → sink < n → source ≠ sink → n < fuel → ¬ Reach graph n source sink →
      simulateFlowNetwork fuel graph source sink n l = some 0 ∧
        augmentations fuel source sink n fuel (initState graph n l) = some 0) ∧
    (∀ (fuel : Nat) (l : Locals), 4 ≤ fuel →
      simulateFlowNetwork fuel (table [[0, 5, 0], [3, 0, 0], [0, 0, 0]]) 0 2 3 l = some 0) := by
  refine ⟨?_, ?_, ?_⟩
  · intro c p source sink n fuel hs _ _ hfuel
    exact bfs_unvisited_iff hs hfuel
  · intro graph source sink n fuel l hs _ _ hfuel hno
    exact mainLoop_unreachable l hs hfuel hno
  · intro fuel l hfuel
    refine (mainLoop_unreachable l (by decide) (by omega) ?_).1
    have hall : ∀ v, Reach (table [[0, 5, 0], [3, 0, 0], [0, 0, 0]]) 3 0 v → v ≠ 2 := by
      intro v hv
      induction hv with
      | refl => decide
      | @tail a b _ hedge _ =>
        intro e
        subst e
        obtain ⟨ha, _, hc⟩ := hedge
        interval_cases a <;> simp [table] at hc
    exact fun h => hall 2 h rfl

/-- C13 at the graph of scenario 3. -/
theorem bfs_no_path_iff_witness :
    ∃ b, bfs 4 (table [[0, 5, 0], [3, 0, 0], [0, 0, 0]]) (fun _ => 0) 0 2 3 = some b ∧
      (b.visited 2 = false ↔ ¬ Reach (table [[0, 5, 0], [3, 0, 0], [0, 0, 0]]) 3 0 2) :=
  bfs_no_path_iff.1 (table [[0, 5, 0], [3, 0, 0], [0, 0, 0]]) (fun _ => 0) 0 2 3 4
    (by decide) (by decide) (by decide) (by decide)

theorem pathNodes_trail {c : Nat → Nat → Int} {p : Nat → Int} {s n : Nat} {d : Nat → Nat}
    {q : List Nat} {x : Nat} (hd : d s = 0) (h : Trail c p s n d q x) :
    ∀ (fuel : Nat) (acc : List Nat), d x < fuel →
      ∃ T : List Nat, pathNodes p s fuel x acc = some (T ++ acc) ∧ T.length = d x + 1 ∧
        T.head? = some s ∧ T.getLast? = some x ∧ T.Chain' (fun u v => 0 < c u v) ∧
        (∀ y ∈ T, y ∈ q) ∧
        (∀ y ∈ T, y ≠ s → y < n ∧ ∃ u : Nat, p y = (u : Int) ∧ u ∈ q) := by
  induction h with
  | base hs =>
    intro fuel acc hfuel
    obtain ⟨fuel, rfl⟩ : ∃ f, fuel = f + 1 := ⟨fuel - 1, by omega⟩
    refine ⟨[s], by simp [pathNodes], by simp [hd], rfl, rfl, List.chain'_singleton _, ?_, ?_⟩
    · intro y hy; rw [List.mem_singleton.mp hy]; exact hs
    · intro y hy hys; exact absurd (List.mem_singleton.mp hy) hys
  | @step u v hvs hv hp hvn hdu hc hu ih =>
    intro fuel acc hfuel
    obtain ⟨fuel, rfl⟩ : ∃ f, fuel = f + 1 := ⟨fuel - 1, by omega⟩
    have hu' : (p v).toNat = u := by rw [hp]; exact Int.toNat_natCast u
    obtain ⟨T, hrun, hlen, hhead, hlast, hchain, hmem, hpar⟩ := ih fuel (v :: acc) (by omega)
    have hT : T ≠ [] := by
      intro e; rw [e] at hlen; simp at hlen
    refine ⟨T ++ [v], ?_, ?_, ?_, ?_, ?_, ?_, ?_⟩
    · unfold pathNodes
      rw [if_pos hvs, hu', hrun]
      simp
    · simp [hlen, hdu]
    · rw [List.head?_append_of_ne_nil _ hT]; exact hhead
    · simp
    · rw [List.chain'_append]
      refine ⟨hchain, List.chain'_singleton _, ?_⟩
      intro a ha b hb
      rw [hlast] at ha
      simp only [Option.mem_def, Option.some.injEq, List.head?_cons] at ha hb
      rw [← ha, ← hb]
      exact hc
    · intro y hy
      rcases List.mem_append.mp hy with h1 | h1
      · exact hmem y h1
      · rw [List.mem_singleton.mp h1]; exact hv
    · intro y hy hys
      rcases List.mem_append.mp hy with h1 | h1
      · exact hpar y h1 hys
      · rw [List.mem_singleton.mp h1]
        exact ⟨hvn, u, hp, hu.mem⟩

theorem Level.dist_le {c : Nat → Nat → Int} {s n : Nat} {d : Nat → Nat} {P R : List Nat}
    {b : BfsState} (h : Level c s n d P R b) :
    ∀ m v, Walk c n s m v → v ∈ b.queue → d v ≤ m := by
  have key : ∀ m v, Walk c n s m v →
      (v ∈ b.queue → d v ≤ m) ∧ (v ∈ P ∨ ∀ w ∈ b.queue, d w ≤ m + 1) := by
    intro m v hw
    induction hw with
    | nil =>
      refine ⟨fun _ => by rw [h.d_src], ?_⟩
      have hs := h.src
      rw [h.queue_eq] at hs
      rcases List.mem_append.mp hs with hP | hR
      · exact Or.inl hP
      · right
        intro w hw
        have := h.near w hw s hR
        rw [h.d_src] at this
        omega
    | @snoc m u v _ hvn hc ih =>
      obtain ⟨ih1, ih2⟩ := ih
      rcases ih2 with hP | hall
      · have huq : u ∈ b.queue := by rw [h.queue_eq]; exact List.mem_append_left _ hP
        obtain ⟨hvq, hle⟩ := h.closed u hP v hvn hc
        have hdu := ih1 huq
        refine ⟨fun _ => by omega, ?_⟩
        have hv' := hvq
        rw [h.queue_eq] at hv'
        rcases List.mem_append.mp hv' with hvP | hvR
        · exact Or.inl hvP
        · right
          intro w hw
          have := h.near w hw v hvR
          omega
      · refine ⟨fun hv => by have := hall v hv; omega, Or.inr ?_⟩
        intro w hw
        have := hall w hw
        omega
  exact fun m v hw => (key m v hw).1

theorem walk_of_list (c : Nat → Nat → Int) (n : Nat) :
    ∀ (l : List Nat) (u m a z : Nat), Walk c n a m u →
      List.Chain (fun x y => 0 < c x y) u l → (∀ x ∈ l, x < n) →
      (u :: l).getLast? = some z → Walk c n a (m + l.length) z := by
  intro l
  induction l with
  | nil =>
    intro u m a z hw _ _ hz
    simp at hz
    rw [← hz]
    exact hw
  | cons y l ih =>
    intro u m a z hw hch hlt hz
    rw [List.chain_cons] at hch
    rw [List.getLast?_cons_cons] at hz
    have := ih y (m + 1) a z (Walk.snoc hw (hlt y (List.mem_cons_self _ _)) hch.1) hch.2
      (fun x hx => hlt x (List.mem_cons_of_mem _ hx)) hz
    have e : m + (y :: l).length = m + 1 + l.length := by simp; omega
    rw [e]
    exact this

/-- What the search has established when it ends with the sink visited, for in-range source:
the walk along the parent links yields a path, and the path is a shortest one. -/
theorem bfs_path {c : Nat → Nat → Int} {p : Nat → Int} {s t n fuel : Nat}
    (hs : s < n) (hfuel : n < fuel) :
    ∃ b, bfs fuel c p s t n = some b ∧ b.queue.Nodup ∧ b.queue.length ≤ n ∧
      (∀ v ∈ b.queue, v < n) ∧ (∀ v, b.visited v = true ↔ v ∈ b.queue) ∧
      (b.visited t = true →
        ∃ path : List Nat, pathNodes b.parent s fuel t [] = some path ∧
          path.length ≤ n ∧ path.head? = some s ∧ path.getLast? = some t ∧
          path.Chain' (fun u v => 0 < c u v) ∧ (∀ x ∈ path, x ∈ b.queue) ∧
          (∀ x ∈ path, x ≠ s → ∃ u : Nat, b.parent x = (u : Int) ∧ u ∈ b.queue) ∧
          ∀ m, Walk c n s m t → path.length ≤ m + 1) := by
  obtain ⟨b, rank, hb, wf, _⟩ := bfs_spec c p s t n fuel hs hfuel
  obtain ⟨d, P, R, hlev, _⟩ := bfs_level hb
  refine ⟨b, hb, wf.nodup, wf.length_le, wf.lt_n, wf.mem_iff, ?_⟩
  intro hvis
  have htq : t ∈ b.queue := (wf.mem_iff t).mp hvis
  have hdt := hlev.d_lt t htq
  have hlen := wf.length_le
  obtain ⟨T, hrun, hTlen, hhead, hlast, hchain, hmem, hpar⟩ :=
    pathNodes_trail hlev.d_src (hlev.trail t htq) fuel [] (by omega)
  rw [List.append_nil] at hrun
  refine ⟨T, hrun, by omega, hhead, hlast, hchain, hmem, ?_, ?_⟩
  · intro x hx hxs
    exact (hpar x hx hxs).2
  · intro m hw
    have := hlev.dist_le m t hw htq
    omega

theorem bfs_main_graph (b : BfsState) (h : bfs 6 flowGraph (fun _ => 0) 0 4 5 = some b) :
    b.visited 4 = true ∧ pathNodes b.parent 0 6 4 [] = some [0, 1, 4] := by
  have e : (bfs 6 flowGraph (fun _ => 0) 0 4 5).map
      (fun b => (b.visited 4, pathNodes b.parent 0 6 4 [])) = some (true, some [0, 1, 4]) := by
    decide
  rw [h] at e
  simpa using e

/-- C12: for in-range source ≠ sink, whenever the search ends with the sink visited the nodes
met along the parent links from the sink form a path from the source to the sink whose edges all
have positive residual capacity, and no such path among the nodes below `n` has fewer edges. -/
theorem bfs_shortest_path (c : Nat → Nat → Int) (p : Nat → Int) (source sink n fuel : Nat)
    (hs : source < n) (_ht : sink < n) (_hst : source ≠ sink) (hfuel : n < fuel) :
    ∃ b, bfs fuel c p source sink n = some b ∧
      (b.visited sink = true →
        ∃ path : List Nat, pathNodes b.parent source fuel sink [] = some path ∧
          path.head? = some source ∧ path.getLast? = some sink ∧
          path.Chain' (fun u v => 0 < c u v) ∧ (∀ x ∈ path, x < n) ∧
          ∀ other : List Nat, other.head? = some source → other.getLast? = some sink →
            other.Chain' (fun u v => 0 < c u v) → (∀ x ∈ other, x < n) →
            path.length ≤ other.length) := by
  obtain ⟨b, hb, _, _, hlt, _, hpath⟩ := @bfs_path c p source sink n fuel hs hfuel
  refine ⟨b, hb, ?_⟩
  intro hvis
  obtain ⟨path, hrun, _, hhead, hlast, hchain, hmem, _, hmin⟩ := hpath hvis
  refine ⟨path, hrun, hhead, hlast, hchain, fun x hx => hlt x (hmem x hx), ?_⟩
  intro other ohead olast ochain olt
  cases other with
  | nil => simp at ohead
  | cons a rest =>
    simp only [List.head?_cons, Option.some.injEq] at ohead
    subst ohead
    have hw := walk_of_list c n rest a 0 a sink Walk.nil ochain
      (fun x hx => olt x (List.mem_cons_of_mem _ hx)) olast
    have := hmin _ hw
    simp only [List.length_cons]
    omega

/-- C12 at the graph of `main`: the first search visits the sink and walks 0, 1, 4. -/
theorem bfs_shortest_path_witness :
    ∃ b, bfs 6 flowGraph (fun _ => 0) 0 4 5 = some b ∧ b.visited 4 = true ∧
      pathNodes b.parent 0 6 4 [] = some [0, 1, 4] ∧
      (b.visited 4 = true →
        ∃ path : List Nat, pathNodes b.parent 0 6 4 [] = some path ∧
          path.head? = some 0 ∧ path.getLast? = some 4 ∧
          path.Chain' (fun u v => 0 < flowGraph u v) ∧ (∀ x ∈ path, x < 5) ∧
          ∀ other : List Nat, other.head? = some 0 → other.getLast? = some 4 →
            other.Chain' (fun u v => 0 < flowGraph u v) → (∀ x ∈ other, x < 5) →
            path.length ≤ other.length) := by
  obtain ⟨b, hb, h⟩ := bfs_shortest_path flowGraph (fun _ => 0) 0 4 5 6 (by decide) (by decide)
    (by decide) (by decide)
  exact ⟨b, hb, (bfs_main_graph b hb).1, (bfs_main_graph b hb).2, h⟩

theorem scanLoop_reparent (c : Nat → Nat → Int) (cur t : Nat) (q : Nat → Int) :
    ∀ (k next : Nat) (b : BfsState),
      scanLoop c cur t k next (reparent q b) = reparent q (scanLoop c cur t k next b) := by
  intro k
  induction k with
  | zero => intro next b; rfl
  | succ k ih =>
    intro next b
    have hstep : ∀ x : Int,
        ({ queue := b.queue ++ [next], front := b.front, visited := set1 b.visited next true,
           parent := set1 (mixParent b.visited b.parent q) next x } : BfsState) =
        reparent q { queue := b.queue ++ [next], front := b.front,
                     visited := set1 b.visited next true, parent := set1 b.parent next x } := by
      intro x
      unfold reparent
      congr 1
      funext v
      by_cases e : v = next
      · subst e; simp [mixParent, set1]
      · simp [mixParent, set1, e]
    unfold scanLoop
    by_cases hcond : b.visited next = false ∧ 0 < c cur next
    · have hcond1 : (reparent q b).visited next = false ∧ 0 < c cur next := hcond
      rw [if_pos hcond, if_pos hcond1]
      by_cases hsink : next = t
      · rw [if_pos hsink, if_pos hsink]
        exact hstep _
      · rw [if_neg hsink, if_neg hsink]
        show scanLoop c cur t k (next + 1)
            { queue := b.queue ++ [next], front := b.front,
              visited := set1 b.visited next true,
              parent := set1 (mixParent b.visited b.parent q) next (cur : Int) } =
          reparent q (scanLoop c cur t k (next + 1)
            { queue := b.queue ++ [next], front := b.front,
              visited := set1 b.visited next true, parent := set1 b.parent next (cur : Int) })
        rw [hstep (cur : Int)]
        exact ih _ _
    · have hcond1 : ¬ ((reparent q b).visited next = false ∧ 0 < c cur next) := hcond
      rw [if_neg hcond, if_neg hcond1]
      exact ih _ _

theorem bfsLoop_reparent (c : Nat → Nat → Int) (t n : Nat) (q : Nat → Int) :
    ∀ (fuel : Nat) (b : BfsState),
      bfsLoop c t n fuel (reparent q b) = (bfsLoop c t n fuel b).map (reparent q) := by
  intro fuel
  induction fuel with
  | zero => intro b; rfl
  | succ fuel ih =>
    intro b
    unfold bfsLoop
    by_cases hcond : b.front < b.queue.length ∧ b.visited t = false
    · have hcond1 : (reparent q b).front < (reparent q b).queue.length ∧
          (reparent q b).visited t = false := hcond
      rw [if_pos hcond, if_pos hcond1]
      have : ({ reparent q b with front := (reparent q b).front + 1 } : BfsState) =
          reparent q { b with front := b.front + 1 } := rfl
      show bfsLoop c t n fuel (scanLoop c ((reparent q b).queue.getD (reparent q b).front 0) t n 0
        { reparent q b with front := (reparent q b).front + 1 }) = _
      rw [this, scanLoop_reparent, ih]
      rfl
    · have hcond1 : ¬ ((reparent q b).front < (reparent q b).queue.length ∧
          (reparent q b).visited t = false) := hcond
      rw [if_neg hcond, if_neg hcond1]
      rfl

/-- The search does not depend on what `parent` held before it: with other initial contents `q`
it ends in the same state, except that the cells of unvisited nodes hold `q`. -/
theorem bfs_reparent (c : Nat → Nat → Int) (p q : Nat → Int) (s t n fuel : Nat) :
    bfs fuel c q s t n = (bfs fuel c p s t n).map (reparent q) := by
  unfold bfs
  rw [← bfsLoop_reparent]
  congr 1
  unfold reparent bfsInit
  congr 1
  funext v
  by_cases e : v = s
  · subst e; simp [mixParent, set1]
  · simp [mixParent, set1, e]

theorem pathNodes_acc (p : Nat → Int) (s : Nat) :
    ∀ (fuel v : Nat) (acc L : List Nat), pathNodes p s fuel v acc = some L →
      v ∈ L ∧ ∀ x ∈ acc, x ∈ L := by
  intro fuel
  induction fuel with
  | zero => intro v acc L h; simp [pathNodes] at h
  | succ fuel ih =>
    intro v acc L h
    unfold pathNodes at h
    by_cases hv : v ≠ s
    · rw [if_pos hv] at h
      obtain ⟨_, h2⟩ := ih _ _ L h
      exact ⟨h2 v (List.mem_cons_self _ _), fun x hx => h2 x (List.mem_cons_of_mem _ hx)⟩
    · rw [if_neg hv] at h
      simp only [Option.some.injEq] at h
      subst h
      exact ⟨List.mem_cons_self _ _, fun x hx => List.mem_cons_of_mem _ hx⟩

theorem pathNodes_congr (p p1 : Nat → Int) (s : Nat) :
    ∀ (fuel v : Nat) (acc L : List Nat), pathNodes p s fuel v acc = some L →
      (∀ x ∈ L, p1 x = p x) → pathNodes p1 s fuel v acc = some L := by
  intro fuel
  induction fuel with
  | zero => intro v acc L h; simp [pathNodes] at h
  | succ fuel ih =>
    intro v acc L h hagree
    unfold pathNodes at h ⊢
    by_cases hv : v ≠ s
    · rw [if_pos hv] at h ⊢
      have hvL : v ∈ L := (pathNodes_acc p s _ _ _ L h).2 v (List.mem_cons_self _ _)
      rw [hagree v hvL]
      exact ih _ _ L h hagree
    · rw [if_neg hv] at h ⊢
      exact h

/-- C16: for in-range source ≠ sink, whenever the search ends with the sink visited, following
the parent links from the sink reaches the source after at most `n - 1` steps (the nodes passed,
source and sink included, are at most `n`), every node passed was visited by this search, and
the walk reads no cell of `parent` that this search has not written: whatever `parent` held
before the search, the search visits the same nodes, leaves the same value in the cell of every
visited node, and the walk passes the same nodes. -/
theorem path_reconstruction_safe (c : Nat → Nat → Int) (p : Nat → Int)
    (source sink n fuel : Nat) (hs : source < n) (_ht : sink < n) (_hst : source ≠ sink)
    (hfuel : n < fuel) :
    ∃ b, bfs fuel c p source sink n = some b ∧
      (b.visited sink = true →
        ∃ path : List Nat, pathNodes b.parent source fuel sink [] = some path ∧
          path.length ≤ n ∧ path.head? = some source ∧ path.getLast? = some sink ∧
          (∀ x ∈ path, b.visited x = true) ∧
          ∀ p1 : Nat → Int, ∃ b1, bfs fuel c p1 source sink n = some b1 ∧
            b1.visited = b.visited ∧ b1.queue = b.queue ∧
            (∀ x, b.visited x = true → b1.parent x = b.parent x) ∧
            pathNodes b1.parent source fuel sink [] = some path) := by
  obtain ⟨b, hb, _, _, _, hmem_iff, hpath⟩ := @bfs_path c p source sink n fuel hs hfuel
  refine ⟨b, hb, ?_⟩
  intro hvis
  obtain ⟨path, hrun, hlen, hhead, hlast, _, hmem, _, _⟩ := hpath hvis
  have hvisited : ∀ x ∈ path, b.visited x = true := fun x hx => (hmem_iff x).mpr (hmem x hx)
  refine ⟨path, hrun, hlen, hhead, hlast, hvisited, ?_⟩
  intro p1
  have hagree : ∀ x, b.visited x = true → (reparent p1 b).parent x = b.parent x := by
    intro x hx
    simp [reparent, mixParent, hx]
  refine ⟨reparent p1 b, by rw [bfs_reparent c p p1, hb]; rfl, rfl, rfl, hagree, ?_⟩
  exact pathNodes_congr b.parent _ source fuel sink [] path hrun
    (fun x hx => hagree x (hvisited x hx))

/-- C16 at the graph of `main`: the first search visits the sink and walks 0, 1, 4. -/
theorem path_reconstruction_safe_witness :
    ∃ b, bfs 6 flowGraph (fun _ => 0) 0 4 5 = some b ∧ b.visited 4 = true ∧
      pathNodes b.parent 0 6 4 [] = some [0, 1, 4] ∧
      (b.visited 4 = true →
        ∃ path : List Nat, pathNodes b.parent 0 6 4 [] = some path ∧
          path.length ≤ 5 ∧ path.head? = some 0 ∧ path.getLast? = some 4 ∧
          (∀ x ∈ path, b.visited x = true) ∧
          ∀ p1 : Nat → Int, ∃ b1, bfs 6 flowGraph p1 0 4 5 = some b1 ∧
            b1.visited = b.visited ∧ b1.queue = b.queue ∧
            (∀ x, b.visited x = true → b1.parent x = b.parent x) ∧
            pathNodes b1.parent 0 6 4 [] = some path) := by
  obtain ⟨b, hb, h⟩ := path_reconstruction_safe flowGraph (fun _ => 0) 0 4 5 6 (by decide)
    (by decide) (by decide) (by decide)
  exact ⟨b, hb, (bfs_main_graph b hb).1, (bfs_main_graph b hb).2, h⟩

/-- C18: for `n ≤ MAX` and in-range source and sink no index leaves `0..n-1`. In every search
each node is enqueued at most once and only nodes below `n` are enqueued, so the queue never
holds more than `n` entries (`rear ≤ n`) and every dequeued node is below `n`; when the sink is
visited, every node the walk along the parent links passes is below `n` and every value of
`parent` it reads is one of `0..n-1`, so all indices of `capacity`, `visited`, `parent` and
`queue` are below `n ≤ MAX`. -/
theorem indices_in_bounds (c : Nat → Nat → Int) (p : Nat → Int) (source sink n fuel : Nat)
    (_h1 : 1 ≤ n) (hn : n ≤ MAX) (hs : source < n) (_ht : sink < n) (hfuel : n < fuel) :
    ∃ b, bfs fuel c p source sink n = some b ∧ b.queue.Nodup ∧ b.queue.length ≤ n ∧
      b.queue.length ≤ MAX ∧ (∀ v ∈ b.queue, v < n ∧ v < MAX) ∧
      (b.visited sink = true →
        ∃ path : List Nat, pathNodes b.parent source fuel sink [] = some path ∧
          (∀ x ∈ path, x < n ∧ x < MAX) ∧
          ∀ x ∈ path, x ≠ source → 0 ≤ b.parent x ∧ b.parent x < n) := by
  obtain ⟨b, hb, hnd, hlen, hlt, _, hpath⟩ := @bfs_path c p source sink n fuel hs hfuel
  refine ⟨b, hb, hnd, hlen, le_trans hlen hn, fun v hv => ⟨hlt v hv, by have := hlt v hv; omega⟩,
    ?_⟩
  intro hvis
  obtain ⟨path, hrun, _, _, _, _, hmem, hpar, _⟩ := hpath hvis
  refine ⟨path, hrun, fun x hx => ⟨hlt x (hmem x hx), by have := hlt x (hmem x hx); omega⟩, ?_⟩
  intro x hx hxs
  obtain ⟨u, hu, huq⟩ := hpar x hx hxs
  have := hlt u huq
  rw [hu]
  omega

/-- C18 at the graph of `main`: the first search, which visits the sink. -/
theorem indices_in_bounds_witness :
    ∃ b, bfs 6 flowGraph (fun _ => 0) 0 4 5 = some b ∧ b.visited 4 = true ∧
      b.queue.Nodup ∧ b.queue.length ≤ 5 ∧
      b.queue.length ≤ MAX ∧ (∀ v ∈ b.queue, v < 5 ∧ v < MAX) ∧
      (b.visited 4 = true →
        ∃ path : List Nat, pathNodes b.parent 0 6 4 [] = some path ∧
          (∀ x ∈ path, x < 5 ∧ x < MAX) ∧
          ∀ x ∈ path, x ≠ 0 → 0 ≤ b.parent x ∧ b.parent x < 5) := by
  obtain ⟨b, hb, h⟩ := indices_in_bounds flowGraph (fun _ => 0) 0 4 5 6 (by decide) (by decide)
    (by decide) (by decide) (by decide)
  exact ⟨b, hb, (bfs_main_graph b hb).1, h⟩

theorem wrap32_eq (x : Int) (h1 : -2147483648 ≤ x) (h2 : x ≤ 2147483647) : wrap32 x = x := by
  unfold wrap32
  omega

theorem iteration_flowInv {graph : Nat → Nat → Int} {inner s t n : Nat}
    {st st1 : FlowState} (hs : s < n) (inv : FlowInv graph s t n st)
    (hstep : iteration inner s t n st = some (Step.again st1)) : FlowInv graph s t n st1 := by
  have hbig := iteration_mono hstep (Nat.le_max_left inner (n + 1))
  have hn : n < max inner (n + 1) := by
    have := Nat.le_max_right inner (n + 1)
    omega
  rcases iteration_spec hs hn inv with ⟨st2, hit, _⟩ | ⟨st2, hit, inv2, _⟩
  · rw [hit] at hbig
    simp at hbig
  · rw [hit] at hbig
    simp only [Option.some.injEq, Step.again.injEq] at hbig
    rw [← hbig]
    exact inv2

theorem Reached.flowInv {graph : Nat → Nat → Int} {inner s t n : Nat} {l : Locals}
    {st : FlowState} (hs : s < n) (h : Reached inner s t n (initState graph n l) st) :
    FlowInv graph s t n st := by
  induction h with
  | start => exact initState_inv graph s t n l
  | step _ hstep ih => exact iteration_flowInv hs ih hstep

theorem Trail.lt_n {c : Nat → Nat → Int} {p : Nat → Int} {s n : Nat} {d : Nat → Nat}
    {q : List Nat} {x : Nat} (hs : s < n) (h : Trail c p s n d q x) : x < n := by
  cases h with
  | base _ => exact hs
  | step _ _ _ hvn _ _ _ => exact hvn

theorem augmentLoop32_eq {c : Nat → Nat → Int} {p : Nat → Int} {s n : Nat} {d : Nat → Nat}
    {q : List Nat} {x : Nat} {r : Int} (hs : s < n) (hr : 0 ≤ r)
    (hc : ∀ a b, a < n → b < n → 0 ≤ c a b ∧ c a b + c b a ≤ 2147483647)
    (h : Trail c p s n d q x) :
    ∀ (fuel : Nat) (c1 : Nat → Nat → Int), (∀ a b, PathEdge p s x a b → r ≤ c a b) →
      (∀ a b, d a ≤ d x → d b ≤ d x → c1 a b = c a b) →
      augmentLoop32 p s r fuel x c1 = augmentLoop p s r fuel x c1 := by
  induction h with
  | base _ =>
    intro fuel c1 _ _
    cases fuel with
    | zero => rfl
    | succ fuel => simp [augmentLoop32, augmentLoop]
  | @step u v hvs _ hp hvn hdu _ hu ih =>
    intro fuel c1 hle hagree
    have hu' : (p v).toNat = u := by rw [hp]; exact Int.toNat_natCast u
    have hun : u < n := hu.lt_n hs
    have huv : u ≠ v := by intro e; rw [e] at hdu; omega
    have hfirst : PathEdge p s v u v := by
      have := @PathEdge.first p s v hvs
      rw [hu'] at this
      exact this
    cases fuel with
    | zero => rfl
    | succ fuel =>
      unfold augmentLoop32 augmentLoop
      rw [if_pos hvs, if_pos hvs]
      simp only [hu']
      have e1 : c1 u v = c u v := hagree u v (by omega) (le_refl _)
      have e2 : c1 v u = c v u := hagree v u (le_refl _) (by omega)
      have b1 := hc u v hun hvn
      have b2 := hc v u hvn hun
      have b3 := hle u v hfirst
      have w1 : wrap32 (c1 u v - r) = c1 u v - r := wrap32_eq _ (by omega) (by omega)
      have h1 : set2 c1 u v (c1 u v - r) v u = c1 v u := by
        simp [set2_apply, huv, huv.symm]
      rw [w1, h1]
      have w2 : wrap32 (c1 v u + r) = c1 v u + r := wrap32_eq _ (by omega) (by omega)
      rw [w2]
      apply ih fuel
      · intro a b he
        apply hle a b
        apply PathEdge.later hvs
        rw [hu']; exact he
      · intro a b ha hb
        have hav : a ≠ v := by intro e; rw [e] at ha; omega
        have hbv : b ≠ v := by intro e; rw [e] at hb; omega
        simp only [set2_apply]
        rw [if_neg (fun e => hav e.1), if_neg (fun e => hbv e.2)]
        exact hagree a b (by omega) (by omega)

theorem FlowInv.bounds {graph : Nat → Nat → Int} {s t n : Nat} {st : FlowState}
    (hs : s < n) (hst : s ≠ t) (hg : ∀ u, u < n → ∀ v, v < n → 0 ≤ graph u v)
    (hpair : ∀ u v, u < n → v < n → graph u v + graph v u ≤ 2147483647)
    (hout : ∑ v ∈ Finset.range n, graph s v ≤ 2147483647)
    (inv : FlowInv graph s t n st) :
    (∀ a b, a < n → b < n → 0 ≤ st.capacity a b ∧
      st.capacity a b + st.capacity b a ≤ 2147483647) ∧
    0 ≤ st.maxFlow ∧ st.maxFlow ≤ 2147483647 := by
  refine ⟨?_, inv.flow_nonneg, ?_⟩
  · intro a b ha hb
    have h1 := inv.lower a b ha hb
    rw [min_eq_right (hg a ha b hb)] at h1
    have h2 := inv.pair a b ha hb
    have h3 := hpair a b ha hb
    exact ⟨h1, by omega⟩
  · have h1 := inv.flow_le hs hst
    have h2 : outCap graph n s = ∑ v ∈ Finset.range n, graph s v :=
      Finset.sum_congr rfl (fun v hv => max_eq_left (hg s hs v (Finset.mem_range.mp hv)))
    omega

theorem iteration32_eq {graph : Nat → Nat → Int} {s t n inner : Nat} {st : FlowState}
    (hs : s < n) (hst : s ≠ t) (hg : ∀ u, u < n → ∀ v, v < n → 0 ≤ graph u v)
    (hpair : ∀ u v, u < n → v < n → graph u v + graph v u ≤ 2147483647)
    (hout : ∑ v ∈ Finset.range n, graph s v ≤ 2147483647)
    (inv : FlowInv graph s t n st) :
    iteration32 inner s t n st = iteration inner s t n st := by
  have hbnd := inv.bounds hs hst hg hpair hout
  cases hb : bfs inner st.capacity st.parent s t n with
  | none => simp [iteration32, iteration, hb]
  | some b =>
    by_cases hvis : b.visited t = false
    · simp [iteration32, iteration, hb, hvis]
    · have hvt : b.visited t = true := by
        cases hx : b.visited t with
        | true => rfl
        | false => exact absurd hx hvis
      cases hp : pathFlowLoop st.capacity b.parent s inner t 9999 with
      | none => simp [iteration32, iteration, hb, hvis, hp]
      | some pf =>
        obtain ⟨d, P, R, hlev, _⟩ := bfs_level hb
        have htr := hlev.trail t ((hlev.mem_iff t).mp hvt)
        obtain ⟨_, hle, hex⟩ := pathFlowLoop_trail htr inner 9999 pf hp
        have hpf : 0 ≤ pf := by
          rcases hex with e | ⟨a, b, he, e⟩
          · omega
          · have := (htr.edge a b he).2.2.2.2.1
            omega
        have haug := augmentLoop32_eq hs hpf hbnd.1 htr inner st.capacity hle
          (fun _ _ _ _ => rfl)
        cases ha : augmentLoop b.parent s pf inner t st.capacity with
        | none =>
          rw [ha] at haug
          simp [iteration32, iteration, hb, hvis, hp, ha, haug]
        | some c2 =>
          rw [ha] at haug
          have hit : iteration inner s t n st = some (Step.again
              { capacity := c2, parent := b.parent, maxFlow := st.maxFlow + pf }) := by
            simp [iteration, hb, hvis, hp, ha]
          have hb1 := (iteration_flowInv hs inv hit).bounds hs hst hg hpair hout
          have hw : wrap32 (st.maxFlow + pf) = st.maxFlow + pf :=
            wrap32_eq _ (by have := hb1.2.1; simp only at this; omega)
              (by have := hb1.2.2; simp only at this; omega)
          rw [hit]
          simp [iteration32, hb, hvis, hp, haug, hw]

theorem mainLoop32_eq {graph : Nat → Nat → Int} {s t n inner : Nat}
    (hs : s < n) (hst : s ≠ t) (hg : ∀ u, u < n → ∀ v, v < n → 0 ≤ graph u v)
    (hpair : ∀ u v, u < n → v < n → graph u v + graph v u ≤ 2147483647)
    (hout : ∑ v ∈ Finset.range n, graph s v ≤ 2147483647) :
    ∀ (fuel : Nat) (st : FlowState), FlowInv graph s t n st →
      mainLoop32 inner s t n fuel st = mainLoop inner s t n fuel st := by
  intro fuel
  induction fuel with
  | zero => intro st _; rfl
  | succ fuel ih =>
    intro st inv
    unfold mainLoop32 mainLoop
    rw [iteration32_eq hs hst hg hpair hout inv]
    cases hit : iteration inner s t n st with
    | none => rfl
    | some step =>
      cases step with
      | stop st1 => rfl
      | again st1 => exact ih st1 (iteration_flowInv hs inv hit)

/-- C19: for a valid input with `graph[u][v] + graph[v][u] ≤ 2^31 - 1` for all `u, v < n` and
with the capacities that leave the source summing to at most `2^31 - 1`, the run with 32-bit
wrapping arithmetic is the run with exact arithmetic: no `capacity[v][u] += pathFlow`, no
`capacity[u][v] -= pathFlow` and no `maxFlow += pathFlow` leaves the range of `int`. In every
state of the outer loop all entries `capacity[u][v]`, `u, v < n`, and `maxFlow` lie in
`0..2^31 - 1`, and with fuel `fuelBound` the 32-bit run ends with a total in that range. -/
theorem no_overflow (graph : Nat → Nat → Int) (n source sink fuel : Nat) (l : Locals)
    (hs : source < n) (_ht : sink < n) (hst : source ≠ sink)
    (hg : ∀ u, u < n → ∀ v, v < n → 0 ≤ graph u v)
    (hpair : ∀ u, u < n → ∀ v, v < n → graph u v + graph v u ≤ 2147483647)
    (hout : ∑ v ∈ Finset.range n, graph source v ≤ 2147483647) :
    runFlow32 fuel graph source sink n l = runFlow fuel graph source sink n l ∧
    simulateFlowNetwork32 fuel graph source sink n l =
      simulateFlowNetwork fuel graph source sink n l ∧
    (∀ st, Reached fuel source sink n (initState graph n l) st →
      (∀ u v, u < n → v < n → 0 ≤ st.capacity u v ∧ st.capacity u v ≤ 2147483647) ∧
      0 ≤ st.maxFlow ∧ st.maxFlow ≤ 2147483647) ∧
    (fuelBound graph source n ≤ fuel →
      ∃ r, simulateFlowNetwork32 fuel graph source sink n l = some r ∧ 0 ≤ r ∧
        r ≤ 2147483647) := by
  have hpair : ∀ u v, u < n → v < n → graph u v + graph v u ≤ 2147483647 :=
    fun u v hu hv => hpair u hu v hv
  have hrun : runFlow32 fuel graph source sink n l = runFlow fuel graph source sink n l :=
    mainLoop32_eq hs hst hg hpair hout fuel _ (initState_inv graph source sink n l)
  have hsim : simulateFlowNetwork32 fuel graph source sink n l =
      simulateFlowNetwork fuel graph source sink n l := by
    unfold simulateFlowNetwork32 simulateFlowNetwork
    rw [hrun]
  refine ⟨hrun, hsim, ?_, ?_⟩
  · intro st hst1
    have hb := (hst1.flowInv hs).bounds hs hst hg hpair hout
    refine ⟨?_, hb.2⟩
    intro u v hu hv
    have h1 := hb.1 u v hu hv
    have h2 := hb.1 v u hv hu
    exact ⟨h1.1, by omega⟩
  · intro hfuel
    obtain ⟨st, hr, inv, _⟩ := @runFlow_spec graph source sink n fuel l hs hst hfuel
    exact ⟨st.maxFlow, by rw [hsim]; exact simulate_of_run hr,
      (inv.bounds hs hst hg hpair hout).2⟩

/-- C19 at the graph of `main`: the 32-bit run is the exact run and ends. -/
theorem no_overflow_witness :
    runFlow32 36 flowGraph 0 4 5 zeroLocals = runFlow 36 flowGraph 0 4 5 zeroLocals ∧
    simulateFlowNetwork32 36 flowGraph 0 4 5 zeroLocals =
      simulateFlowNetwork 36 flowGraph 0 4 5 zeroLocals ∧
    ∃ r, simulateFlowNetwork32 36 flowGraph 0 4 5 zeroLocals = some r ∧ 0 ≤ r ∧
      r ≤ 2147483647 := by
  have h := no_overflow flowGraph 5 0 4 36 zeroLocals (by decide) (by decide) (by decide)
    (by decide) (by decide) (by simp [Finset.sum_range_succ, table, flowGraph])
  exact ⟨h.1, h.2.1,
    h.2.2.2 (by simp [fuelBound, outCap, Finset.sum_range_succ, table, flowGraph])⟩

theorem pickLoop_spec (costs : Nat → Nat → Int) (assigned : Nat → Bool) (i : Nat) :
    ∀ (k j : Nat) (acc : Int × Int), acc.1 ≤ 9999 → Pick costs assigned i j acc →
      Pick costs assigned i (j + k) (pickLoop costs assigned i k j acc) := by
  intro k
  induction k with
  | zero => intro j acc _ h; exact h
  | succ k ih =>
    intro j acc hle h
    obtain ⟨mc, ti⟩ := acc
    have e : j + (k + 1) = j + 1 + k := by omega
    rw [e]
    unfold pickLoop
    by_cases hc : assigned j = false ∧ costs i j < mc
    · rw [if_pos hc]
      simp only at hle
      refine ih (j + 1) _ (by simp only; omega) (Or.inr ⟨j, rfl, by omega, hc.1, rfl, ?_, ?_, ?_⟩)
      · simp only; omega
      · intro j1 hj1 ha
        simp only
        rcases Nat.lt_succ_iff_lt_or_eq.mp hj1 with hlt | heq
        · rcases h with ⟨_, h2, h3⟩ | ⟨j0, _, _, _, _, _, h6, _⟩
          · have := h3 j1 hlt ha
            simp only at h2
            omega
          · have := h6 j1 hlt ha
            simp only at this
            omega
        · rw [heq]
      · intro j1 hj1 ha
        simp only
        rcases h with ⟨_, h2, h3⟩ | ⟨j0, _, _, _, _, _, h6, _⟩
        · have := h3 j1 hj1 ha
          simp only at h2
          omega
        · have := h6 j1 hj1 ha
          simp only at this
          omega
    · rw [if_neg hc]
      have hj : assigned j = false → mc ≤ costs i j := by
        intro ha
        by_contra hlt
        exact hc ⟨ha, by omega⟩
      refine ih (j + 1) _ hle ?_
      rcases h with ⟨h1, h2, h3⟩ | ⟨j0, h1, h2, h3, h4, h5, h6, h7⟩
      · refine Or.inl ⟨h1, h2, ?_⟩
        intro j1 hj1 ha
        rcases Nat.lt_succ_iff_lt_or_eq.mp hj1 with hlt | heq
        · exact h3 j1 hlt ha
        · rw [heq]
          have := hj (heq ▸ ha)
          simp only at h2
          omega
      · refine Or.inr ⟨j0, h1, by omega, h3, h4, h5, ?_, h7⟩
        intro j1 hj1 ha
        rcases Nat.lt_succ_iff_lt_or_eq.mp hj1 with hlt | heq
        · exact h6 j1 hlt ha
        · rw [heq]
          exact hj (heq ▸ ha)

theorem free_task {assigned : Nat → Bool} {solution : Nat → Int} {i m : Nat} (him : i < m)
    (hass : ∀ j, assigned j = true → ∃ i1, i1 < i ∧ solution i1 = (j : Int)) :
    ∃ j, j < m ∧ assigned j = false := by
  by_contra hno
  have hall : ∀ j, j < m → assigned j = true := by
    intro j hj
    cases ha : assigned j with
    | true => rfl
    | false => exact absurd ⟨j, hj, ha⟩ hno
  have hsub : Finset.range m ⊆ (Finset.range i).image (fun i1 => (solution i1).toNat) := by
    intro j hj
    obtain ⟨i1, hi1, e⟩ := hass j (hall j (Finset.mem_range.mp hj))
    exact Finset.mem_image.mpr ⟨i1, Finset.mem_range.mpr hi1, by rw [e]; rfl⟩
  have h1 := Finset.card_le_card hsub
  have h2 : ((Finset.range i).image (fun i1 => (solution i1).toNat)).card ≤ i := by
    simpa using Finset.card_image_le (s := Finset.range i) (f := fun i1 => (solution i1).toNat)
  rw [Finset.card_range] at h1
  omega

theorem assignLoop_spec (costs : Nat → Nat → Int) (n m : Nat) (hnm : n ≤ m)
    (hcost : ∀ i, i < n → ∀ j, j < m → costs i j < 9999) :
    ∀ (k i : Nat) (assigned : Nat → Bool) (solution : Nat → Int), i + k ≤ n →
      (∀ j, assigned j = true ↔ ∃ i1, i1 < i ∧ solution i1 = (j : Int)) →
      (∀ i1, i1 < i → ∃ j, Greedy costs m solution i1 j) →
      ∃ sol, assignLoop costs m k i assigned solution = some sol ∧
        ∀ i1, i1 < i + k → ∃ j, Greedy costs m sol i1 j := by
  intro k
  induction k with
  | zero => intro i assigned solution _ _ hg; exact ⟨solution, rfl, hg⟩
  | succ k ih =>
    intro i assigned solution hik hass hg
    have e : i + (k + 1) = i + 1 + k := by omega
    rw [e]
    unfold assignLoop
    have hpick := pickLoop_spec costs assigned i m 0 (9999, -1) (le_refl _)
      (Or.inl ⟨rfl, rfl, fun j1 hj1 => absurd hj1 (Nat.not_lt_zero _)⟩)
    rw [Nat.zero_add] at hpick
    obtain ⟨jf, hjf, hfree⟩ := free_task (by omega : i < m) (fun j hj => (hass j).mp hj)
    rcases hpick with ⟨_, _, h3⟩ | ⟨j0, h1, h2, h3, h4, _, h6, h7⟩
    · have := h3 jf hjf hfree
      have := hcost i (by omega) jf hjf
      omega
    · simp only [h1]
      rw [if_neg (by omega)]
      rw [Int.toNat_ofNat]
      have hnot : ∀ i1, i1 < i → solution i1 ≠ (j0 : Int) := by
        intro i1 hi1 he
        have := (hass j0).mpr ⟨i1, hi1, he⟩
        rw [h3] at this
        exact Bool.noConfusion this
      refine ih (i + 1) _ _ (by omega) ?_ ?_
      · intro j
        by_cases hj : j = j0
        · rw [hj, set1_same]
          exact ⟨fun _ => ⟨i, by omega, set1_same _ _ _⟩, fun _ => rfl⟩
        · rw [set1_other _ _ _ _ hj, hass j]
          constructor
          · rintro ⟨i1, hi1, he⟩
            exact ⟨i1, by omega, by rw [set1_other _ _ _ _ (by omega)]; exact he⟩
          · rintro ⟨i1, hi1, he⟩
            by_cases hi : i1 = i
            · rw [hi, set1_same] at he
              exact absurd (Int.ofNat_inj.mp he).symm hj
            · rw [set1_other _ _ _ _ hi] at he
              exact ⟨i1, by omega, he⟩
      · intro i1 hi1
        by_cases hi : i1 = i
        · rw [hi]
          refine ⟨j0, set1_same _ _ _, h2, ?_, ?_⟩
          · intro i2 hi2
            rw [set1_other _ _ _ _ (by omega)]
            exact hnot i2 hi2
          · intro j1 hj1 hfree1
            have ha : assigned j1 = false := by
              cases hx : assigned j1 with
              | false => rfl
              | true =>
                obtain ⟨i2, hi2, he⟩ := (hass j1).mp hx
                have := hfree1 i2 hi2
                rw [set1_other _ _ _ _ (by omega)] at this
                exact absurd he this
            have hmin := h6 j1 hj1 ha
            rw [h4] at hmin
            refine ⟨hmin, ?_⟩
            intro heq
            by_contra hlt
            have := h7 j1 (by omega) ha
            rw [h4] at this
            omega
        · obtain ⟨j, g1, g2, g3, g4⟩ := hg i1 (by omega)
          refine ⟨j, by rw [set1_other _ _ _ _ hi]; exact g1, g2, ?_, ?_⟩
          · intro i2 hi2
            rw [set1_other _ _ _ _ (by omega)]
            exact g3 i2 hi2
          · intro j1 hj1 hfree1
            refine g4 j1 hj1 ?_
            intro i2 hi2
            have := hfree1 i2 hi2
            rw [set1_other _ _ _ _ (by omega)] at this
            exact this

/-- C20: for `n ≤ m ≤ MAX` and all costs `costs[i][j]`, `j < m`, below the sentinel 9999,
`optimizeResourceAllocation` runs to its end with every `taskIndex` written to `assigned` in
`0..m-1` (the store at `-1` never happens), and in the array returned every employee `i < n` has
a task `solution[i]` in `0..m-1`, different from the task of every earlier employee, and the
lowest-index task of minimum `costs[i][j]` among the tasks of no earlier employee. The tasks of
two different employees differ. -/
theorem optimizeResourceAllocation_greedy (costs : Nat → Nat → Int) (n m : Nat)
    (solution : Nat → Int) (hnm : n ≤ m) (hm : m ≤ MAX)
    (hcost : ∀ i, i < n → ∀ j, j < m → costs i j < 9999) :
    ∃ sol, optimizeResourceAllocation costs n m solution = some sol ∧
      (∀ i, i < n → ∃ j : Nat, sol i = (j : Int) ∧ j < m ∧ j < MAX ∧
        (∀ i1, i1 < i → sol i1 ≠ (j : Int)) ∧
        ∀ j1 : Nat, j1 < m → (∀ i1, i1 < i → sol i1 ≠ (j1 : Int)) →
          costs i j ≤ costs i j1 ∧ (costs i j1 = costs i j → j ≤ j1)) ∧
      ∀ i1 i2, i1 < n → i2 < n → i1 ≠ i2 → sol i1 ≠ sol i2 := by
  obtain ⟨sol, hrun, hg⟩ := assignLoop_spec costs n m hnm hcost n 0 (fun _ => false) solution
    (by omega) (fun j => by simp) (fun i1 hi1 => absurd hi1 (Nat.not_lt_zero _))
  rw [Nat.zero_add] at hg
  refine ⟨sol, hrun, ?_, ?_⟩
  · intro i hi
    obtain ⟨j, g1, g2, g3, g4⟩ := hg i hi
    exact ⟨j, g1, g2, by omega, g3, g4⟩
  · have hlt : ∀ i1 i2, i1 < i2 → i2 < n → sol i1 ≠ sol i2 := by
      intro i1 i2 h12 h2
      obtain ⟨j, g1, _, g3, _⟩ := hg i2 h2
      rw [g1]
      exact g3 i1 h12
    intro i1 i2 h1 h2 hne
    rcases Nat.lt_or_gt_of_ne hne with h | h
    · exact hlt i1 i2 h h2
    · exact fun e => hlt i2 i1 h h1 e.symm

/-- C20 at the costs of `main`: employee `i` gets task `i`. -/
theorem optimizeResourceAllocation_greedy_witness :
    ∃ sol, optimizeResourceAllocation resourceCosts 5 5 (fun _ => 0) = some sol ∧
      (∀ i, i < 5 → ∃ j : Nat, sol i = (j : Int) ∧ j < 5 ∧ j < MAX ∧
        (∀ i1, i1 < i → sol i1 ≠ (j : Int)) ∧
        ∀ j1 : Nat, j1 < 5 → (∀ i1, i1 < i → sol i1 ≠ (j1 : Int)) →
          resourceCosts i j ≤ resourceCosts i j1 ∧
            (resourceCosts i j1 = resourceCosts i j → j ≤ j1)) ∧
      ∀ i1 i2, i1 < 5 → i2 < 5 → i1 ≠ i2 → sol i1 ≠ sol i2 :=
  optimizeResourceAllocation_greedy resourceCosts 5 5 (fun _ => 0) (by decide) (by decide)
    (by decide)

theorem wrap32_range (x : Int) : -2147483648 ≤ wrap32 x ∧ wrap32 x ≤ 2147483647 := by
  unfold wrap32
  omega

theorem wrap32_add (x y : Int) : wrap32 (wrap32 x + y) = wrap32 (x + y) := by
  unfold wrap32
  omega

theorem wrap32_sub (x y : Int) : wrap32 (wrap32 x - y) = wrap32 (x - y) := by
  unfold wrap32
  omega

theorem augmentLoop32_rel (p : Nat → Int) (s : Nat) (r : Int) :
    ∀ (fuel v : Nat) (c32 c1 : Nat → Nat → Int),
      (augmentLoop32 p s r fuel v c32 = none ∧ augmentLoop p s r fuel v c1 = none) ∨
      ∃ d32 d1, augmentLoop32 p s r fuel v c32 = some d32 ∧
        augmentLoop p s r fuel v c1 = some d1 ∧
        ∀ a b, c32 a b = wrap32 (c1 a b) → d32 a b = wrap32 (d1 a b) := by
  intro fuel
  induction fuel with
  | zero => intro v c32 c1; exact Or.inl ⟨rfl, rfl⟩
  | succ fuel ih =>
    intro v c32 c1
    unfold augmentLoop32 augmentLoop
    by_cases hv : v ≠ s
    · rw [if_pos hv, if_pos hv]
      simp only
      rcases ih (p v).toNat _ _ with ⟨h1, h2⟩ | ⟨d32, d1, h1, h2, h3⟩
      · exact Or.inl ⟨h1, h2⟩
      · refine Or.inr ⟨d32, d1, h1, h2, ?_⟩
        intro a b hab
        apply h3
        simp only [set2]
        by_cases e1 : a = v ∧ b = (p v).toNat
        · rw [if_pos e1, if_pos e1]
          obtain ⟨ea, eb⟩ := e1
          subst ea eb
          by_cases e2 : a = (p a).toNat ∧ (p a).toNat = a
          · rw [if_pos e2, if_pos e2]
            have e3 : (p a).toNat = a := e2.2
            rw [e3] at hab ⊢
            rw [hab, wrap32_sub, wrap32_add]
          · rw [if_neg e2, if_neg e2, hab, wrap32_add]
        · rw [if_neg e1, if_neg e1]
          by_cases e2 : a = (p v).toNat ∧ b = v
          · rw [if_pos e2, if_pos e2]
            obtain ⟨ea, eb⟩ := e2
            subst ea eb
            rw [hab, wrap32_sub]
          · rw [if_neg e2, if_neg e2]
            exact hab
    · rw [if_neg hv, if_neg hv]
      exact Or.inr ⟨c32, c1, rfl, rfl, fun a b hab => hab⟩

/-- One pass on 32-bit `int` against one pass with exact arithmetic from the same residual
table and a total of 0: the same search and the same path, with every changed entry and the
total wrapped. -/
theorem iteration32_exact (inner s t n : Nat) (st : FlowState) :
    (iteration inner s t n { st with maxFlow := 0 } = none ∧
      iteration32 inner s t n st = none) ∨
    (∃ st1, iteration inner s t n { st with maxFlow := 0 } = some (Step.stop st1) ∧
      iteration32 inner s t n st = some (Step.stop { st with parent := st1.parent })) ∨
    (∃ st1 c32, iteration inner s t n { st with maxFlow := 0 } = some (Step.again st1) ∧
      iteration32 inner s t n st = some (Step.again
        { capacity := c32, parent := st1.parent,
          maxFlow := wrap32 (st.maxFlow + st1.maxFlow) }) ∧
      ∀ a b, st.capacity a b = wrap32 (st.capacity a b) →
        c32 a b = wrap32 (st1.capacity a b)) := by
  unfold iteration iteration32
  simp only
  cases hb : bfs inner st.capacity st.parent s t n with
  | none => exact Or.inl ⟨rfl, rfl⟩
  | some b =>
    simp only
    by_cases hvis : b.visited t = false
    · rw [if_pos hvis, if_pos hvis]
      exact Or.inr (Or.inl ⟨_, rfl, rfl⟩)
    · rw [if_neg hvis, if_neg hvis]
      cases hp : pathFlowLoop st.capacity b.parent s inner t 9999 with
      | none => exact Or.inl ⟨rfl, rfl⟩
      | some pf =>
        simp only
        rcases augmentLoop32_rel b.parent s pf inner t st.capacity st.capacity with
          ⟨h1, h2⟩ | ⟨d32, d1, h1, h2, h3⟩
        · rw [h1, h2]
          exact Or.inl ⟨rfl, rfl⟩
        · rw [h1, h2]
          refine Or.inr (Or.inr ⟨_, d32, rfl, ?_, h3⟩)
          simp

theorem FlowInv.fresh (s t n : Nat) (st : FlowState) :
    FlowInv st.capacity s t n { st with maxFlow := 0 } :=
  ⟨fun _ _ _ _ => min_le_left _ _, fun _ _ _ _ => rfl, fun _ _ => by simp, le_refl _⟩

theorem iteration32_spec {graph : Nat → Nat → Int} {s t n inner : Nat} {st : FlowState}
    (hs : s < n) (ht : t < n) (hst : s ≠ t) (hinner : n < inner)
    (inv : RowInv graph s t n st) :
    (∃ st1, iteration32 inner s t n st = some (Step.stop st1) ∧ st1.capacity = st.capacity ∧
        st1.maxFlow = st.maxFlow ∧ Saturated s t n st1) ∨
    (∃ (st1 : FlowState) (r : Int), iteration32 inner s t n st = some (Step.again st1) ∧
        RowInv graph s t n st1 ∧ 1 ≤ r ∧ r ≤ 9999 ∧
        rowSum st1.capacity n s = rowSum st.capacity n s - r ∧
        st1.maxFlow = wrap32 (st.maxFlow + r)) := by
  have hfix : ∀ a b, a < n → b < n → st.capacity a b = wrap32 (st.capacity a b) :=
    fun a b ha hb => (wrap32_eq _ (inv.range a b ha hb).1 (inv.range a b ha hb).2).symm
  rcases iteration_spec hs hinner (FlowInv.fresh s t n st) with
    ⟨st1, hit, hcap, _, hsat⟩ | ⟨st1, hit, inv1, hinc⟩
  · left
    rcases iteration32_exact inner s t n st with ⟨h1, _⟩ | ⟨st2, h1, h2⟩ | ⟨st2, c32, h1, _⟩
    · rw [hit] at h1; simp at h1
    · rw [hit] at h1
      simp only [Option.some.injEq, Step.stop.injEq] at h1
      subst h1
      refine ⟨_, h2, rfl, rfl, ?_⟩
      unfold Saturated at hsat ⊢
      rw [hcap] at hsat
      exact hsat
    · rw [hit] at h1; simp at h1
  · right
    rcases iteration32_exact inner s t n st with ⟨h1, _⟩ | ⟨st2, h1, _⟩ | ⟨st2, c32, h1, h2, h3⟩
    · rw [hit] at h1; simp at h1
    · rw [hit] at h1; simp at h1
    · rw [hit] at h1
      simp only [Option.some.injEq, Step.again.injEq] at h1
      subst h1
      obtain ⟨r, d, q, htr, hmf, hr9, _, _, heff⟩ := iteration_effect hit
      simp only [zero_add] at hmf
      simp only [zero_add] at hinc
      have hr1 : 1 ≤ r := by omega
      have hsrc : ∀ v, v < n → min (st.capacity s v) 0 ≤ st1.capacity s v ∧
          st1.capacity s v ≤ st.capacity s v := by
        intro v hv
        refine ⟨inv1.lower s v hs hv, ?_⟩
        obtain ⟨e1, e2, e3⟩ := heff s v
        by_cases p1 : PathEdge st1.parent s t s v
        · have := e1 p1
          simp only at this
          omega
        · by_cases p2 : PathEdge st1.parent s t v s
          · exact absurd rfl (htr.edge v s p2).1
          · have := e3 p1 p2
            simp only at this
            omega
      have hsnk : ∀ u, u < n → min (st.capacity u t) 0 ≤ st1.capacity u t ∧
          st1.capacity u t ≤ st.capacity u t := by
        intro u hu
        refine ⟨inv1.lower u t hu ht, ?_⟩
        obtain ⟨e1, e2, e3⟩ := heff u t
        by_cases p1 : PathEdge st1.parent s t u t
        · have := e1 p1
          simp only at this
          omega
        · by_cases p2 : PathEdge st1.parent s t t u
          · have := htr.edge t u p2
            omega
          · have := e3 p1 p2
            simp only at this
            omega
      have csrc : ∀ v, v < n → c32 s v = st1.capacity s v := by
        intro v hv
        rw [h3 s v (hfix s v hs hv)]
        have b1 := hsrc v hv
        have b2 := inv.range s v hs hv
        exact wrap32_eq _ (by omega) (by omega)
      have csnk : ∀ u, u < n → c32 u t = st1.capacity u t := by
        intro u hu
        rw [h3 u t (hfix u t hu ht)]
        have b1 := hsnk u hu
        have b2 := inv.range u t hu ht
        exact wrap32_eq _ (by omega) (by omega)
      have hrow32 : rowSum c32 n s = rowSum st1.capacity n s :=
        Finset.sum_congr rfl (fun v hv => csrc v (Finset.mem_range.mp hv))
      have hrows := inv1.rows s hs
      rw [if_pos rfl, if_neg hst] at hrows
      have hrowt := inv1.rows t ht
      rw [if_neg (fun e => hst e.symm), if_pos rfl] at hrowt
      have hcolstep : ∑ u ∈ Finset.range n, (st.capacity u t - st1.capacity u t) = r := by
        have e : ∑ u ∈ Finset.range n, (st.capacity u t - st1.capacity u t) =
            ∑ u ∈ Finset.range n, (st1.capacity t u - st.capacity t u) := by
          apply Finset.sum_congr rfl
          intro u hu
          have := inv1.pair u t (Finset.mem_range.mp hu) ht
          simp only at this
          omega
        rw [e, Finset.sum_sub_distrib]
        unfold rowSum at hrowt
        omega
      refine ⟨_, r, h2, ⟨?_, ?_, ?_, ?_, ?_⟩, hr1, hr9, ?_, by rw [hmf]⟩
      · intro a b ha hb
        show -2147483648 ≤ c32 a b ∧ c32 a b ≤ 2147483647
        rw [h3 a b (hfix a b ha hb)]
        exact wrap32_range _
      · intro v hv
        simp only
        rw [csrc v hv]
        have b1 := hsrc v hv
        have b2 := inv.src v hv
        omega
      · intro u hu
        simp only
        rw [csnk u hu]
        have b1 := hsnk u hu
        have b2 := inv.snk u hu
        omega
      · simp only
        rw [hrow32, inv.flow, hmf, wrap32_add]
        congr 1
        omega
      · simp only
        rw [hrow32]
        have e : ∑ u ∈ Finset.range n, (graph u t - c32 u t) =
            ∑ u ∈ Finset.range n, (graph u t - st.capacity u t) +
              ∑ u ∈ Finset.range n, (st.capacity u t - st1.capacity u t) := by
          rw [← Finset.sum_add_distrib]
          apply Finset.sum_congr rfl
          intro u hu
          rw [csnk u (Finset.mem_range.mp hu)]
          omega
        rw [e, hcolstep, ← inv.col]
        omega
      · simp only
        rw [hrow32]
        omega

theorem augmentLoop32_mono (p : Nat → Int) (s : Nat) (pf : Int) :
    ∀ (fuel v : Nat) (c r : Nat → Nat → Int), augmentLoop32 p s pf fuel v c = some r →
      ∀ fuel1, fuel ≤ fuel1 → augmentLoop32 p s pf fuel1 v c = some r := by
  intro fuel
  induction fuel with
  | zero => intro v c r h; simp [augmentLoop32] at h
  | succ fuel ih =>
    intro v c r h fuel1 hle
    obtain ⟨fuel1, rfl⟩ : ∃ f, fuel1 = f + 1 := ⟨fuel1 - 1, by omega⟩
    unfold augmentLoop32 at h ⊢
    by_cases hv : v ≠ s
    · rw [if_pos hv] at h ⊢
      exact ih _ _ r h fuel1 (by omega)
    · rw [if_neg hv] at h ⊢
      exact h

theorem iteration32_mono {inner s t n : Nat} {st : FlowState} {r : Step}
    (h : iteration32 inner s t n st = some r) {inner1 : Nat} (hle : inner ≤ inner1) :
    iteration32 inner1 s t n st = some r := by
  unfold iteration32 at h ⊢
  cases hb : bfs inner st.capacity st.parent s t n with
  | none => rw [hb] at h; simp at h
  | some b =>
    rw [hb] at h
    have hb1 : bfs inner1 st.capacity st.parent s t n = some b :=
      bfsLoop_mono _ _ _ _ _ _ hb _ hle
    rw [hb1]
    simp only at h ⊢
    by_cases hvis : b.visited t = false
    · rw [if_pos hvis] at h ⊢
      exact h
    · rw [if_neg hvis] at h ⊢
      cases hp : pathFlowLoop st.capacity b.parent s inner t 9999 with
      | none => rw [hp] at h; simp at h
      | some pf =>
        rw [hp] at h
        rw [pathFlowLoop_mono _ _ _ _ _ _ _ hp _ hle]
        simp only at h ⊢
        cases ha : augmentLoop32 b.parent s pf inner t st.capacity with
        | none => rw [ha] at h; simp at h
        | some c2 =>
          rw [ha] at h
          rw [augmentLoop32_mono _ _ _ _ _ _ _ ha _ hle]
          exact h

theorem RowInv.flow_bounds {graph : Nat → Nat → Int} {s t n : Nat} {st : FlowState}
    (inv : RowInv graph s t n st) :
    0 ≤ rowSum graph n s - rowSum st.capacity n s ∧
    rowSum graph n s - rowSum st.capacity n s ≤ outCap graph n s ∧
    rowSum graph n s - rowSum st.capacity n s ≤ ∑ u ∈ Finset.range n, max (graph u t) 0 := by
  have e : rowSum graph n s - rowSum st.capacity n s =
      ∑ v ∈ Finset.range n, (graph s v - st.capacity s v) := by
    unfold rowSum
    rw [Finset.sum_sub_distrib]
  refine ⟨?_, ?_, ?_⟩
  · rw [e]
    apply Finset.sum_nonneg
    intro v hv
    have := inv.src v (Finset.mem_range.mp hv)
    omega
  · rw [e]
    unfold outCap
    apply Finset.sum_le_sum
    intro v hv
    have := inv.src v (Finset.mem_range.mp hv)
    rcases le_total (graph s v) 0 with h | h
    · rw [min_eq_left h] at this; rw [max_eq_right h]; omega
    · rw [min_eq_right h] at this; rw [max_eq_left h]; omega
  · rw [inv.col]
    apply Finset.sum_le_sum
    intro u hu
    have := inv.snk u (Finset.mem_range.mp hu)
    rcases le_total (graph u t) 0 with h | h
    · rw [min_eq_left h] at this; rw [max_eq_right h]; omega
    · rw [min_eq_right h] at this; rw [max_eq_left h]; omega

theorem initState_rowInv (graph : Nat → Nat → Int) (s t n : Nat) (l : Locals)
    (hs : s < n) (ht : t < n)
    (hint : ∀ u, u < n → ∀ v, v < n → -2147483648 ≤ graph u v ∧ graph u v ≤ 2147483647) :
    RowInv graph s t n (initState graph n l) := by
  have hrow : rowSum (initState graph n l).capacity n s = rowSum graph n s :=
    Finset.sum_congr rfl
      (fun v hv => initState_capacity graph n l s v hs (Finset.mem_range.mp hv))
  refine ⟨?_, ?_, ?_, ?_, ?_⟩
  · intro a b ha hb
    rw [initState_capacity graph n l a b ha hb]
    exact hint a ha b hb
  · intro v hv
    rw [initState_capacity graph n l s v hs hv]
    exact ⟨min_le_left _ _, le_refl _⟩
  · intro u hu
    rw [initState_capacity graph n l u t hu ht]
    exact ⟨min_le_left _ _, le_refl _⟩
  · rw [hrow, sub_self]
    rfl
  · rw [hrow, sub_self]
    symm
    apply Finset.sum_eq_zero
    intro u hu
    rw [initState_capacity graph n l u t (Finset.mem_range.mp hu) ht, sub_self]

theorem mainLoop32_spec {graph : Nat → Nat → Int} {s t n inner : Nat}
    (hs : s < n) (ht : t < n) (hst : s ≠ t) (hinner : n < inner) :
    ∀ (fuel : Nat) (st : FlowState), RowInv graph s t n st →
      (outCap graph n s - (rowSum graph n s - rowSum st.capacity n s)).toNat < fuel →
      ∃ st1, mainLoop32 inner s t n fuel st = some st1 ∧ RowInv graph s t n st1 ∧
        Saturated s t n st1 := by
  intro fuel
  induction fuel with
  | zero => intro st _ h; omega
  | succ fuel ih =>
    intro st inv hfuel
    unfold mainLoop32
    rcases iteration32_spec hs ht hst hinner inv with
      ⟨st1, hit, hcap, hmf, hsat⟩ | ⟨st1, r, hit, inv1, hr1, _, hrow, _⟩
    · rw [hit]
      refine ⟨st1, rfl, ?_, hsat⟩
      exact ⟨by rw [hcap]; exact inv.range, by rw [hcap]; exact inv.src,
        by rw [hcap]; exact inv.snk, by rw [hcap, hmf]; exact inv.flow,
        by rw [hcap]; exact inv.col⟩
    · rw [hit]
      have := inv1.flow_bounds
      exact ih st1 inv1 (by omega)

theorem runFlow32_spec {graph : Nat → Nat → Int} {s t n fuel : Nat} (l : Locals)
    (hs : s < n) (ht : t < n) (hst : s ≠ t)
    (hint : ∀ u, u < n → ∀ v, v < n → -2147483648 ≤ graph u v ∧ graph u v ≤ 2147483647)
    (hfuel : fuelBound graph s n ≤ fuel) :
    ∃ st, runFlow32 fuel graph s t n l = some st ∧ RowInv graph s t n st ∧
      Saturated s t n st := by
  unfold fuelBound at hfuel
  have inv := initState_rowInv graph s t n l hs ht hint
  have := inv.flow_bounds
  exact mainLoop32_spec hs ht hst (by omega) fuel _ inv (by omega)

theorem simulate32_of_run {fuel : Nat} {graph : Nat → Nat → Int} {s t n : Nat} {l : Locals}
    {st : FlowState} (h : runFlow32 fuel graph s t n l = some st) :
    simulateFlowNetwork32 fuel graph s t n l = some st.maxFlow := by
  simp [simulateFlowNetwork32, h]

theorem iteration32_rowInv {graph : Nat → Nat → Int} {inner s t n : Nat}
    {st st1 : FlowState} (hs : s < n) (ht : t < n) (hst : s ≠ t)
    (inv : RowInv graph s t n st)
    (hstep : iteration32 inner s t n st = some (Step.again st1)) :
    RowInv graph s t n st1 ∧ ∃ r : Int, 1 ≤ r ∧ r ≤ 9999 ∧
      rowSum st1.capacity n s = rowSum st.capacity n s - r ∧
      st1.maxFlow = wrap32 (st.maxFlow + r) := by
  have hbig := iteration32_mono hstep (Nat.le_max_left inner (n + 1))
  have hn : n < max inner (n + 1) := by
    have := Nat.le_max_right inner (n + 1)
    omega
  rcases iteration32_spec hs ht hst hn inv with ⟨st2, hit, _⟩ | ⟨st2, r, hit, inv2, h1, h2, h3, h4⟩
  · rw [hit] at hbig
    simp at hbig
  · rw [hit] at hbig
    simp only [Option.some.injEq, Step.again.injEq] at hbig
    rw [← hbig]
    exact ⟨inv2, r, h1, h2, h3, h4⟩

theorem Reached32.rowInv {graph : Nat → Nat → Int} {inner s t n : Nat} {l : Locals}
    {st : FlowState} (hs : s < n) (ht : t < n) (hst : s ≠ t)
    (hint : ∀ u, u < n → ∀ v, v < n → -2147483648 ≤ graph u v ∧ graph u v ≤ 2147483647)
    (h : Reached32 inner s t n (initState graph n l) st) : RowInv graph s t n st := by
  induction h with
  | start => exact initState_rowInv graph s t n l hs ht hint
  | step _ hstep ih => exact (iteration32_rowInv hs ht hst ih hstep).1

theorem outCap_nonneg {graph : Nat → Nat → Int} {n s : Nat}
    (hg : ∀ v, v < n → 0 ≤ graph s v) :
    outCap graph n s = ∑ v ∈ Finset.range n, graph s v :=
  Finset.sum_congr rfl (fun v hv => max_eq_left (hg v (Finset.mem_range.mp hv)))

theorem runFlow32_eq {graph : Nat → Nat → Int} {s t n : Nat} (fuel : Nat) (l : Locals)
    (hs : s < n) (hst : s ≠ t) (hg : ∀ u, u < n → ∀ v, v < n → 0 ≤ graph u v)
    (hpair : ∀ u, u < n → ∀ v, v < n → graph u v + graph v u ≤ 2147483647)
    (hout : ∑ v ∈ Finset.range n, graph s v ≤ 2147483647) :
    runFlow32 fuel graph s t n l = runFlow fuel graph s t n l :=
  mainLoop32_eq hs hst hg (fun u v hu hv => hpair u hu v hv) hout fuel _
    (initState_inv graph s t n l)

theorem simulateFlowNetwork32_eq {graph : Nat → Nat → Int} {s t n : Nat} (fuel : Nat)
    (l : Locals) (hs : s < n) (hst : s ≠ t) (hg : ∀ u, u < n → ∀ v, v < n → 0 ≤ graph u v)
    (hpair : ∀ u, u < n → ∀ v, v < n → graph u v + graph v u ≤ 2147483647)
    (hout : ∑ v ∈ Finset.range n, graph s v ≤ 2147483647) :
    simulateFlowNetwork32 fuel graph s t n l = simulateFlowNetwork fuel graph s t n l := by
  unfold simulateFlowNetwork32 simulateFlowNetwork
  rw [runFlow32_eq fuel l hs hst hg hpair hout]

/-- C1 (amended): for every graph with 1 ≤ n ≤ MAX nodes, capacities ≥ 0 with
`graph[u][v] + graph[v][u] ≤ 2^31 - 1` for all `u, v < n` and with the capacities that leave the
source summing to at most `2^31 - 1`, and in-range source ≠ sink, the run of
`simulateFlowNetwork` on 32-bit `int` ends (for every fuel from `fuelBound` on) and the total it
has accumulated is the maximum flow value: some integer flow within the capacities, conserved at
the inner nodes, has that value, and no feasible flow, with values in any ordered ring, has a
larger one. The single-edge graph gives 10 and the diamond graph gives 20. -/
theorem simulateFlowNetwork_max_flow :
    (∀ (graph : Nat → Nat → Int) (n source sink fuel : Nat) (l : Locals),
      1 ≤ n → n ≤ MAX → source < n → sink < n → source ≠ sink →
      (∀ u, u < n → ∀ v, v < n → 0 ≤ graph u v) →
      (∀ u, u < n → ∀ v, v < n → graph u v + graph v u ≤ 2147483647) →
      ∑ v ∈ Finset.range n, graph source v ≤ 2147483647 →
      fuelBound graph source n ≤ fuel →
      ∃ total, simulateFlowNetwork32 fuel graph source sink n l = some total ∧
        (∃ f : Nat → Nat → Int, IsFlow graph n source sink f ∧ flowValue f n source = total) ∧
        (∀ (K : Type) [LinearOrderedCommRing K] (f : Nat → Nat → K),
          IsFlow graph n source sink f → flowValue f n source ≤ ((total : Int) : K))) ∧
    (∀ (fuel : Nat) (l : Locals), 13 ≤ fuel →
      simulateFlowNetwork32 fuel (table [[0, 10], [0, 0]]) 0 1 2 l = some 10) ∧
    (∀ (fuel : Nat) (l : Locals), 25 ≤ fuel →
      simulateFlowNetwork32 fuel diamond 0 3 4 l = some 20) := by
  refine ⟨?_, ?_, ?_⟩
  · intro graph n source sink fuel l _ _ hs _ hst hg hpair hout hfuel
    obtain ⟨st, hrun, inv, sat⟩ := @runFlow_spec graph source sink n fuel l hs hst hfuel
    rw [simulateFlowNetwork32_eq fuel l hs hst hg hpair hout]
    exact ⟨st.maxFlow, simulate_of_run hrun, inv.max_flow sat hg hs hst⟩
  · intro fuel l hfuel
    have hb : fuelBound (table [[0, 10], [0, 0]]) 0 2 = 13 := by
      simp [fuelBound, outCap, Finset.sum_range_succ, table]
    rw [simulateFlowNetwork32_eq fuel l (by decide) (by decide) (by decide) (by decide)
      (by simp [Finset.sum_range_succ, table]),
      simulate_eq l l (by decide) (by decide) (by decide) (by omega) (le_refl _), hb]
    simp [simulateFlowNetwork, runFlow, mainLoop, iteration, bfs, bfsLoop, bfsInit, scanLoop,
      pathFlowLoop, augmentLoop, initState, initCapacity_apply, set1, set2, table]
  · intro fuel l hfuel
    have hb : fuelBound diamond 0 4 = 25 := by
      simp [fuelBound, outCap, Finset.sum_range_succ, table, diamond]
    rw [simulateFlowNetwork32_eq fuel l (by decide) (by decide) (by decide) (by decide)
      (by simp [Finset.sum_range_succ, table, diamond]),
      simulate_eq l l (by decide) (by decide) (by decide) (by omega) (le_refl _), hb]
    simp [simulateFlowNetwork, runFlow, mainLoop, iteration, bfs, bfsLoop, bfsInit, scanLoop,
      pathFlowLoop, augmentLoop, initState, initCapacity_apply, set1, set2, table, diamond]

/-- C1 (amended), at the single-edge graph of scenario 1 with fuel 13. -/
theorem simulateFlowNetwork_max_flow_witness :
    ∃ total, simulateFlowNetwork32 13 (table [[0, 10], [0, 0]]) 0 1 2 zeroLocals = some total ∧
      (∃ f : Nat → Nat → Int, IsFlow (table [[0, 10], [0, 0]]) 2 0 1 f ∧
        flowValue f 2 0 = total) ∧
      (∀ (K : Type) [LinearOrderedCommRing K] (f : Nat → Nat → K),
        IsFlow (table [[0, 10], [0, 0]]) 2 0 1 f → flowValue f 2 0 ≤ ((total : Int) : K)) :=
  simulateFlowNetwork_max_flow.1 (table [[0, 10], [0, 0]]) 2 0 1 13 zeroLocals (by decide)
    (by decide) (by decide) (by decide) (by decide) (by decide) (by decide)
    (by simp [Finset.sum_range_succ, table])
    (by simp [fuelBound, outCap, Finset.sum_range_succ, table])

/-- C2 (amended): for every valid input with `graph[u][v] + graph[v][u] ≤ 2^31 - 1` for all
`u, v < n` and with the capacities that leave the source summing to at most `2^31 - 1`, the run
on 32-bit `int` ends in a state whose set `S` of nodes reachable from the source along edges of
positive residual capacity does not hold the sink, and the total returned is the sum of the
input capacities over the edges that leave `S`. -/
theorem simulateFlowNetwork_min_cut (graph : Nat → Nat → Int) (n source sink fuel : Nat)
    (l : Locals) (hs : source < n) (_ht : sink < n) (hst : source ≠ sink)
    (hg : ∀ u, u < n → ∀ v, v < n → 0 ≤ graph u v)
    (hpair : ∀ u, u < n → ∀ v, v < n → graph u v + graph v u ≤ 2147483647)
    (hout : ∑ v ∈ Finset.range n, graph source v ≤ 2147483647)
    (hfuel : fuelBound graph source n ≤ fuel) :
    ∃ (st : FlowState) (S : Finset Nat), runFlow32 fuel graph source sink n l = some st ∧
      simulateFlowNetwork32 fuel graph source sink n l = some st.maxFlow ∧
      (∀ v, v ∈ S ↔ Reach st.capacity n source v) ∧ sink ∉ S ∧
      st.maxFlow = ∑ u ∈ S, ∑ v ∈ Finset.range n \ S, graph u v := by
  obtain ⟨st, hrun, inv, S, hsS, htS, hS, hclosed, hreach⟩ :=
    @runFlow_spec graph source sink n fuel l hs hst hfuel
  rw [← runFlow32_eq fuel l hs hst hg hpair hout] at hrun
  refine ⟨st, S, hrun, simulate32_of_run hrun, ?_, htS, ?_⟩
  · exact fun v => ⟨hreach v, Saturated.reach_mem hsS hclosed v⟩
  · exact (inv.cut_capacity hg S hS hsS htS hclosed).symm

/-- C2 (amended) at the diamond graph of scenario 2. -/
theorem simulateFlowNetwork_min_cut_witness :
    ∃ (st : FlowState) (S : Finset Nat), runFlow32 25 diamond 0 3 4 zeroLocals = some st ∧
      simulateFlowNetwork32 25 diamond 0 3 4 zeroLocals = some st.maxFlow ∧
      (∀ v, v ∈ S ↔ Reach st.capacity 4 0 v) ∧ 3 ∉ S ∧
      st.maxFlow = ∑ u ∈ S, ∑ v ∈ Finset.range 4 \ S, diamond u v :=
  simulateFlowNetwork_min_cut diamond 4 0 3 25 zeroLocals (by decide) (by decide) (by decide)
    (by decide) (by decide) (by simp [Finset.sum_range_succ, table, diamond])
    (by simp [fuelBound, outCap, Finset.sum_range_succ, table, diamond])

/-- C3 (amended): for every valid input whose capacities are `int` values and whose capacities
leaving the source sum to at most `2^31 - 1`, the run on 32-bit `int` ends and the total
returned is at least 0, at most the sum of the capacities of the edges that leave the source
and at most the sum of the capacities of the edges that enter the sink. -/
theorem simulateFlowNetwork_bounds (graph : Nat → Nat → Int) (n source sink fuel : Nat)
    (l : Locals) (hs : source < n) (ht : sink < n) (hst : source ≠ sink)
    (hg : ∀ u, u < n → ∀ v, v < n → 0 ≤ graph u v ∧ graph u v ≤ 2147483647)
    (hout : ∑ v ∈ Finset.range n, graph source v ≤ 2147483647)
    (hfuel : fuelBound graph source n ≤ fuel) :
    ∃ total, simulateFlowNetwork32 fuel graph source sink n l = some total ∧ 0 ≤ total ∧
      total ≤ ∑ v ∈ Finset.range n, graph source v ∧
      total ≤ ∑ u ∈ Finset.range n, graph u sink := by
  obtain ⟨st, hrun, inv, _⟩ := @runFlow32_spec graph source sink n fuel l hs ht hst
    (fun u hu v hv => ⟨by have := (hg u hu v hv).1; omega, (hg u hu v hv).2⟩) hfuel
  obtain ⟨b1, b2, b3⟩ := inv.flow_bounds
  rw [outCap_nonneg (fun v hv => (hg source hs v hv).1)] at b2
  have e3 : ∑ u ∈ Finset.range n, max (graph u sink) 0 = ∑ u ∈ Finset.range n, graph u sink :=
    Finset.sum_congr rfl (fun u hu => max_eq_left (hg u (Finset.mem_range.mp hu) sink ht).1)
  rw [e3] at b3
  have hmf : st.maxFlow = rowSum graph n source - rowSum st.capacity n source := by
    rw [inv.flow]
    exact wrap32_eq _ (by omega) (by omega)
  exact ⟨st.maxFlow, simulate32_of_run hrun, by omega, by omega, by omega⟩

/-- C3 (amended) at the diamond graph of scenario 2. -/
theorem simulateFlowNetwork_bounds_witness :
    ∃ total, simulateFlowNetwork32 25 diamond 0 3 4 zeroLocals = some total ∧ 0 ≤ total ∧
      total ≤ ∑ v ∈ Finset.range 4, diamond 0 v ∧ total ≤ ∑ u ∈ Finset.range 4, diamond u 3 :=
  simulateFlowNetwork_bounds diamond 4 0 3 25 zeroLocals (by decide) (by decide) (by decide)
    (by decide) (by simp [Finset.sum_range_succ, table, diamond])
    (by simp [fuelBound, outCap, Finset.sum_range_succ, table, diamond])

/-- C4 (amended): for every valid input with `graph[u][v] + graph[v][u] ≤ 2^31 - 1` for all
`u, v < n` and with the capacities that leave the source summing to at most `2^31 - 1`, with
the net flow on `(u, v)` taken as `graph u v` minus the final `capacity u v` of the run on
32-bit `int`, the net flow out of every node other than source and sink sums to 0 and the net
flow out of the source sums to the total returned. -/
theorem simulateFlowNetwork_conservation (graph : Nat → Nat → Int) (n source sink fuel : Nat)
    (l : Locals) (hs : source < n) (_ht : sink < n) (hst : source ≠ sink)
    (hg : ∀ u, u < n → ∀ v, v < n → 0 ≤ graph u v)
    (hpair : ∀ u, u < n → ∀ v, v < n → graph u v + graph v u ≤ 2147483647)
    (hout : ∑ v ∈ Finset.range n, graph source v ≤ 2147483647)
    (hfuel : fuelBound graph source n ≤ fuel) :
    ∃ st : FlowState, runFlow32 fuel graph source sink n l = some st ∧
      simulateFlowNetwork32 fuel graph source sink n l = some st.maxFlow ∧
      (∀ w, w < n → w ≠ source → w ≠ sink →
        ∑ v ∈ Finset.range n, (graph w v - st.capacity w v) = 0) ∧
      ∑ v ∈ Finset.range n, (graph source v - st.capacity source v) = st.maxFlow := by
  obtain ⟨st, hrun, inv, _⟩ := @runFlow_spec graph source sink n fuel l hs hst hfuel
  rw [← runFlow32_eq fuel l hs hst hg hpair hout] at hrun
  refine ⟨st, hrun, simulate32_of_run hrun, ?_, ?_⟩
  · intro w hw hws hwt
    have h := inv.rows w hw
    rw [if_neg hws, if_neg hwt] at h
    rw [Finset.sum_sub_distrib]
    unfold rowSum at h
    omega
  · have h := inv.rows source hs
    rw [if_pos rfl, if_neg hst] at h
    rw [Finset.sum_sub_distrib]
    unfold rowSum at h
    omega

/-- C4 (amended) at the diamond graph of scenario 2. -/
theorem simulateFlowNetwork_conservation_witness :
    ∃ st : FlowState, runFlow32 25 diamond 0 3 4 zeroLocals = some st ∧
      simulateFlowNetwork32 25 diamond 0 3 4 zeroLocals = some st.maxFlow ∧
      (∀ w, w < 4 → w ≠ 0 → w ≠ 3 → ∑ v ∈ Finset.range 4, (diamond w v - st.capacity w v) = 0) ∧
      ∑ v ∈ Finset.range 4, (diamond 0 v - st.capacity 0 v) = st.maxFlow :=
  simulateFlowNetwork_conservation diamond 4 0 3 25 zeroLocals (by decide) (by decide)
    (by decide) (by decide) (by decide) (by simp [Finset.sum_range_succ, table, diamond])
    (by simp [fuelBound, outCap, Finset.sum_range_succ, table, diamond])

/-- C5 (amended): `simulateFlowNetwork` has no error outcome and validates nothing. For every
graph of `int` capacities, negative ones included, and in-range source ≠ sink it copies the
graph into the residual table and the run on 32-bit `int` ends and returns a total. The total is
the 32-bit value of an amount between 0 and the sum of the positive capacities that leave the
source, so it lies between 0 and that sum whenever the sum is at most `2^31 - 1`. -/
theorem simulateFlowNetwork_accepts (graph : Nat → Nat → Int) (n source sink fuel : Nat)
    (l : Locals) (hs : source < n) (ht : sink < n) (hst : source ≠ sink)
    (hint : ∀ u, u < n → ∀ v, v < n → -2147483648 ≤ graph u v ∧ graph u v ≤ 2147483647)
    (hfuel : fuelBound graph source n ≤ fuel) :
    (∀ u v, u < n → v < n → (initState graph n l).capacity u v = graph u v) ∧
    ∃ st : FlowState, runFlow32 fuel graph source sink n l = some st ∧
      simulateFlowNetwork32 fuel graph source sink n l = some st.maxFlow ∧
      (∃ amount : Int, 0 ≤ amount ∧ amount ≤ outCap graph n source ∧
        st.maxFlow = wrap32 amount) ∧
      (outCap graph n source ≤ 2147483647 →
        0 ≤ st.maxFlow ∧ st.maxFlow ≤ outCap graph n source) := by
  refine ⟨fun u v hu hv => initState_capacity graph n l u v hu hv, ?_⟩
  obtain ⟨st, hrun, inv, _⟩ := @runFlow32_spec graph source sink n fuel l hs ht hst hint hfuel
  obtain ⟨b1, b2, _⟩ := inv.flow_bounds
  refine ⟨st, hrun, simulate32_of_run hrun, ⟨_, b1, b2, inv.flow⟩, ?_⟩
  intro hout
  have hmf : st.maxFlow = rowSum graph n source - rowSum st.capacity n source := by
    rw [inv.flow]
    exact wrap32_eq _ (by omega) (by omega)
  omega

/-- C5 (amended) at a graph with a negative capacity. -/
theorem simulateFlowNetwork_accepts_witness :
    ∃ st : FlowState, runFlow32 13 (table [[0, 10], [-3, 0]]) 0 1 2 zeroLocals = some st ∧
      simulateFlowNetwork32 13 (table [[0, 10], [-3, 0]]) 0 1 2 zeroLocals = some st.maxFlow ∧
      0 ≤ st.maxFlow ∧ st.maxFlow ≤ outCap (table [[0, 10], [-3, 0]]) 2 0 := by
  obtain ⟨_, st, h1, h2, _, h4⟩ := simulateFlowNetwork_accepts (table [[0, 10], [-3, 0]]) 2 0 1
    13 zeroLocals (by decide) (by decide) (by decide) (by decide)
    (by simp [fuelBound, outCap, Finset.sum_range_succ, table])
  exact ⟨st, h1, h2, h4 (by simp [outCap, Finset.sum_range_succ, table])⟩

/-- One augmenting pass on 32-bit `int` from a residual table whose entries are at least 0 and
whose pair sums are at most `2^31 - 1`: nothing wraps in the table. -/
theorem iteration32_effect {inner s t n : Nat} {st st1 : FlowState}
    (hb : ∀ a b, a < n → b < n → 0 ≤ st.capacity a b ∧
      st.capacity a b + st.capacity b a ≤ 2147483647)
    (h : iteration32 inner s t n st = some (Step.again st1)) :
    ∃ r : Int, 1 ≤ r ∧ r ≤ 9999 ∧ st1.maxFlow = wrap32 (st.maxFlow + r) ∧
      (∀ a b, a < n → b < n → 0 ≤ st1.capacity a b ∧
        st1.capacity a b + st1.capacity b a = st.capacity a b + st.capacity b a) ∧
      ∀ a b, a < n → b < n →
        (PathEdge st1.parent s t a b → st1.capacity a b = st.capacity a b - r) ∧
        (PathEdge st1.parent s t b a → st1.capacity a b = st.capacity a b + r) ∧
        (¬ PathEdge st1.parent s t a b → ¬ PathEdge st1.parent s t b a →
          st1.capacity a b = st.capacity a b) := by
  rcases iteration32_exact inner s t n st with ⟨_, h2⟩ | ⟨st2, _, h2⟩ | ⟨st2, c32, hit, h2, h3⟩
  · rw [h2] at h; simp at h
  · rw [h2] at h; simp at h
  · rw [h2] at h
    simp only [Option.some.injEq, Step.again.injEq] at h
    subst h
    obtain ⟨r, d, q, htr, hmf, hr9, _, _, heff⟩ := iteration_effect hit
    have hpos := iteration_pathFlow_pos hit
    simp only [zero_add] at hmf hpos
    have hc : ∀ a b, a < n → b < n → c32 a b = st2.capacity a b := by
      intro a b ha hb1
      have b1 := hb a b ha hb1
      have b2 := hb b a hb1 ha
      rw [h3 a b (wrap32_eq _ (by omega) (by omega)).symm]
      have n1 := iteration_nonneg hit a b b1.1
      have n2 := iteration_nonneg hit b a b2.1
      have n3 := iteration_pair hit a b
      simp only at n3
      exact wrap32_eq _ (by omega) (by omega)
    refine ⟨r, by omega, hr9, by rw [hmf], ?_, ?_⟩
    · intro a b ha hb1
      show 0 ≤ c32 a b ∧ c32 a b + c32 b a = st.capacity a b + st.capacity b a
      rw [hc a b ha hb1, hc b a hb1 ha]
      exact ⟨iteration_nonneg hit a b (hb a b ha hb1).1, iteration_pair hit a b⟩
    · intro a b ha hb1
      show (PathEdge st2.parent s t a b → c32 a b = st.capacity a b - r) ∧
        (PathEdge st2.parent s t b a → c32 a b = st.capacity a b + r) ∧
        (¬ PathEdge st2.parent s t a b → ¬ PathEdge st2.parent s t b a →
          c32 a b = st.capacity a b)
      rw [hc a b ha hb1]
      exact heff a b

theorem Reached32.pairInv {graph : Nat → Nat → Int} {inner s t n : Nat} {l : Locals}
    {st : FlowState} (hg : ∀ u, u < n → ∀ v, v < n → 0 ≤ graph u v)
    (h : Reached32 inner s t n (initState graph n l) st) :
    (∀ u, u < n → ∀ v, v < n → graph u v + graph v u ≤ 2147483647) →
    ∀ a b, a < n → b < n → 0 ≤ st.capacity a b ∧
      st.capacity a b + st.capacity b a = graph a b + graph b a := by
  intro hpair
  induction h with
  | start =>
    intro a b ha hb
    rw [initState_capacity graph n l a b ha hb, initState_capacity graph n l b a hb ha]
    exact ⟨hg a ha b hb, rfl⟩
  | @step sa sb _ hstep ih =>
    intro a b ha hb
    have hb0 : ∀ a b, a < n → b < n → 0 ≤ sa.capacity a b ∧
        sa.capacity a b + sa.capacity b a ≤ 2147483647 :=
      fun a b ha hb => ⟨(ih a b ha hb).1, by
        have := (ih a b ha hb).2
        have := hpair a ha b hb
        omega⟩
    obtain ⟨r, _, _, _, h4, _⟩ := iteration32_effect hb0 hstep
    have := h4 a b ha hb
    have := ih a b ha hb
    omega

/-- C14 (amended): if every input capacity is at least 0 and
`graph[u][v] + graph[v][u] ≤ 2^31 - 1` for all `u, v < n`, then after the copy loops and after
every augmentation of the run on 32-bit `int` all entries `capacity[u][v]` with `u, v < n` are
at least 0. -/
theorem capacity_nonneg (graph : Nat → Nat → Int) (n source sink inner : Nat) (l : Locals)
    (st : FlowState) (hg : ∀ u, u < n → ∀ v, v < n → 0 ≤ graph u v)
    (hpair : ∀ u, u < n → ∀ v, v < n → graph u v + graph v u ≤ 2147483647)
    (h : Reached32 inner source sink n (initState graph n l) st) :
    ∀ u v, u < n → v < n → 0 ≤ st.capacity u v :=
  fun u v hu hv => (h.pairInv hg hpair u v hu hv).1

/-- C15 (amended): if every input capacity is at least 0 and
`graph[u][v] + graph[v][u] ≤ 2^31 - 1` for all `u, v < n`, then in the run on 32-bit `int`,
before and after every augmentation, `capacity[u][v] + capacity[v][u]` equals
`graph[u][v] + graph[v][u]` for all `u, v < n`; an augmentation lowers the entry of every edge
`(u, v)` of the walked path by the amount pushed, raises the entry `(v, u)` by it and leaves all
other entries with `u, v < n` as they are. -/
theorem capacity_pair_sum (graph : Nat → Nat → Int) (n source sink inner : Nat) (l : Locals)
    (st st1 : FlowState) (hg : ∀ u, u < n → ∀ v, v < n → 0 ≤ graph u v)
    (hpair : ∀ u, u < n → ∀ v, v < n → graph u v + graph v u ≤ 2147483647)
    (h0 : Reached32 inner source sink n (initState graph n l) st)
    (h : iteration32 inner source sink n st = some (Step.again st1)) :
    (∀ u v, u < n → v < n → st.capacity u v + st.capacity v u = graph u v + graph v u) ∧
    (∀ u v, u < n → v < n → st1.capacity u v + st1.capacity v u = graph u v + graph v u) ∧
    ∃ pathFlow : Int, 1 ≤ pathFlow ∧ pathFlow ≤ 9999 ∧
      st1.maxFlow = wrap32 (st.maxFlow + pathFlow) ∧
      ∀ a b, a < n → b < n →
        (PathEdge st1.parent source sink a b →
          st1.capacity a b = st.capacity a b - pathFlow) ∧
        (PathEdge st1.parent source sink b a →
          st1.capacity a b = st.capacity a b + pathFlow) ∧
        (¬ PathEdge st1.parent source sink a b → ¬ PathEdge st1.parent source sink b a →
          st1.capacity a b = st.capacity a b) := by
  have hb0 : ∀ a b, a < n → b < n → 0 ≤ st.capacity a b ∧
      st.capacity a b + st.capacity b a ≤ 2147483647 :=
    fun a b ha hb => ⟨(h0.pairInv hg hpair a b ha hb).1, by
      have := (h0.pairInv hg hpair a b ha hb).2
      have := hpair a ha b hb
      omega⟩
  obtain ⟨r, h1, h2, h3, _, h5⟩ := iteration32_effect hb0 h
  exact ⟨fun u v hu hv => (h0.pairInv hg hpair u v hu hv).2,
    fun u v hu hv => ((Reached32.step h0 h).pairInv hg hpair u v hu hv).2, r, h1, h2, h3, h5⟩

theorem Reached32.maxFlow_mono {graph : Nat → Nat → Int} {inner s t n : Nat} {l : Locals}
    {st : FlowState} (hs : s < n) (ht : t < n) (hst : s ≠ t)
    (hint : ∀ u, u < n → ∀ v, v < n → -2147483648 ≤ graph u v ∧ graph u v ≤ 2147483647)
    (hout : outCap graph n s ≤ 2147483647)
    (h : Reached32 inner s t n (initState graph n l) st) :
    st.maxFlow = rowSum graph n s - rowSum st.capacity n s ∧ 0 ≤ st.maxFlow ∧
      st.maxFlow ≤ outCap graph n s := by
  have inv := h.rowInv hs ht hst hint
  obtain ⟨b1, b2, _⟩ := inv.flow_bounds
  have hmf : st.maxFlow = rowSum graph n s - rowSum st.capacity n s := by
    rw [inv.flow]
    exact wrap32_eq _ (by omega) (by omega)
  exact ⟨hmf, by omega, by omega⟩

/-- C17 (amended): in the run on 32-bit `int` every augmentation adds to the total, modulo
`2^32`, an amount between 1 and 9999. For a valid input whose capacities are `int` values and
whose capacities leaving the source sum to at most `2^31 - 1` nothing wraps: the total is at
least 0 in every state of the outer loop, and after a pass that augments it is strictly greater
than before, by between 1 and 9999. -/
theorem maxFlow_increases (graph : Nat → Nat → Int) (n source sink inner : Nat) (l : Locals)
    (st st1 : FlowState)
    (h0 : Reached32 inner source sink n (initState graph n l) st)
    (h : iteration32 inner source sink n st = some (Step.again st1)) :
    (∃ pathFlow : Int, 1 ≤ pathFlow ∧ pathFlow ≤ 9999 ∧
      st1.maxFlow = wrap32 (st.maxFlow + pathFlow)) ∧
    (source < n → sink < n → source ≠ sink →
      (∀ u, u < n → ∀ v, v < n → 0 ≤ graph u v ∧ graph u v ≤ 2147483647) →
      ∑ v ∈ Finset.range n, graph source v ≤ 2147483647 →
      (initState graph n l).maxFlow ≤ st.maxFlow ∧ st.maxFlow < st1.maxFlow ∧
        1 ≤ st1.maxFlow - st.maxFlow ∧ st1.maxFlow - st.maxFlow ≤ 9999) := by
  constructor
  · rcases iteration32_exact inner source sink n st with
      ⟨_, h2⟩ | ⟨st2, _, h2⟩ | ⟨st2, c32, hit, h2, _⟩
    · rw [h2] at h; simp at h
    · rw [h2] at h; simp at h
    · rw [h2] at h
      simp only [Option.some.injEq, Step.again.injEq] at h
      subst h
      have hpos := iteration_pathFlow_pos hit
      simp only [zero_add] at hpos
      exact ⟨st2.maxFlow, by omega, hpos.2, rfl⟩
  · intro hs ht hst hg hout
    have hint : ∀ u, u < n → ∀ v, v < n →
        -2147483648 ≤ graph u v ∧ graph u v ≤ 2147483647 :=
      fun u hu v hv => ⟨by have := (hg u hu v hv).1; omega, (hg u hu v hv).2⟩
    have hcap : outCap graph n source ≤ 2147483647 := by
      rw [outCap_nonneg (fun v hv => (hg source hs v hv).1)]
      exact hout
    obtain ⟨e0, p0, _⟩ := h0.maxFlow_mono hs ht hst hint hcap
    obtain ⟨e1, _, _⟩ := (Reached32.step h0 h).maxFlow_mono hs ht hst hint hcap
    obtain ⟨_, r, r1, r9, hrow, _⟩ := iteration32_rowInv hs ht hst
      (h0.rowInv hs ht hst hint) h
    have hz : (initState graph n l).maxFlow = 0 := rfl
    rw [hz]
    exact ⟨p0, by omega, by omega, by omega⟩

theorem mainLoop32_mono {inner inner1 s t n : Nat} (hle : inner ≤ inner1) :
    ∀ (fuel : Nat) (st r : FlowState), mainLoop32 inner s t n fuel st = some r →
      ∀ fuel1, fuel ≤ fuel1 → mainLoop32 inner1 s t n fuel1 st = some r := by
  intro fuel
  induction fuel with
  | zero => intro st r h; simp [mainLoop32] at h
  | succ fuel ih =>
    intro st r h fuel1 hf
    obtain ⟨fuel1, rfl⟩ : ∃ f, fuel1 = f + 1 := ⟨fuel1 - 1, by omega⟩
    unfold mainLoop32 at h ⊢
    cases hit : iteration32 inner s t n st with
    | none => rw [hit] at h; simp at h
    | some step =>
      rw [hit] at h
      rw [iteration32_mono hit hle]
      cases step with
      | stop st1 => exact h
      | again st1 => exact ih st1 r h fuel1 (by omega)

theorem runFlow32_overflowGraph (fuel : Nat) (l : Locals) (hfuel : 8 ≤ fuel) :
    ∃ st, runFlow32 fuel overflowGraph 0 5 6 l = some st ∧ st.maxFlow = 5 ∧
      ∀ u, u < 6 → ∀ v, v < 6 → st.capacity u v = overflowFinal u v := by
  have h8 : ∃ st, runFlow32 8 overflowGraph 0 5 6 l = some st ∧ st.maxFlow = 5 ∧
      ∀ u, u < 6 → ∀ v, v < 6 → st.capacity u v = overflowFinal u v := by
    simp [runFlow32, mainLoop32, iteration32, bfs, bfsLoop, bfsInit, scanLoop,
      pathFlowLoop, augmentLoop32, initState, initCapacity_apply, set1, set2, table,
      overflowGraph, wrap32]
    intro u hu v hv
    interval_cases u <;> interval_cases v <;> simp [overflowFinal, table]
  obtain ⟨st, h1, h2⟩ := h8
  exact ⟨st, mainLoop32_mono hfuel 8 _ st h1 fuel hfuel, h2⟩

theorem mainLoop32_bigGraph (inner fuel : Nat) (l : Locals) (hinner : 4 ≤ inner)
    (hfuel : 4294967295 ≤ fuel) :
    ∃ st, mainLoop32 inner 0 2 3 fuel (initState bigGraph 3 l) = some st ∧ st.maxFlow = -2 ∧
      st.capacity 0 0 = 0 ∧ st.capacity 0 1 = 0 ∧ st.capacity 0 2 = 0 := by
  have hint : ∀ u, u < 3 → ∀ v, v < 3 →
      -2147483648 ≤ bigGraph u v ∧ bigGraph u v ≤ 2147483647 := by decide
  have hcap : outCap bigGraph 3 0 = 4294967294 := by
    simp [outCap, Finset.sum_range_succ, table, bigGraph]
  have inv0 := initState_rowInv bigGraph 0 2 3 l (by decide) (by decide) hint
  have hb0 := inv0.flow_bounds
  obtain ⟨st, hrun, inv, S, hsS, htS, _, hclosed, _⟩ :=
    @mainLoop32_spec bigGraph 0 2 3 inner (by decide) (by decide) (by decide) (by omega) fuel _
      inv0 (by omega)
  have s0 := inv.src 0 (by decide)
  have s1 := inv.src 1 (by decide)
  have s2 := inv.src 2 (by decide)
  have k1 := inv.snk 1 (by decide)
  have k2 := inv.snk 2 (by decide)
  have hcol := inv.col
  have hflow := inv.flow
  simp only [rowSum, Finset.sum_range_succ, Finset.sum_range_zero, zero_add] at hcol hflow
  have g00 : bigGraph 0 0 = 0 := by decide
  have g01 : bigGraph 0 1 = 2147483647 := by decide
  have g02 : bigGraph 0 2 = 2147483647 := by decide
  have g12 : bigGraph 1 2 = 2147483647 := by decide
  have g22 : bigGraph 2 2 = 0 := by decide
  rw [g00, g01, g02] at hflow
  rw [g00, g01, g02, g12, g22] at hcol
  rw [g00] at s0
  rw [g01] at s1
  rw [g02] at s2
  rw [g12] at k1
  rw [g22] at k2
  simp only [min_self, min_eq_right (by decide : (0 : Int) ≤ 2147483647)] at s0 s1 s2 k1 k2
  have c02 : st.capacity 0 2 = 0 := by
    by_contra hne
    exact htS (hclosed 0 hsS 2 (by decide) (by omega))
  have c01 : st.capacity 0 1 = 0 := by
    by_contra hne
    have h1 : 1 ∈ S := hclosed 0 hsS 1 (by decide) (by omega)
    exact htS (hclosed 1 h1 2 (by decide) (by omega))
  have c00 : st.capacity 0 0 = 0 := by omega
  refine ⟨st, hrun, ?_, c00, c01, c02⟩
  rw [hflow, c00, c01, c02]
  decide

theorem Reached32.final {inner s t n : Nat} {st0 : FlowState} :
    ∀ (fuel : Nat) (st r : FlowState), Reached32 inner s t n st0 st →
      mainLoop32 inner s t n fuel st = some r →
      ∃ st1, Reached32 inner s t n st0 st1 ∧ r.maxFlow = st1.maxFlow := by
  intro fuel
  induction fuel with
  | zero => intro st r _ h; simp [mainLoop32] at h
  | succ fuel ih =>
    intro st r hreach h
    unfold mainLoop32 at h
    cases hit : iteration32 inner s t n st with
    | none => rw [hit] at h; simp at h
    | some step =>
      rw [hit] at h
      cases step with
      | stop st1 =>
        simp only [Option.some.injEq] at h
        subst h
        refine ⟨st, hreach, ?_⟩
        rcases iteration32_exact inner s t n st with ⟨_, h2⟩ | ⟨st2, _, h2⟩ | ⟨st2, c32, _, h2, _⟩
        · rw [h2] at hit; simp at hit
        · rw [h2] at hit
          simp only [Option.some.injEq, Step.stop.injEq] at hit
          rw [← hit]
        · rw [h2] at hit; simp at hit
      | again st1 => exact ih st1 r (Reached32.step hreach hit) h

theorem Reached32.maxFlow_le {inner s t n : Nat} {st0 st : FlowState}
    (hmono : ∀ sa sb, Reached32 inner s t n st0 sa →
      iteration32 inner s t n sa = some (Step.again sb) → sa.maxFlow ≤ sb.maxFlow)
    (h : Reached32 inner s t n st0 st) : st0.maxFlow ≤ st.maxFlow := by
  induction h with
  | start => exact le_refl _
  | step hreach hstep ih => exact le_trans ih (hmono _ _ hreach hstep)

theorem iteration32_pairGraph (l : Locals) :
    ∃ st1, iteration32 3 0 1 2 (initState (table [[0, 5], [2147483647, 0]]) 2 l) =
        some (Step.again st1) ∧
      st1.capacity 0 1 = 0 ∧ st1.capacity 1 0 = -2147483644 ∧ st1.maxFlow = 5 := by
  simp [iteration32, bfs, bfsLoop, bfsInit, scanLoop, pathFlowLoop, augmentLoop32, initState,
    initCapacity_apply, set1, set2, table, wrap32]

theorem iteration32_edge (l : Locals) :
    ∃ st1, iteration32 3 0 1 2 (initState (table [[0, 20000], [0, 0]]) 2 l) =
        some (Step.again st1) ∧
      st1.capacity 0 1 = 10001 ∧ st1.capacity 1 0 = 9999 ∧ st1.maxFlow = 9999 := by
  simp [iteration32, bfs, bfsLoop, bfsInit, scanLoop, pathFlowLoop, augmentLoop32, initState,
    initCapacity_apply, set1, set2, table, wrap32]

theorem overflowGraph_flow :
    ∃ f : Nat → Nat → Int, IsFlow overflowGraph 6 0 5 f ∧ flowValue f 6 0 = 10 := by
  refine ⟨table [[0, 5, 0, 5, 0, 0], [0, 0, 0, 0, 5, 0], [0, 0, 0, 0, 0, 5],
    [0, 0, 5, 0, 0, 0], [0, 0, 0, 0, 0, 5], [0, 0, 0, 0, 0, 0]], ⟨?_, ?_, ?_⟩, ?_⟩
  · intro u v hu hv
    interval_cases u <;> interval_cases v <;> decide
  · intro u v hu hv
    rw [Int.cast_id]
    interval_cases u <;> interval_cases v <;> decide
  · intro w hw h0 h5
    interval_cases w <;> simp [Finset.sum_range_succ, table] at h0 h5 ⊢
  · simp [flowValue, Finset.sum_range_succ, table]

theorem bigGraph_flow :
    ∃ f : Nat → Nat → Int, IsFlow bigGraph 3 0 2 f ∧ flowValue f 3 0 = 4294967294 := by
  refine ⟨bigGraph, ⟨?_, ?_, ?_⟩, ?_⟩
  · intro u v hu hv
    interval_cases u <;> interval_cases v <;> decide
  · intro u v hu hv
    rw [Int.cast_id]
  · intro w hw h0 h2
    interval_cases w <;> simp [Finset.sum_range_succ, table, bigGraph] at h0 h2 ⊢
  · simp [flowValue, Finset.sum_range_succ, table, bigGraph]

/-- C1, refuted on 32-bit `int`. On the valid graph `overflowGraph` the first augmentation
raises `capacity[2][1] = 2147483647` by 5, the entry wraps below 0, the path 0->3->2->1->4->5
is lost and the total returned is 5, although a feasible flow of value 10 exists. On the valid
graph `bigGraph` the total itself wraps: -2 is returned although a feasible flow of value
4294967294 exists. -/
theorem simulateFlowNetwork_max_flow_overflow :
    (∀ u, u < 6 → ∀ v, v < 6 → 0 ≤ overflowGraph u v ∧ overflowGraph u v ≤ 2147483647) ∧
    (∀ (fuel : Nat) (l : Locals), 8 ≤ fuel →
      simulateFlowNetwork32 fuel overflowGraph 0 5 6 l = some 5) ∧
    (∃ f : Nat → Nat → Int, IsFlow overflowGraph 6 0 5 f ∧ flowValue f 6 0 = 10) ∧
    (∀ u, u < 3 → ∀ v, v < 3 → 0 ≤ bigGraph u v ∧ bigGraph u v ≤ 2147483647) ∧
    (∀ (fuel : Nat) (l : Locals), 4294967298 ≤ fuel →
      simulateFlowNetwork32 fuel bigGraph 0 2 3 l = some (-2)) ∧
    (∃ f : Nat → Nat → Int, IsFlow bigGraph 3 0 2 f ∧ flowValue f 3 0 = 4294967294) := by
  refine ⟨by decide, ?_, overflowGraph_flow, by decide, ?_, bigGraph_flow⟩
  · intro fuel l hfuel
    obtain ⟨st, h1, h2, _⟩ := runFlow32_overflowGraph fuel l hfuel
    rw [simulate32_of_run h1, h2]
  · intro fuel l hfuel
    obtain ⟨st, h1, h2, _⟩ := mainLoop32_bigGraph fuel fuel l (by omega) (by omega)
    have h3 : runFlow32 fuel bigGraph 0 2 3 l = some st := h1
    rw [simulate32_of_run h3, h2]

theorem reach_overflowFinal {c : Nat → Nat → Int}
    (hc : ∀ u, u < 6 → ∀ v, v < 6 → c u v = overflowFinal u v) :
    ∀ v, v ∈ ({0, 2, 3} : Finset Nat) ↔ Reach c 6 0 v := by
  intro v
  constructor
  · intro hv
    have h3 : Reach c 6 0 3 :=
      Relation.ReflTransGen.single ⟨by decide, by decide, by
        rw [hc 0 (by decide) 3 (by decide)]; decide⟩
    have h2 : Reach c 6 0 2 :=
      Relation.ReflTransGen.tail h3 ⟨by decide, by decide, by
        rw [hc 3 (by decide) 2 (by decide)]; decide⟩
    simp only [Finset.mem_insert, Finset.mem_singleton] at hv
    rcases hv with rfl | rfl | rfl
    · exact Relation.ReflTransGen.refl
    · exact h2
    · exact h3
  · intro hv
    induction hv with
    | refl => decide
    | @tail a b _ hedge ih =>
      obtain ⟨ha, hb, hpos⟩ := hedge
      rw [hc a ha b hb] at hpos
      simp only [Finset.mem_insert, Finset.mem_singleton] at ih ⊢
      rcases ih with rfl | rfl | rfl <;> interval_cases b <;>
        simp [overflowFinal, table] at hpos ⊢

theorem reach_source_only {c : Nat → Nat → Int} {n : Nat}
    (hc : ∀ v, v < n → c 0 v ≤ 0) : ∀ v, v ∈ ({0} : Finset Nat) ↔ Reach c n 0 v := by
  intro v
  constructor
  · intro hv
    rw [Finset.mem_singleton] at hv
    rw [hv]
    exact Relation.ReflTransGen.refl
  · intro hv
    induction hv with
    | refl => exact Finset.mem_singleton.mpr rfl
    | @tail a b _ hedge ih =>
      rw [Finset.mem_singleton] at ih
      obtain ⟨_, hb, hpos⟩ := hedge
      rw [ih] at hpos
      have := hc b hb
      omega

/-- C2, refuted on 32-bit `int`. On the valid graph `overflowGraph` the run ends with total 5
while the nodes reachable in the final residual table are 0, 2, 3 and the input capacities that
leave this set sum to 2147483657. On the valid graph `bigGraph` the run ends with total -2
while only the source is reachable and the capacities that leave it sum to 4294967294. -/
theorem simulateFlowNetwork_min_cut_overflow :
    (∃ st, runFlow32 8 overflowGraph 0 5 6 zeroLocals = some st ∧ st.maxFlow = 5 ∧
      (∀ v, v ∈ ({0, 2, 3} : Finset Nat) ↔ Reach st.capacity 6 0 v) ∧
      ∑ u ∈ ({0, 2, 3} : Finset Nat), ∑ v ∈ Finset.range 6 \ {0, 2, 3}, overflowGraph u v =
        2147483657) ∧
    (∃ st, runFlow32 4294967298 bigGraph 0 2 3 zeroLocals = some st ∧ st.maxFlow = -2 ∧
      (∀ v, v ∈ ({0} : Finset Nat) ↔ Reach st.capacity 3 0 v) ∧
      ∑ u ∈ ({0} : Finset Nat), ∑ v ∈ Finset.range 3 \ {0}, bigGraph u v = 4294967294) := by
  constructor
  · obtain ⟨st, h1, h2, h3⟩ := runFlow32_overflowGraph 8 zeroLocals (le_refl _)
    refine ⟨st, h1, h2, reach_overflowFinal h3, ?_⟩
    decide
  · obtain ⟨st, h1, h2, c0, c1, c2⟩ :=
      mainLoop32_bigGraph 4294967298 4294967298 zeroLocals (by omega) (by omega)
    refine ⟨st, h1, h2, reach_source_only ?_, ?_⟩
    · intro v hv
      interval_cases v <;> omega
    · decide

/-- C3, refuted on 32-bit `int`: on the valid graph `bigGraph` the total wraps and the run
returns -2. -/
theorem simulateFlowNetwork_bounds_overflow :
    (∀ u, u < 3 → ∀ v, v < 3 → 0 ≤ bigGraph u v ∧ bigGraph u v ≤ 2147483647) ∧
    (∀ (fuel : Nat) (l : Locals), 4294967298 ≤ fuel →
      simulateFlowNetwork32 fuel bigGraph 0 2 3 l = some (-2)) := by
  refine ⟨by decide, ?_⟩
  intro fuel l hfuel
  obtain ⟨st, h1, h2, _⟩ := mainLoop32_bigGraph fuel fuel l (by omega) (by omega)
  have h3 : runFlow32 fuel bigGraph 0 2 3 l = some st := h1
  rw [simulate32_of_run h3, h2]

/-- C4, refuted on 32-bit `int`. On the valid graph `overflowGraph` the run ends with a net
flow of 4294967296 out of the inner node 2. On the valid graph `bigGraph` the net flow out of
the source is 4294967294 while the total returned is -2. -/
theorem simulateFlowNetwork_conservation_overflow :
    (∃ st, runFlow32 8 overflowGraph 0 5 6 zeroLocals = some st ∧ st.maxFlow = 5 ∧
      ∑ v ∈ Finset.range 6, (overflowGraph 2 v - st.capacity 2 v) = 4294967296) ∧
    (∃ st, runFlow32 4294967298 bigGraph 0 2 3 zeroLocals = some st ∧ st.maxFlow = -2 ∧
      ∑ v ∈ Finset.range 3, (bigGraph 0 v - st.capacity 0 v) = 4294967294) := by
  constructor
  · obtain ⟨st, h1, h2, h3⟩ := runFlow32_overflowGraph 8 zeroLocals (le_refl _)
    refine ⟨st, h1, h2, ?_⟩
    simp only [Finset.sum_range_succ, Finset.sum_range_zero, zero_add]
    rw [h3 2 (by decide) 0 (by decide), h3 2 (by decide) 1 (by decide),
      h3 2 (by decide) 2 (by decide), h3 2 (by decide) 3 (by decide),
      h3 2 (by decide) 4 (by decide), h3 2 (by decide) 5 (by decide)]
    decide
  · obtain ⟨st, h1, h2, c0, c1, c2⟩ :=
      mainLoop32_bigGraph 4294967298 4294967298 zeroLocals (by omega) (by omega)
    refine ⟨st, h1, h2, ?_⟩
    simp only [Finset.sum_range_succ, Finset.sum_range_zero, zero_add]
    rw [c0, c1, c2]
    decide

/-- C14, refuted on 32-bit `int`: on the valid graph `{{0, 5}, {2147483647, 0}}` the first
augmentation raises `capacity[1][0] = 2147483647` by 5 and leaves it at -2147483644. -/
theorem capacity_negative_overflow :
    (∀ u, u < 2 → ∀ v, v < 2 → 0 ≤ table [[0, 5], [2147483647, 0]] u v ∧
      table [[0, 5], [2147483647, 0]] u v ≤ 2147483647) ∧
    ∃ st, Reached32 3 0 1 2 (initState (table [[0, 5], [2147483647, 0]]) 2 zeroLocals) st ∧
      st.capacity 1 0 = -2147483644 := by
  refine ⟨by decide, ?_⟩
  obtain ⟨st1, h1, _, h3, _⟩ := iteration32_pairGraph zeroLocals
  exact ⟨st1, Reached32.step Reached32.start h1, h3⟩

/-- C14 (amended) at the single edge of capacity 20000, after the first augmentation. -/
theorem capacity_nonneg_witness :
    ∃ st : FlowState,
      Reached32 3 0 1 2 (initState (table [[0, 20000], [0, 0]]) 2 zeroLocals) st ∧
      st.capacity 0 1 = 10001 ∧ ∀ u v, u < 2 → v < 2 → 0 ≤ st.capacity u v := by
  obtain ⟨st, h1, e1, _⟩ := iteration32_edge zeroLocals
  exact ⟨st, Reached32.step Reached32.start h1, e1,
    capacity_nonneg (table [[0, 20000], [0, 0]]) 2 0 1 3 zeroLocals st (by decide) (by decide)
      (Reached32.step Reached32.start h1)⟩

/-- C15, refuted on 32-bit `int`: on the valid graph `{{0, 5}, {2147483647, 0}}` the first
augmentation pushes 5 and leaves `capacity[0][1] + capacity[1][0]` at -2147483644, not at
`graph[0][1] + graph[1][0] = 2147483652`; the entry `capacity[1][0]` is not 5 more than
before. -/
theorem capacity_pair_sum_overflow :
    (∀ u, u < 2 → ∀ v, v < 2 → 0 ≤ table [[0, 5], [2147483647, 0]] u v ∧
      table [[0, 5], [2147483647, 0]] u v ≤ 2147483647) ∧
    ∃ st1, iteration32 3 0 1 2 (initState (table [[0, 5], [2147483647, 0]]) 2 zeroLocals) =
        some (Step.again st1) ∧
      st1.maxFlow = 5 ∧
      st1.capacity 0 1 + st1.capacity 1 0 = -2147483644 ∧
      table [[0, 5], [2147483647, 0]] 0 1 + table [[0, 5], [2147483647, 0]] 1 0 = 2147483652 ∧
      (initState (table [[0, 5], [2147483647, 0]]) 2 zeroLocals).capacity 1 0 = 2147483647 ∧
      st1.capacity 1 0 = -2147483644 := by
  refine ⟨by decide, ?_⟩
  obtain ⟨st1, h1, h2, h3, h4⟩ := iteration32_pairGraph zeroLocals
  refine ⟨st1, h1, h4, by rw [h2, h3]; decide, by decide, ?_, h3⟩
  rw [initState_capacity _ _ _ _ _ (by decide) (by decide)]
  decide

/-- C15 (amended) at the single edge of capacity 20000: the first augmentation. -/
theorem capacity_pair_sum_witness :
    ∃ st1 : FlowState,
      iteration32 3 0 1 2 (initState (table [[0, 20000], [0, 0]]) 2 zeroLocals) =
        some (Step.again st1) ∧
      (∀ u v, u < 2 → v < 2 →
        st1.capacity u v + st1.capacity v u =
          table [[0, 20000], [0, 0]] u v + table [[0, 20000], [0, 0]] v u) ∧
      st1.capacity 0 1 = 10001 ∧ st1.capacity 1 0 = 9999 := by
  obtain ⟨st1, h1, e1, e2, _⟩ := iteration32_edge zeroLocals
  have hc := capacity_pair_sum (table [[0, 20000], [0, 0]]) 2 0 1 3 zeroLocals _ st1
    (by decide) (by decide) Reached32.start h1
  exact ⟨st1, h1, hc.2.1, e1, e2⟩

/-- C17, refuted on 32-bit `int`: on the valid graph `bigGraph` some augmentation of the run
leaves the total smaller than it was. -/
theorem maxFlow_decreases_overflow :
    (∀ u, u < 3 → ∀ v, v < 3 → 0 ≤ bigGraph u v ∧ bigGraph u v ≤ 2147483647) ∧
    ∃ st st1, Reached32 4 0 2 3 (initState bigGraph 3 zeroLocals) st ∧
      iteration32 4 0 2 3 st = some (Step.again st1) ∧ st1.maxFlow < st.maxFlow := by
  refine ⟨by decide, ?_⟩
  by_contra hno
  have hmono : ∀ sa sb, Reached32 4 0 2 3 (initState bigGraph 3 zeroLocals) sa →
      iteration32 4 0 2 3 sa = some (Step.again sb) → sa.maxFlow ≤ sb.maxFlow := by
    intro sa sb h1 h2
    by_contra hlt
    exact hno ⟨sa, sb, h1, h2, by omega⟩
  obtain ⟨st, hrun, hmf, _⟩ := mainLoop32_bigGraph 4 4294967295 zeroLocals (le_refl _)
    (le_refl _)
  obtain ⟨st1, hreach, heq⟩ := Reached32.final 4294967295 _ st Reached32.start hrun
  have hle := Reached32.maxFlow_le hmono hreach
  have hz : (initState bigGraph 3 zeroLocals).maxFlow = 0 := rfl
  omega

/-- C17 (amended) at the single edge of capacity 20000: the first augmentation. -/
theorem maxFlow_increases_witness :
    ∃ st1 : FlowState,
      iteration32 3 0 1 2 (initState (table [[0, 20000], [0, 0]]) 2 zeroLocals) =
        some (Step.again st1) ∧ st1.maxFlow = 9999 ∧
      (initState (table [[0, 20000], [0, 0]]) 2 zeroLocals).maxFlow <
        st1.maxFlow ∧
      1 ≤ st1.maxFlow - (initState (table [[0, 20000], [0, 0]]) 2 zeroLocals).maxFlow ∧
      st1.maxFlow - (initState (table [[0, 20000], [0, 0]]) 2 zeroLocals).maxFlow ≤ 9999 := by
  obtain ⟨st1, h1, _, _, e3⟩ := iteration32_edge zeroLocals
  have h := (maxFlow_increases (table [[0, 20000], [0, 0]]) 2 0 1 3 zeroLocals _ st1
    Reached32.start h1).2 (by decide) (by decide) (by decide) (by decide)
    (by simp [Finset.sum_range_succ, table])
  exact ⟨st1, h1, e3, h.2⟩

end Harmony
